import Mathlib

/-!
# Verification of the Wikipedia crawler's URL frontier, dedup registry and orchestrator

Shallow embedding of `mingshsg/wiki_singapore_crawler` (Python).  Each definition
carries a reference to the Python construct it models:

* `wikipedia_crawler/models/data_models.py`   — `URLType`, `URLItem`
* `wikipedia_crawler/core/url_queue.py`       — `URLQueueManager`
* `wikipedia_crawler/core/deduplication.py`   — `DeduplicationSystem`
* `wikipedia_crawler/core/wikipedia_crawler.py` — `WikipediaCrawler` loop
* `wikipedia_crawler/core/page_processor.py`  — `PageProcessor` fetch/circuit breaker
* `wikipedia_crawler/utils/filename_utils.py` — filename sanitization
* `wikipedia_crawler/processors/content_processor.py` — HTML→Markdown cleanup
* `wikipedia_crawler/processors/category_handler.py` — depth gate

Machine integers do not occur (Python ints are unbounded); counters are `Nat`/`Int`.
Python `set`s of strings are modelled as duplicate-free `List String` used through
the set operations `setAdd`/`setDiscard`; membership coincides with Python `in`.
-/

namespace WikiCrawler

/-- Is `pat` a prefix of `s`?  (List-level `str.startswith`.) -/
def listStartsWith : List Char → List Char → Bool
  | _, [] => true
  | [], _ :: _ => false
  | c :: cs, p :: ps => c = p && listStartsWith cs ps

/-- Does `pat` occur inside `s`?  (List-level Python `pat in s`.) -/
def containsSubL (s pat : List Char) : Bool :=
  listStartsWith s pat ||
    (match s with
     | [] => false
     | _ :: rest => containsSubL rest pat)

/-- Substring test, models Python's `pat in s`. -/
def containsSub (s pat : String) : Bool := containsSubL s.data pat.data

/-- Strict lexicographic order on code-point lists: Python `str <` and the
`List Char` order underlying Lean's `String` order (spelled out so that the
kernel can evaluate it). -/
def chLt : List Char → List Char → Bool
  | [], [] => false
  | [], _ :: _ => true
  | _ :: _, [] => false
  | a :: as, b :: bs => if a < b then true else if b < a then false else chLt as bs

/-- Models `URLType` (models/data_models.py): tagged variant {CATEGORY, ARTICLE}. -/
inductive URLType where
  | category
  | article
deriving DecidableEq, Repr

/-- Models `URLItem` (models/data_models.py).  `discovered_at` (a wall-clock
`datetime.now()` in the source) is modelled as a monotone `Nat` tick; nothing
in the crawler compares or branches on it. -/
structure URLItem where
  url : String
  url_type : URLType
  priority : Nat
  depth : Nat
  discovered_at : Nat
deriving DecidableEq, Repr

/-- `URLItem.__post_init__` validation: the URL must start with `https://` and
contain `wikipedia.org`, else a `ValueError` is raised. -/
def validWikiUrl (url : String) : Bool :=
  listStartsWith url.data "https://".data && containsSub url "wikipedia.org"

/-- `URLQueueManager._priority_map` (url_queue.py lines 55-58):
CATEGORY ↦ 1 (served first), ARTICLE ↦ 2. -/
def priorityMap : URLType → Nat
  | .category => 1
  | .article => 2

/-- Python `set.add` on a duplicate-free list. -/
def setAdd (l : List String) (u : String) : List String :=
  if u ∈ l then l else u :: l

/-- Python `set.discard` on a duplicate-free list. -/
def setDiscard (l : List String) (u : String) : List String :=
  l.filter (fun x => x ≠ u)

/-- `URLQueueManager._stats` (url_queue.py lines 47-52). -/
structure QueueStats where
  urls_added : Nat
  urls_completed : Nat
  categories_pending : Int
  articles_pending : Int
deriving DecidableEq, Repr

/-- One heap entry of `URLQueueManager._queue`: the tuple
`(priority, url, url_item)` put by `add_url` (url_queue.py line 91). -/
abbrev QueueEntry := Nat × String × URLItem

/-- State of `URLQueueManager`: the priority queue's contents (as the multiset of
heap entries, in insertion order), the pending and completed URL sets, the stats,
and the clock tick used for `discovered_at`. -/
structure QueueState where
  queue : List QueueEntry
  pending : List String
  completed : List String
  stats : QueueStats
  tick : Nat
deriving DecidableEq, Repr

/-- Fresh `URLQueueManager()` state. -/
def QueueState.empty : QueueState :=
  { queue := [], pending := [], completed := [], stats := ⟨0, 0, 0, 0⟩, tick := 0 }

/-- Models `URLQueueManager.add_url` (url_queue.py lines 62-102).
The duplicate check compares the *raw* URL string against the pending and
completed sets; no canonicalization happens in this method.  Constructing the
`URLItem` raises `ValueError` for a non-`https`/non-Wikipedia URL, modelled by
`Except.error`. -/
def add_url (s : QueueState) (url : String) (t : URLType) (depth : Nat) :
    Except String (Bool × QueueState) :=
  if url ∈ s.pending ∨ url ∈ s.completed then
    .ok (false, s)
  else if ¬ validWikiUrl url then
    .error "invalid URL for URLItem"
  else
    let priority := priorityMap t
    let item : URLItem :=
      { url := url, url_type := t, priority := priority, depth := depth,
        discovered_at := s.tick }
    .ok (true,
      { queue := s.queue ++ [(priority, url, item)]
        pending := setAdd s.pending url
        completed := s.completed
        stats :=
          { urls_added := s.stats.urls_added + 1
            urls_completed := s.stats.urls_completed
            categories_pending :=
              if t = .category then s.stats.categories_pending + 1
              else s.stats.categories_pending
            articles_pending :=
              if t = .article then s.stats.articles_pending + 1
              else s.stats.articles_pending }
        tick := s.tick + 1 })

/-- Strict order on heap entries: Python's tuple comparison on
`(priority, url, item)` compares the priority first, then the URL string
(the `URLItem` is only reached on a tie of both, which cannot occur for
entries simultaneously in the queue — see `drain_nodupKeys`). -/
def entryLt (a b : QueueEntry) : Bool :=
  a.1 < b.1 || (a.1 = b.1 && chLt a.2.1.data b.2.1.data)

/-- Reflexive closure used by the heap pop: `entryLe a b` iff `¬ entryLt b a`. -/
def entryLe (a b : QueueEntry) : Bool := ! entryLt b a

/-- Pop the minimum entry out of the heap's content (leftmost among equals):
models `PriorityQueue.get_nowait`, which returns the smallest tuple. -/
def popMinEntry : List QueueEntry → Option (QueueEntry × List QueueEntry)
  | [] => none
  | e :: es =>
    match popMinEntry es with
    | none => some (e, [])
    | some (m, rest) =>
        if entryLe e m then some (e, es) else some (m, e :: rest)

/-- Models `URLQueueManager.get_next_url` (url_queue.py lines 104-132): pop the
smallest heap entry, discard its URL from the pending set, update the per-kind
pending counters. -/
def get_next_url (s : QueueState) : Option URLItem × QueueState :=
  match popMinEntry s.queue with
  | none => (none, s)
  | some ((_, url, item), rest) =>
    (some item,
      { queue := rest
        pending := setDiscard s.pending url
        completed := s.completed
        stats :=
          { urls_added := s.stats.urls_added
            urls_completed := s.stats.urls_completed
            categories_pending :=
              if item.url_type = .category then s.stats.categories_pending - 1
              else s.stats.categories_pending
            articles_pending :=
              if item.url_type = .article then s.stats.articles_pending - 1
              else s.stats.articles_pending }
        tick := s.tick })

/-- Models `URLQueueManager.mark_completed` (url_queue.py lines 134-146). -/
def mark_completed (s : QueueState) (url : String) : QueueState :=
  { queue := s.queue
    pending := setDiscard s.pending url
    completed := setAdd s.completed url
    stats := { s.stats with urls_completed := s.stats.urls_completed + 1 }
    tick := s.tick }

/-- Models `URLQueueManager.is_processed` (url_queue.py lines 148-159). -/
def queue_is_processed (s : QueueState) (url : String) : Bool :=
  url ∈ s.completed || url ∈ s.pending

/-- The URLs currently held by the heap. -/
def queueUrls (s : QueueState) : List String := s.queue.map (fun e => e.2.1)

/-!
## URL canonicalization (`DeduplicationSystem._normalize_url`, deduplication.py lines 272-313)

The Python code is `urlunparse` of a component-wise transformation of `urlparse(url.strip())`:
lowercase scheme and netloc, strip trailing slashes off a non-root path, re-encode the
query as `urlencode(sorted(parse_qs(query, keep_blank_values=True)), doseq=True)`, drop
the fragment (default settings `normalize_urls = remove_fragments = sort_query_params = True`).

The model below follows CPython 3.11's `urllib.parse` (`urlsplit`/`urlunsplit`/
`parse_qsl`/`urlencode`/`quote_plus`/`unquote`) at the level of Unicode code points,
with percent escapes encoded and decoded through UTF-8 bytes.  All quantified theorems restrict URLs
to `IsAsciiUrl` (printable ASCII, no `%`, `;`, `[`, `]`), the range on which this model
coincides with CPython exactly: `;` excludes the `urlparse` path-params split (which
`urlparse`/`urlunparse` would undo verbatim), `%` excludes pre-escaped input, and the
bracket characters exclude `urlsplit`'s IPv6 `ValueError` paths.  Everything is written
on `List Char` with `String` wrappers.
-/

/-- Split a list at the first occurrence of `sep` (models `str.find` + slicing);
`none` when `sep` does not occur. -/
def splitFirst (sep : Char) : List Char → Option (List Char × List Char)
  | [] => none
  | c :: cs =>
    if c = sep then some ([], cs)
    else
      match splitFirst sep cs with
      | none => none
      | some (a, b) => some (c :: a, b)

/-- Fuelled worker for `splitOnChar` (structural recursion keeps the function
kernel-computable; the wrapper always supplies enough fuel). -/
def splitOnCharF (sep : Char) : Nat → List Char → List (List Char)
  | 0, l => [l]
  | fuel + 1, l =>
    match splitFirst sep l with
    | none => [l]
    | some (a, b) => a :: splitOnCharF sep fuel b

/-- Split on every occurrence of `sep` (models `str.split(sep)`). -/
def splitOnChar (sep : Char) (l : List Char) : List (List Char) :=
  splitOnCharF sep l.length l

/-- CPython `scheme_chars`: letters, digits, `+`, `-`, `.`. -/
def isSchemeChar (c : Char) : Bool :=
  c.isAlpha || c.isDigit || c = '+' || c = '-' || c = '.'

/-- The five `urlsplit` components (the crawler's URLs carry no path params: see
the module comment on the `;`-free domain). -/
structure UrlParts where
  scheme : List Char
  netloc : List Char
  path : List Char
  query : List Char
  fragment : List Char
deriving DecidableEq, Repr

/-- `urlsplit` scheme extraction (CPython 3.11): split at the first `:`; accept
when the part before it is nonempty, starts with an ASCII letter and is made of
`scheme_chars` only, lowercasing it. -/
def splitSchemeL (l : List Char) : List Char × List Char :=
  match splitFirst ':' l with
  | none => ([], l)
  | some (before, after) =>
    if (before.head?.elim false Char.isAlpha) ∧ before.all isSchemeChar then
      (before.map Char.toLower, after)
    else ([], l)

/-- A character ending the netloc region: `/`, `?` or `#`. -/
def isNetlocEnd (c : Char) : Bool := c = '/' || c = '?' || c = '#'

/-- `urlsplit` netloc extraction: after a leading `//`, the netloc runs to the
first `/`, `?` or `#`. -/
def splitNetlocL : List Char → List Char × List Char
  | '/' :: '/' :: rest =>
      (rest.takeWhile (fun c => ¬ isNetlocEnd c), rest.dropWhile (fun c => ¬ isNetlocEnd c))
  | l => ([], l)

/-- `urlsplit` fragment split: everything after the first `#`. -/
def splitFragmentL (l : List Char) : List Char × List Char :=
  match splitFirst '#' l with
  | none => (l, [])
  | some (a, b) => (a, b)

/-- `urlsplit` query split: everything after the first `?`. -/
def splitQueryL (l : List Char) : List Char × List Char :=
  match splitFirst '?' l with
  | none => (l, [])
  | some (a, b) => (a, b)

/-- CPython 3.11 `urlsplit` input sanitization: strip leading C0-control/space
characters, then drop every tab, carriage return and newline. -/
def urlCleanL (l : List Char) : List Char :=
  (l.dropWhile (fun c => c.toNat ≤ 0x20)).filter
    (fun c => ¬ (c = '\t' ∨ c = '\r' ∨ c = '\n'))

/-- Models `urllib.parse.urlsplit` (CPython 3.11: sanitize, then scheme, then
`//netloc`, then fragment, then query). -/
def urlsplitL (l₀ : List Char) : UrlParts :=
  let l := urlCleanL l₀
  let s := splitSchemeL l
  let n := splitNetlocL s.2
  let f := splitFragmentL n.2
  let q := splitQueryL f.1
  ⟨s.1, n.1, q.1, q.2, f.2⟩

/-- CPython's `uses_netloc` scheme list (3.11), consulted by `urlunsplit`. -/
def usesNetloc : List (List Char) :=
  [[], "ftp".data, "http".data, "gopher".data, "nntp".data, "telnet".data,
    "imap".data, "wais".data, "file".data, "mms".data, "https".data, "shttp".data,
    "snews".data, "prospero".data, "rtsp".data, "rtsps".data, "rtspu".data,
    "rsync".data, "svn".data, "svn+ssh".data, "sftp".data, "nfs".data, "git".data,
    "git+ssh".data, "ws".data, "wss".data]

/-- Models `urllib.parse.urlunsplit` (CPython 3.11: the `//` marker is emitted
when the netloc is nonempty, or when the scheme is a known netloc scheme and
the path does not already begin with `//`). -/
def urlunsplitL (p : UrlParts) : List Char :=
  let url := p.path
  let url :=
    if p.netloc ≠ [] ∨ (p.scheme ≠ [] ∧ p.scheme ∈ usesNetloc ∧ url.take 2 ≠ ['/', '/']) then
      ('/' :: '/' :: p.netloc) ++
        (if url ≠ [] ∧ url.head? ≠ some '/' then '/' :: url else url)
    else url
  let url := if p.scheme ≠ [] then p.scheme ++ ':' :: url else url
  let url := if p.query ≠ [] then url ++ '?' :: p.query else url
  if p.fragment ≠ [] then url ++ '#' :: p.fragment else url

/-!
### Percent encoding / decoding (`quote_plus`, `unquote`)
-/

/-- CPython `_ALWAYS_SAFE`: letters, digits, `_`, `.`, `-`, `~`. -/
def alwaysSafe (c : Char) : Bool :=
  c.isAlpha || c.isDigit || c = '_' || c = '.' || c = '-' || c = '~'

/-- UTF-8 encoding of one code point as its byte values. -/
def utf8Bytes (c : Char) : List Nat :=
  let n := c.toNat
  if n < 0x80 then [n]
  else if n < 0x800 then [0xC0 + n / 0x40, 0x80 + n % 0x40]
  else if n < 0x10000 then
    [0xE0 + n / 0x1000, 0x80 + (n / 0x40) % 0x40, 0x80 + n % 0x40]
  else
    [0xF0 + n / 0x40000, 0x80 + (n / 0x1000) % 0x40, 0x80 + (n / 0x40) % 0x40,
      0x80 + n % 0x40]

/-- Uppercase hex digit for a value `< 16` (CPython quoting uses uppercase hex). -/
def hexDigitUpper (n : Nat) : Char :=
  if n < 10 then Char.ofNat ('0'.toNat + n) else Char.ofNat ('A'.toNat + (n - 10))

/-- `%XX` escape of one byte. -/
def pctByte (b : Nat) : List Char := ['%', hexDigitUpper (b / 16), hexDigitUpper (b % 16)]

/-- `quote_plus` with `safe=''` on one character: safe characters pass, space
becomes `+`, everything else is percent-encoded bytewise. -/
def quotePlusChar (c : Char) : List Char :=
  if alwaysSafe c then [c]
  else if c = ' ' then ['+']
  else (utf8Bytes c).flatMap pctByte

/-- Models `urllib.parse.quote_plus(s, safe='')` (the `urlencode` default quoter). -/
def quote_plus (l : List Char) : List Char := l.flatMap quotePlusChar

/-- Hex digit value, both cases (CPython `_hextobyte` accepts either case). -/
def hexVal (c : Char) : Option Nat :=
  if '0' ≤ c ∧ c ≤ '9' then some (c.toNat - '0'.toNat)
  else if 'a' ≤ c ∧ c ≤ 'f' then some (c.toNat - 'a'.toNat + 10)
  else if 'A' ≤ c ∧ c ≤ 'F' then some (c.toNat - 'A'.toNat + 10)
  else none

/-- The U+FFFD replacement character used by `errors='replace'` decoding. -/
def replChar : Char := Char.ofNat 0xFFFD

/-- Fuelled worker for `utf8DecodeReplace` (structural recursion on the fuel
keeps it kernel-computable; the wrapper supplies the list length, which always
suffices because every step consumes at least one byte). -/
def utf8DecodeF : Nat → List Nat → List Char
  | 0, _ => []
  | _ + 1, [] => []
  | fuel + 1, b :: bs =>
    if b < 0x80 then Char.ofNat b :: utf8DecodeF fuel bs
    else if 0xC2 ≤ b ∧ b ≤ 0xDF then
      match bs with
      | b1 :: rest =>
        if 0x80 ≤ b1 ∧ b1 ≤ 0xBF then
          Char.ofNat ((b - 0xC0) * 0x40 + (b1 - 0x80)) :: utf8DecodeF fuel rest
        else replChar :: utf8DecodeF fuel (b1 :: rest)
      | [] => [replChar]
    else if 0xE0 ≤ b ∧ b ≤ 0xEF then
      match bs with
      | b1 :: b2 :: rest =>
        if (0x80 ≤ b1 ∧ b1 ≤ 0xBF) ∧ (b ≠ 0xE0 ∨ 0xA0 ≤ b1) ∧ (b ≠ 0xED ∨ b1 ≤ 0x9F) ∧
            (0x80 ≤ b2 ∧ b2 ≤ 0xBF) then
          Char.ofNat ((b - 0xE0) * 0x1000 + (b1 - 0x80) * 0x40 + (b2 - 0x80)) ::
            utf8DecodeF fuel rest
        else replChar :: utf8DecodeF fuel (b1 :: b2 :: rest)
      | [b1] =>
        if (0x80 ≤ b1 ∧ b1 ≤ 0xBF) ∧ (b ≠ 0xE0 ∨ 0xA0 ≤ b1) ∧ (b ≠ 0xED ∨ b1 ≤ 0x9F) then
          [replChar]
        else replChar :: utf8DecodeF fuel [b1]
      | [] => [replChar]
    else if 0xF0 ≤ b ∧ b ≤ 0xF4 then
      match bs with
      | b1 :: b2 :: b3 :: rest =>
        if (0x80 ≤ b1 ∧ b1 ≤ 0xBF) ∧ (b ≠ 0xF0 ∨ 0x90 ≤ b1) ∧ (b ≠ 0xF4 ∨ b1 ≤ 0x8F) ∧
            (0x80 ≤ b2 ∧ b2 ≤ 0xBF) ∧ (0x80 ≤ b3 ∧ b3 ≤ 0xBF) then
          Char.ofNat ((b - 0xF0) * 0x40000 + (b1 - 0x80) * 0x1000 + (b2 - 0x80) * 0x40 +
              (b3 - 0x80)) :: utf8DecodeF fuel rest
        else replChar :: utf8DecodeF fuel (b1 :: b2 :: b3 :: rest)
      | b1 :: rest =>
        if (0x80 ≤ b1 ∧ b1 ≤ 0xBF) ∧ (b ≠ 0xF0 ∨ 0x90 ≤ b1) ∧ (b ≠ 0xF4 ∨ b1 ≤ 0x8F) then
          replChar :: utf8DecodeF fuel rest
        else replChar :: utf8DecodeF fuel (b1 :: rest)
      | [] => [replChar]
    else replChar :: utf8DecodeF fuel bs

/-- UTF-8 decoding of a byte list with `errors='replace'` (CPython decodes each
maximal percent-run as one byte string; literal characters around the runs are
ASCII and unaffected).  Invalid bytes become U+FFFD; only the single-byte
(ASCII) branch is reached by the theorems below. -/
def utf8DecodeReplace (l : List Nat) : List Char := utf8DecodeF l.length l

/-- Collect a maximal run of valid `%XX` escapes into byte values. -/
def pctRun : List Char → List Nat × List Char
  | [] => ([], [])
  | c :: cs =>
    if c = '%' then
      match cs with
      | c1 :: c2 :: rest =>
        match hexVal c1, hexVal c2 with
        | some h1, some h2 =>
          let r := pctRun rest
          ((h1 * 16 + h2) :: r.1, r.2)
        | _, _ => ([], c :: cs)
      | _ => ([], c :: cs)
    else ([], c :: cs)

/-- Fuelled worker for `unquoteL`. -/
def unquoteF : Nat → List Char → List Char
  | 0, _ => []
  | _ + 1, [] => []
  | fuel + 1, c :: cs =>
    if c = '%' then
      match pctRun (c :: cs) with
      | ([], _) => c :: unquoteF fuel cs
      | (b :: bs, rest) => utf8DecodeReplace (b :: bs) ++ unquoteF fuel rest
    else c :: unquoteF fuel cs

/-- Models CPython `unquote(s, 'utf-8', 'replace')`: literal characters pass
through, each maximal run of `%XX` escapes is decoded as a UTF-8 byte string. -/
def unquoteL (l : List Char) : List Char := unquoteF l.length l

/-- `parse_qsl`'s `+` → space replacement, applied before `unquote`. -/
def plusToSpace (l : List Char) : List Char :=
  l.map (fun c => if c = '+' then ' ' else c)

/-- Models `unquote` of a `+`-desugared field, i.e. `unquote(s.replace('+', ' '))`. -/
def unquote_plus (l : List Char) : List Char := unquoteL (plusToSpace l)

/-- Models `urllib.parse.parse_qsl(qs, keep_blank_values=True)`: split on `&`,
skip empty fields, split each field at its first `=` (a field without `=` gets
an empty value), unquote names and values. -/
def parse_qsl (qs : List Char) : List (List Char × List Char) :=
  (splitOnChar '&' qs).filterMap fun field =>
    if field = [] then none
    else
      match splitFirst '=' field with
      | none => some (unquote_plus field, [])
      | some (n, v) => some (unquote_plus n, unquote_plus v)

/-- Append a pair into the grouped association list, as `parse_qs` builds its
dict: first occurrence fixes the key position, later values are appended. -/
def insertGrouped (acc : List (List Char × List (List Char))) (k v : List Char) :
    List (List Char × List (List Char)) :=
  match acc with
  | [] => [(k, [v])]
  | (k', vs) :: rest =>
    if k' = k then (k', vs ++ [v]) :: rest
    else (k', vs) :: insertGrouped rest k v

/-- Models `parse_qs`: group the `parse_qsl` pairs by key. -/
def groupPairs (l : List (List Char × List Char)) : List (List Char × List (List Char)) :=
  l.foldl (fun acc p => insertGrouped acc p.1 p.2) []

/-- Stable insertion into a key-sorted grouped list (`x` goes before the first
strictly greater key). -/
def insertByKey (x : List Char × List (List Char)) :
    List (List Char × List (List Char)) → List (List Char × List (List Char))
  | [] => [x]
  | y :: ys => if chLt x.1 y.1 then x :: y :: ys else y :: insertByKey x ys

/-- Models `sorted(params.items())`: a stable sort of the grouped pairs by key
(keys are distinct, so the tie-breaking comparison of value lists is never
consulted). -/
def sortPairsByKey (l : List (List Char × List (List Char))) :
    List (List Char × List (List Char)) :=
  l.foldr insertByKey []

/-- Models `urlencode(sorted_pairs, doseq=True)`: one `quote_plus(k)=quote_plus(v)`
field per value, joined with `&`. -/
def urlencodeGrouped (l : List (List Char × List (List Char))) : List Char :=
  List.intercalate ['&']
    (l.flatMap fun p => p.2.map fun v => quote_plus p.1 ++ '=' :: quote_plus v)

/-- The full query rewrite of `_normalize_url`:
`urlencode(sorted(parse_qs(query, keep_blank_values=True).items()), doseq=True)`. -/
def sortQueryL (q : List Char) : List Char :=
  urlencodeGrouped (sortPairsByKey (groupPairs (parse_qsl q)))

/-- ASCII whitespace stripped by `str.strip()` (the full Python set also covers
non-ASCII Unicode spaces, which the ASCII URL domain of the theorems excludes). -/
def isPySpace (c : Char) : Bool :=
  c = ' ' || c = '\t' || c = '\n' || c = '\r' || c.toNat = 0x0B || c.toNat = 0x0C

/-- Models `str.strip()` on the ASCII domain. -/
def pyStrip (l : List Char) : List Char :=
  ((l.dropWhile isPySpace).reverse.dropWhile isPySpace).reverse

/-- Models `path.rstrip('/')`. -/
def rstripSlash (l : List Char) : List Char :=
  (l.reverse.dropWhile (fun c => c = '/')).reverse

/-- The component-wise normalization of `_normalize_url` under the default
settings: lowercase scheme and netloc, strip the trailing slashes of a non-root
path, sort a nonempty query, drop the fragment. -/
def normPartsL (p : UrlParts) : UrlParts :=
  { scheme := p.scheme.map Char.toLower
    netloc := p.netloc.map Char.toLower
    path :=
      if p.path ≠ ['/'] ∧ p.path.getLast? = some '/' then rstripSlash p.path else p.path
    query := if p.query ≠ [] then sortQueryL p.query else p.query
    fragment := [] }

/-- Models `DeduplicationSystem._normalize_url` (deduplication.py lines 272-313)
under the default settings, on code-point lists. -/
def normalizeUrlL (l : List Char) : List Char :=
  urlunsplitL (normPartsL (urlsplitL (pyStrip l)))

/-- `DeduplicationSystem._normalize_url` on `String`s. -/
def normalize_url (s : String) : String := String.mk (normalizeUrlL s.data)

/-- The character domain on which the `urllib.parse` model coincides with
CPython exactly: printable ASCII without `%`, `;`, `[`, `]`. -/
def urlChar (c : Char) : Bool :=
  33 ≤ c.toNat && c.toNat ≤ 126 && c ≠ '%' && c ≠ ';' && c ≠ '[' && c ≠ ']'

/-- URLs inside the faithfully modelled domain. -/
def IsAsciiUrl (s : String) : Bool := s.data.all urlChar

/-- The state left behind by a successful `get_next_url` that popped entry
`(p, u, it)` leaving `rest` on the heap. -/
def dequeuedState (s : QueueState) (u : String) (it : URLItem)
    (rest : List QueueEntry) : QueueState :=
  { queue := rest
    pending := setDiscard s.pending u
    completed := s.completed
    stats :=
      { urls_added := s.stats.urls_added
        urls_completed := s.stats.urls_completed
        categories_pending :=
          if it.url_type = .category then s.stats.categories_pending - 1
          else s.stats.categories_pending
        articles_pending :=
          if it.url_type = .article then s.stats.articles_pending - 1
          else s.stats.articles_pending }
    tick := s.tick }

/-- Fuelled worker for `drainItems`. -/
def drainF : Nat → QueueState → List URLItem
  | 0, _ => []
  | fuel + 1, s =>
    match get_next_url s with
    | (none, _) => []
    | (some it, s') => it :: drainF fuel s'

/-- Repeatedly dequeue until the queue is empty, collecting the returned
`URLItem`s (the observable dequeue order of `URLQueueManager`). -/
def drainItems (s : QueueState) : List URLItem := drainF s.queue.length s

/-- Total wrapper around `add_url` for concrete executions: every URL fed to it
in the theorems below passes the `URLItem` validation, so the exception branch
is never taken. -/
def addUrlD (s : QueueState) (url : String) (t : URLType) (depth : Nat) :
    Bool × QueueState :=
  ((add_url s url t depth).toOption).getD (false, s)

/-- Sequence a list of `add_url` calls. -/
def runAdds (reqs : List (String × URLType × Nat)) : QueueState :=
  reqs.foldl (fun s r => (addUrlD s r.1 r.2.1 r.2.2).2) QueueState.empty

/-- The order in which `get_next_url` serves items: ascending priority, and
ascending URL (code-point lexicographic) among equal priorities. -/
def itemOrder (a b : URLItem) : Prop :=
  a.priority < b.priority ∨
    (a.priority = b.priority ∧ chLt b.url.data a.url.data = false)

/-- Well-formedness of the heap entries: the tuple fields mirror the item, and
the priority is the `_priority_map` image of the URL type — true of every entry
`add_url` ever constructs. -/
def QueueWF (s : QueueState) : Prop :=
  ∀ e ∈ s.queue, e.1 = e.2.2.priority ∧ e.2.1 = e.2.2.url ∧
    e.2.2.priority = priorityMap e.2.2.url_type

/-!
## `unquote_plus ∘ quote_plus = id` (C8 query round-trip)
-/

/-- A character that `quote_plus` percent-encodes (neither safe nor space). -/
def encCh (c : Char) : Bool := ! (alwaysSafe c || c = ' ')

/-- The per-field step of `parse_qsl` (the body of its `filterMap`). -/
def qslField (field : List Char) : Option (List Char × List Char) :=
  if field = [] then none
  else
    match splitFirst '=' field with
    | none => some (unquote_plus field, [])
    | some (n, v) => some (unquote_plus n, unquote_plus v)

/-- The pair list a grouped query dictionary denotes. -/
def flatPairs (G : List (List Char × List (List Char))) : List (List Char × List Char) :=
  G.flatMap (fun p => p.2.map (fun v => (p.1, v)))

/-- The encoded fields of a grouped query dictionary. -/
def encFields (G : List (List Char × List (List Char))) : List (List Char) :=
  G.flatMap (fun p => p.2.map (fun v => quote_plus p.1 ++ '=' :: quote_plus v))

/-- ASCII bound for every pair of a grouped dictionary. -/
def asciiGrouped (G : List (List Char × List (List Char))) : Prop :=
  ∀ p ∈ G, (∀ c ∈ p.1, c.toNat < 0x80) ∧ (∀ v ∈ p.2, ∀ c ∈ v, c.toNat < 0x80)

/-!
## `parse_qs` grouping and `sorted` (C8)
-/

/-- The key list of a grouped dictionary. -/
def gKeys (G : List (List Char × List (List Char))) : List (List Char) :=
  G.map (fun p => p.1)

/-!
## The dedup registry and the crawl loop (C1, C5, C10)

`DeduplicationSystem` under its default settings keeps the *canonical* forms of
processed URLs (`is_processed`/`mark_processed`, deduplication.py lines 54-97).
`WikipediaCrawler._crawl_loop` (wikipedia_crawler.py lines 213-238) dequeues,
re-checks the registry, and `_process_url` (lines 281-295) marks the URL in the
registry and the frontier's completed set *before* fetching; a failed fetch
returns without enqueuing.  `_process_category_page` (lines 331-343) enqueues
each discovered URL not yet in the registry, `/Category:` links as CATEGORY at
`depth+1` and everything else as ARTICLE at `depth`.  The page fetch and the
handlers' link extraction are abstracted by an environment oracle.
-/

/-- Models `DeduplicationSystem.is_processed` (default settings: normalize). -/
def dedup_is_processed (processed : List String) (url : String) : Bool :=
  normalize_url url ∈ processed

/-- Models `DeduplicationSystem.mark_processed` (default settings). -/
def dedup_mark_processed (processed : List String) (url : String) : List String :=
  setAdd processed (normalize_url url)

/-- Outcome of `page_processor.process_page` plus the page handler for one URL:
a fetch failure, a category page with its discovered links, or an article. -/
inductive FetchResult where
  | failure : FetchResult
  | category : List String → FetchResult
  | article : FetchResult
deriving DecidableEq, Repr

/-- State carried across crawl-loop iterations: the frontier and the dedup
registry's processed set. -/
structure CrawlState where
  queue : QueueState
  processed : List String
deriving DecidableEq, Repr

/-- What one crawl-loop iteration did (the observable trace). -/
inductive CrawlEvent where
  | idle : CrawlEvent
  | dupSkipped : String → CrawlEvent
  | fetchFailed : String → CrawlEvent
  | handledCategory : String → Nat → CrawlEvent
  | handledArticle : String → CrawlEvent
deriving DecidableEq, Repr

/-- The enqueue loop of `_process_category_page` (wikipedia_crawler.py lines
331-343): each discovered URL not in the dedup registry is added, `/Category:`
links as CATEGORY at `depth+1`, others as ARTICLE at `depth`. -/
def enqueueDiscovered (processed : List String) (depth : Nat)
    (urls : List String) (q : QueueState) : QueueState :=
  urls.foldl (fun acc d =>
    if dedup_is_processed processed d then acc
    else if containsSub d "/Category:" then (addUrlD acc d .category (depth + 1)).2
    else (addUrlD acc d .article depth).2) q

/-- One iteration of `WikipediaCrawler._crawl_loop` (wikipedia_crawler.py lines
213-238 with `_process_url`, lines 281-295): dequeue; skip if the registry
already holds the canonical URL; otherwise mark processed and completed *before*
fetching, then fail, enqueue a category's links, or finish an article. -/
def crawlStep (env : String → Nat → FetchResult) (s : CrawlState) :
    CrawlEvent × CrawlState :=
  let r := get_next_url s.queue
  match r.1 with
  | none => (.idle, ⟨r.2, s.processed⟩)
  | some it =>
    if dedup_is_processed s.processed it.url then
      (.dupSkipped it.url, ⟨r.2, s.processed⟩)
    else
      let processed' := dedup_mark_processed s.processed it.url
      let q' := mark_completed r.2 it.url
      match env it.url it.depth with
      | .failure => (.fetchFailed it.url, ⟨q', processed'⟩)
      | .category discovered =>
          (.handledCategory it.url it.depth,
            ⟨enqueueDiscovered processed' it.depth discovered q', processed'⟩)
      | .article => (.handledArticle it.url, ⟨q', processed'⟩)

/-- Run `n` crawl-loop iterations, collecting the event trace. -/
def crawlRun (env : String → Nat → FetchResult) :
    Nat → CrawlState → List CrawlEvent × CrawlState
  | 0, s => ([], s)
  | n + 1, s =>
    let step := crawlStep env s
    let rest := crawlRun env n step.2
    (step.1 :: rest.1, rest.2)

/-- The serialized snapshot written by `URLQueueManager.save_state` and
`DeduplicationSystem.save_state`: heap entries, pending, completed, stats and
the processed set are stored verbatim (the clock is part of the timestamp
data). -/
structure CrawlSnapshot where
  queue_items : List QueueEntry
  pending_urls : List String
  completed_urls : List String
  qstats : QueueStats
  qtick : Nat
  processed_urls : List String
deriving DecidableEq, Repr

/-- Models `_save_state`: serialize both components. -/
def save_state (s : CrawlState) : CrawlSnapshot :=
  ⟨s.queue.queue, s.queue.pending, s.queue.completed, s.queue.stats, s.queue.tick,
    s.processed⟩

/-- Models `_load_state`: both components replace their state with the file
contents. -/
def load_state (snap : CrawlSnapshot) : CrawlState :=
  ⟨⟨snap.queue_items, snap.pending_urls, snap.completed_urls, snap.qstats,
    snap.qtick⟩, snap.processed_urls⟩

/-- A crawl of `n₁` iterations, a graceful shutdown (which saves state in the
`finally` block), a restart resuming from the saved files, and `n₂` more
iterations: the full event trace. -/
def runWithReload (env : String → Nat → FetchResult) (n₁ n₂ : Nat)
    (s₀ : CrawlState) : List CrawlEvent :=
  let seg1 := crawlRun env n₁ s₀
  let resumed := load_state (save_state seg1.2)
  seg1.1 ++ (crawlRun env n₂ resumed).1

/-- The URL of an event that reached the page fetch. -/
def touchedUrl? : CrawlEvent → Option String
  | .fetchFailed u => some u
  | .handledCategory u _ => some u
  | .handledArticle u => some u
  | _ => none

/-- The URL of an event that reached a page handler. -/
def handledUrl? : CrawlEvent → Option String
  | .handledCategory u _ => some u
  | .handledArticle u => some u
  | _ => none

/-!
## The category handler's depth gate (C5)
-/

/-- The discovered-URL list built by `CategoryPageHandler.process_category`
(category_handler.py lines 91-102): subcategories only below `max_depth`,
articles always. -/
def process_category_discovered (max_depth : Nat) (subcategories articles : List String)
    (depth : Nat) : List String :=
  (if depth < max_depth then subcategories else []) ++ articles

/-- The URL type and depth `_process_category_page` assigns a discovered URL
(wikipedia_crawler.py lines 334-341). -/
def classifyDiscovered (depth : Nat) (d : String) : URLType × Nat :=
  if containsSub d "/Category:" then (.category, depth + 1) else (.article, depth)

/-! ### C6: circuit breaker in `PageProcessor` (`core/page_processor.py`) -/

/-- Mirror of the `_stats` counters of `PageProcessor` that the failure path
touches (`core/page_processor.py`). -/
structure PPStats where
  requests_made : Nat
  connection_errors : Nat
  user_retries : Nat
  skipped_urls : Nat
  total_failures : Nat
  circuit_breaker_activations : Nat
deriving DecidableEq, Repr

/-- Operator answer to `_prompt_user_for_action`: `continue`, `skip`, or
anything else (invalid input, which re-prompts). -/
inductive UserChoice where
  | choiceContinue
  | choiceSkip
  | choiceOther
deriving DecidableEq, Repr

/-- External world of `PageProcessor._fetch_page`: the outcome of the n-th HTTP
attempt (`true` = HTTP 200, `false` = transient failure such as a connection
error), the outcome of the n-th connectivity probe
(`_test_network_connectivity`), and the operator answer to the n-th prompt. -/
structure NetEnv where
  attemptOk : Nat → Bool
  connOk : Nat → Bool
  choice : Nat → UserChoice

/-- Cursors into the three oracles plus the stats counters. -/
structure NetState where
  attempts : Nat
  probes : Nat
  prompts : Nat
  stats : PPStats
deriving DecidableEq, Repr

def NetState.init : NetState := ⟨0, 0, 0, ⟨0, 0, 0, 0, 0, 0⟩⟩

/-- The `for attempt in range(self.max_retries + 1)` loop shared by
`_fetch_page` and `_retry_url_after_user_choice`: a 200 response returns
immediately (counting `requests_made`); a transient failure counts a
connection error and moves to the next attempt. -/
def fetchAttempts (env : NetEnv) : Nat → NetState → Bool × NetState
  | 0, st => (false, st)
  | n + 1, st =>
    if env.attemptOk st.attempts then
      (true, { st with attempts := st.attempts + 1,
                       stats := { st.stats with requests_made := st.stats.requests_made + 1 } })
    else
      fetchAttempts env n
        { st with attempts := st.attempts + 1,
                  stats := { st.stats with connection_errors := st.stats.connection_errors + 1 } }

/-- `_retry_url_after_user_choice`: the same `max_retries + 1` attempt loop,
returning success or `None`. -/
def retry_url_after_user_choice (env : NetEnv) (max_retries : Nat)
    (st : NetState) : Bool × NetState :=
  fetchAttempts env (max_retries + 1) st

/-- `_test_network_connectivity`, read off the probe oracle. -/
def test_network_connectivity (env : NetEnv) (st : NetState) :
    Bool × NetState :=
  (env.connOk st.probes, { st with probes := st.probes + 1 })

/-- `_prompt_user_for_action`, read off the operator oracle. -/
def prompt_user_for_action (env : NetEnv) (st : NetState) :
    UserChoice × NetState :=
  (env.choice st.prompts, { st with prompts := st.prompts + 1 })

/-- The `while user_retry_cycle < max_user_retry_cycles` loop of
`_handle_failed_url_with_connectivity_check`. An invalid answer re-prompts
without advancing the cycle counter, so the loop needs fuel; `none` marks fuel
exhaustion, `some true` a successful retry response, `some false` the Python
`return None`. All stats updates mirror the source line by line. -/
def userRetryLoop (env : NetEnv) (max_retries max_user_retry_cycles : Nat) :
    Nat → Nat → NetState → Option Bool × NetState
  | 0, _, st => (none, st)
  | fuel + 1, user_retry_cycle, st =>
    if user_retry_cycle < max_user_retry_cycles then
      let pr := prompt_user_for_action env st
      match pr.1 with
      | UserChoice.choiceSkip =>
        (some false,
         { pr.2 with stats := { pr.2.stats with
                                skipped_urls := pr.2.stats.skipped_urls + 1,
                                total_failures := pr.2.stats.total_failures + 1 } })
      | UserChoice.choiceContinue =>
        let cyc := user_retry_cycle + 1
        let st1 :=
          { pr.2 with stats := { pr.2.stats with user_retries := pr.2.stats.user_retries + 1 } }
        let rr := retry_url_after_user_choice env max_retries st1
        if rr.1 then
          (some true, rr.2)
        else
          let ct := test_network_connectivity env rr.2
          if ct.1 then
            (some false,
             { ct.2 with stats := { ct.2.stats with
                                    total_failures := ct.2.stats.total_failures + 1 } })
          else if max_user_retry_cycles ≤ cyc then
            (some false,
             { ct.2 with stats := { ct.2.stats with
                                    skipped_urls := ct.2.stats.skipped_urls + 1,
                                    total_failures := ct.2.stats.total_failures + 1,
                                    circuit_breaker_activations :=
                                      ct.2.stats.circuit_breaker_activations + 1 } })
          else
            userRetryLoop env max_retries max_user_retry_cycles fuel cyc ct.2
      | UserChoice.choiceOther =>
        userRetryLoop env max_retries max_user_retry_cycles fuel
          user_retry_cycle pr.2
    else
      (some false,
       { st with stats := { st.stats with
                            skipped_urls := st.stats.skipped_urls + 1,
                            total_failures := st.stats.total_failures + 1,
                            circuit_breaker_activations :=
                              st.stats.circuit_breaker_activations + 1 } })

/-- `_handle_failed_url_with_connectivity_check`: probe connectivity; if the
probe fails, enter the user-retry loop with `max_user_retry_cycles = 3`;
otherwise record a permanent failure. -/
def handle_failed_url_with_connectivity_check (env : NetEnv)
    (max_retries fuel : Nat) (st : NetState) : Option Bool × NetState :=
  let ct := test_network_connectivity env st
  if ct.1 then
    (some false,
     { ct.2 with stats := { ct.2.stats with total_failures := ct.2.stats.total_failures + 1 } })
  else
    userRetryLoop env max_retries 3 fuel 0 ct.2

/-- `_fetch_page`: the attempt loop, falling through to the connectivity
handler when every attempt failed. -/
def fetch_page (env : NetEnv) (max_retries fuel : Nat) (st : NetState) :
    Option Bool × NetState :=
  let fr := fetchAttempts env (max_retries + 1) st
  if fr.1 then
    (some true, fr.2)
  else
    handle_failed_url_with_connectivity_check env max_retries fuel fr.2

/-- The environment of claim C6: every attempt fails transiently, every probe
fails, the operator always answers continue. -/
def allFailEnv : NetEnv :=
  { attemptOk := fun _ => false
    connOk := fun _ => false
    choice := fun _ => UserChoice.choiceContinue }

/-! ### C7: filename sanitization (`utils/filename_utils.py`) -/

def INVALID_CHARS : List Char := ['<', '>', ':', '"', '/', '\\', '|', '?', '*']

def RESERVED_NAMES : List (List Char) :=
  ["CON".data, "PRN".data, "AUX".data, "NUL".data,
   "COM1".data, "COM2".data, "COM3".data, "COM4".data, "COM5".data,
   "COM6".data, "COM7".data, "COM8".data, "COM9".data,
   "LPT1".data, "LPT2".data, "LPT3".data, "LPT4".data, "LPT5".data,
   "LPT6".data, "LPT7".data, "LPT8".data, "LPT9".data]

def badChar (c : Char) : Bool :=
  decide (c ∈ INVALID_CHARS) || decide (c.toNat < 32)

def toUpperL (l : List Char) : List Char := l.map Char.toUpper

def replaceDoubleUnderscore : List Char → List Char
  | '_' :: '_' :: rest => '_' :: replaceDoubleUnderscore rest
  | c :: rest => c :: replaceDoubleUnderscore rest
  | [] => []

def collapseUnderscoresF : Nat → List Char → List Char
  | 0, l => l
  | fuel + 1, l =>
    if containsSubL l ['_', '_'] then collapseUnderscoresF fuel (replaceDoubleUnderscore l)
    else l

def remove_invalid_characters (l : List Char) : List Char :=
  collapseUnderscoresF (l.map fun c => if badChar c then '_' else c).length
    (l.map fun c => if badChar c then '_' else c)

def rsplitDot (l : List Char) : List Char × Option (List Char) :=
  match splitFirst '.' l.reverse with
  | none => (l, none)
  | some (b, a) => (a.reverse, some b.reverse)

def handle_reserved_names (l : List Char) : List Char :=
  match rsplitDot l with
  | (name, extOpt) =>
    let name2 := if toUpperL name ∈ RESERVED_NAMES then name ++ '_' :: "file".data else name
    match extOpt with
    | none => name2
    | some ext => if ext ≠ [] then name2 ++ '.' :: ext else name2

def isDotSpace (c : Char) : Bool := decide (c = '.') || decide (c = ' ')

def stripDotSpace (l : List Char) : List Char :=
  ((l.dropWhile isDotSpace).reverse.dropWhile isDotSpace).reverse

def truncate_filename (filename : List Char) (max_length : Nat) : List Char :=
  if filename.length ≤ max_length then filename
  else
    match rsplitDot filename with
    | (name, some ext) =>
      if 0 < max_length - (ext.length + 1) then
        name.take (max_length - (ext.length + 1)) ++ '.' :: ext
      else filename.take max_length
    | (_, none) => filename.take max_length

def is_valid_filename (filename : List Char) : Bool :=
  if filename = [] ∨ pyStrip filename = [] then false
  else if filename.any badChar then false
  else if toUpperL (filename.takeWhile fun c => ! decide (c = '.')) ∈ RESERVED_NAMES then false
  else if filename.head? = some '.' ∨ filename.getLast? = some '.' ∨ filename.getLast? = some ' '
    then false
  else true

def sanitizeCore (nfkc : List Char → List Char) (filename : List Char) : List Char :=
  stripDotSpace (handle_reserved_names (remove_invalid_characters (nfkc (pyStrip filename))))

def sanitize_filename (nfkc : List Char → List Char) (filename : List Char) :
    Option (List Char) :=
  if filename = [] ∨ pyStrip filename = [] then none
  else if sanitizeCore nfkc filename = [] then none
  else if is_valid_filename (truncate_filename (sanitizeCore nfkc filename) 200) then
    some (truncate_filename (sanitizeCore nfkc filename) 200)
  else none

def wikiCleanTitle (title : List Char) : List Char :=
  (if listStartsWith title "Category:".data then title.drop 9 else title).map
    fun c => if c = '_' then ' ' else c

def wikiIsCategory (title : List Char) (page_type_category : Bool) : Bool :=
  listStartsWith title "Category:".data || page_type_category

def sanitize_wikipedia_title (nfkc : List Char → List Char) (title : List Char)
    (page_type_category : Bool) : Option (List Char) :=
  if title = [] then none
  else
    match sanitize_filename nfkc (wikiCleanTitle title) with
    | none => none
    | some st =>
      if wikiIsCategory title page_type_category then
        some ("category_".data ++ (st ++ ".json".data))
      else some (st ++ ".json".data)

/-! ### C9: HTML-to-Markdown text pipeline (`processors/content_processor.py`).
The BeautifulSoup/markdownify HTML conversion upstream is third-party code outside
this repository; the embedding models the text stage `_apply_cleanup_patterns`
followed by `_final_formatting`, which is `process_content` on already-converted
markdown text. -/

def toLowerL (l : List Char) : List Char := l.map Char.toLower

def pyRstrip (l : List Char) : List Char := (l.reverse.dropWhile isPySpace).reverse

def citeAt : List Char → Option (List Char)
  | '[' :: rest =>
    match rest.dropWhile Char.isDigit with
    | ']' :: after => if (rest.takeWhile Char.isDigit).isEmpty then none else some after
    | _ => none
  | _ => none

def subCiteNumF : Nat → List Char → List Char
  | 0, l => l
  | _ + 1, [] => []
  | fuel + 1, c :: rest =>
    match citeAt (c :: rest) with
    | some after => subCiteNumF fuel after
    | none => c :: subCiteNumF fuel rest

def subCiteNum (l : List Char) : List Char := subCiteNumF l.length l

def hasCiteNum : List Char → Bool
  | [] => false
  | c :: rest => (citeAt (c :: rest)).isSome || hasCiteNum rest

def subLiteralCIF (pat : List Char) : Nat → List Char → List Char
  | 0, l => l
  | _ + 1, [] => []
  | fuel + 1, c :: rest =>
    if listStartsWith (toLowerL (c :: rest)) pat then
      subLiteralCIF pat fuel ((c :: rest).drop pat.length)
    else c :: subLiteralCIF pat fuel rest

def subLiteralCI (pat l : List Char) : List Char := subLiteralCIF pat l.length l

def CITATION_LITERAL_PATTERNS : List (List Char) :=
  ["[citation needed]".data, "[clarification needed]".data, "[when?]".data,
   "[who?]".data, "[where?]".data, "[edit]".data]

def subSpacesGo : Bool → List Char → List Char
  | _, [] => []
  | inRun, c :: rest =>
    if isPySpace c then
      if inRun then subSpacesGo true rest
      else ' ' :: subSpacesGo true rest
    else c :: subSpacesGo false rest

def subSpaces (l : List Char) : List Char := subSpacesGo false l

def subTripleNlF : Nat → List Char → List Char
  | 0, l => l
  | _ + 1, [] => []
  | fuel + 1, c :: rest =>
    if c = '\n' then
      if 3 ≤ (((c :: rest).takeWhile isPySpace).filter fun d => decide (d = '\n')).length then
        '\n' :: '\n' ::
          subTripleNlF fuel
            ((((c :: rest).takeWhile isPySpace).reverse.takeWhile fun d =>
                ! decide (d = '\n')).reverse ++
              (c :: rest).dropWhile isPySpace)
      else c :: subTripleNlF fuel rest
    else c :: subTripleNlF fuel rest

def subTripleNl (l : List Char) : List Char := subTripleNlF l.length l

def apply_cleanup_patterns (content : List Char) : List Char :=
  subTripleNl (subSpaces
    (CITATION_LITERAL_PATTERNS.foldl (fun acc p => subLiteralCI p acc) (subCiteNum content)))

def headerFix (line : List Char) : List Char :=
  if (line.takeWhile fun c => decide (c = '#')).isEmpty then line
  else
    match line.dropWhile fun c => decide (c = '#') with
    | c :: r2 =>
      if ! isPySpace c then (line.takeWhile fun c => decide (c = '#')) ++ ' ' :: c :: r2
      else if 2 ≤ (line.takeWhile fun c => decide (c = '#')).length then
        (line.takeWhile fun c => decide (c = '#')).dropLast ++ ' ' :: '#' :: c :: r2
      else line
    | [] =>
      if 2 ≤ (line.takeWhile fun c => decide (c = '#')).length then
        (line.takeWhile fun c => decide (c = '#')).dropLast ++ [' ', '#']
      else line

def listGuard (line : List Char) : Bool :=
  match line with
  | m :: rest =>
    (decide (m = '-') || decide (m = '*') || decide (m = '+')) &&
      !(rest.dropWhile isPySpace).isEmpty
  | [] => false

def listFix (line : List Char) : List Char :=
  match line with
  | m :: c :: rest =>
    if (decide (m = '-') || decide (m = '*') || decide (m = '+')) && ! isPySpace c then
      m :: ' ' :: c :: rest
    else line
  | _ => line

def numGuard (line : List Char) : Bool :=
  !(line.takeWhile Char.isDigit).isEmpty &&
    (match line.dropWhile Char.isDigit with
     | '.' :: r => !(r.dropWhile isPySpace).isEmpty
     | _ => false)

def numFix (line : List Char) : List Char :=
  if (line.takeWhile Char.isDigit).isEmpty then line
  else
    match line.dropWhile Char.isDigit with
    | '.' :: c :: rest2 =>
      if isPySpace c then line
      else (line.takeWhile Char.isDigit) ++ '.' :: ' ' :: c :: rest2
    | _ => line

def fixPhases (line : List Char) : List Char :=
  let l1 := if line.head? = some '#' then headerFix line else line
  let l2 := if listGuard l1 then listFix l1 else l1
  if numGuard l2 then numFix l2 else l2

def fix_markdown_formatting (line : List Char) : List Char :=
  subSpaces (fixPhases line)

def formatLines : List (List Char) → List (List Char) → List (List Char)
  | acc, [] => acc.reverse
  | acc, ln :: rest =>
    if (pyStrip ln).isEmpty then
      match acc with
      | [] => formatLines acc rest
      | lastLine :: _ =>
        if lastLine.isEmpty then formatLines acc rest
        else formatLines ([] :: acc) rest
    else formatLines (fix_markdown_formatting (pyStrip ln) :: acc) rest

def collapseNlRunsF : Nat → List Char → List Char
  | 0, l => l
  | _ + 1, [] => []
  | fuel + 1, c :: rest =>
    if c = '\n' then
      if 3 ≤ ((c :: rest).takeWhile fun d => decide (d = '\n')).length then
        '\n' :: '\n' :: collapseNlRunsF fuel ((c :: rest).dropWhile fun d => decide (d = '\n'))
      else
        ((c :: rest).takeWhile fun d => decide (d = '\n')) ++
          collapseNlRunsF fuel ((c :: rest).dropWhile fun d => decide (d = '\n'))
    else c :: collapseNlRunsF fuel rest

def collapseNlRuns (l : List Char) : List Char := collapseNlRunsF l.length l

def final_formatting (content : List Char) : List Char :=
  let result := collapseNlRuns (List.intercalate ['\n'] (formatLines [] (splitOnChar '\n' content)))
  if (pyStrip result).isEmpty then [] else pyRstrip result ++ ['\n']

def process_content_text (content : List Char) : List Char :=
  final_formatting (apply_cleanup_patterns content)

def markerFree (l : List Char) : Bool :=
  !hasCiteNum l &&
    CITATION_LITERAL_PATTERNS.all fun p => !containsSubL (toLowerL l) p

/-- Every whitespace character is a single space with a non-space (or nothing)
right after it: the shape `\s+ -> ' '` leaves behind. -/
def collapsedL : List Char → Bool
  | [] => true
  | c :: rest =>
    if isPySpace c then
      decide (c = ' ') &&
        (match rest with | [] => true | d :: _ => !isPySpace d) &&
        collapsedL rest
    else collapsedL rest

/-! ## Theorems -/

/-- `chLt` is irreflexive. -/
theorem chLt_irrefl : ∀ l : List Char, chLt l l = false := by
  intro l
  induction l with
  | nil => rfl
  | cons a as ih => simp [chLt, ih]

/-- `chLt` is transitive. -/
theorem chLt_trans : ∀ a b c : List Char,
    chLt a b = true → chLt b c = true → chLt a c = true := by
  intro a
  induction a with
  | nil =>
    intro b c hab hbc
    cases b with
    | nil => simp [chLt] at hab
    | cons y ys =>
      cases c with
      | nil => simp [chLt] at hbc
      | cons z zs => simp [chLt]
  | cons x xs ih =>
    intro b c hab hbc
    cases b with
    | nil => simp [chLt] at hab
    | cons y ys =>
      cases c with
      | nil => simp [chLt] at hbc
      | cons z zs =>
        simp only [chLt] at hab hbc ⊢
        by_cases hxy : x < y
        · by_cases hyz : y < z
          · simp [lt_trans hxy hyz]
          · by_cases hzy : z < y
            · rw [if_neg hyz, if_pos hzy] at hbc
              exact absurd hbc (by simp)
            · have : y = z := le_antisymm (not_lt.mp hzy) (not_lt.mp hyz)
              subst this
              simp [hxy]
        · by_cases hyx : y < x
          · rw [if_neg hxy, if_pos hyx] at hab
            exact absurd hab (by simp)
          · have hxyeq : x = y := le_antisymm (not_lt.mp hyx) (not_lt.mp hxy)
            subst hxyeq
            rw [if_neg hxy, if_neg hyx] at hab
            by_cases hyz : x < z
            · simp [hyz]
            · by_cases hzy : z < x
              · rw [if_neg hyz, if_pos hzy] at hbc
                exact absurd hbc (by simp)
              · have : x = z := le_antisymm (not_lt.mp hzy) (not_lt.mp hyz)
                subst this
                rw [if_neg hyz, if_neg hzy] at hbc ⊢
                exact ih ys zs hab hbc

/-- Two lists neither of which is `chLt`-below the other are equal. -/
theorem chLt_conn : ∀ a b : List Char,
    chLt a b = false → chLt b a = false → a = b := by
  intro a
  induction a with
  | nil =>
    intro b hab _
    cases b with
    | nil => rfl
    | cons y ys => simp [chLt] at hab
  | cons x xs ih =>
    intro b hab hba
    cases b with
    | nil => simp [chLt] at hba
    | cons y ys =>
      simp only [chLt] at hab hba
      by_cases hxy : x < y
      · rw [if_pos hxy] at hab
        exact absurd hab (by simp)
      · by_cases hyx : y < x
        · rw [if_pos hyx] at hba
          exact absurd hba (by simp)
        · have hxyeq : x = y := le_antisymm (not_lt.mp hyx) (not_lt.mp hxy)
          subst hxyeq
          rw [if_neg hxy, if_neg hxy] at hab
          rw [if_neg hxy, if_neg hxy] at hba
          rw [ih ys hab hba]

/-- When `splitFirst` succeeds, it decomposes the input around the first `sep`. -/
theorem splitFirst_some_eq (sep : Char) :
    ∀ (l a b : List Char), splitFirst sep l = some (a, b) → l = a ++ sep :: b ∧ sep ∉ a := by
  intro l
  induction l with
  | nil => intro a b h; simp [splitFirst] at h
  | cons c cs ih =>
    intro a b h
    by_cases hc : c = sep
    · subst hc
      simp [splitFirst] at h
      obtain ⟨ha, hb⟩ := h
      subst ha
      subst hb
      simp
    · simp only [splitFirst, if_neg hc] at h
      cases hsp : splitFirst sep cs with
      | none => rw [hsp] at h; simp at h
      | some ab =>
        rw [hsp] at h
        obtain ⟨a₀, b₀⟩ := ab
        simp only [Option.some.injEq, Prod.mk.injEq] at h
        obtain ⟨ha, hb⟩ := h
        obtain ⟨he, hn⟩ := ih a₀ b₀ hsp
        subst ha hb
        constructor
        · simp [he]
        · simp only [List.mem_cons, not_or]
          exact ⟨fun hx => hc hx.symm, hn⟩

/-- When `splitFirst` fails, `sep` does not occur. -/
theorem splitFirst_none (sep : Char) :
    ∀ (l : List Char), splitFirst sep l = none → sep ∉ l := by
  intro l
  induction l with
  | nil => intro _; simp
  | cons c cs ih =>
    intro h
    by_cases hc : c = sep
    · subst hc; simp [splitFirst] at h
    · simp only [splitFirst, if_neg hc] at h
      cases hsp : splitFirst sep cs with
      | none =>
        simp only [List.mem_cons, not_or]
        exact ⟨fun hx => hc hx.symm, ih hsp⟩
      | some ab => rw [hsp] at h; simp at h

/-- The tail returned by a successful `splitFirst` is strictly shorter. -/
theorem splitFirst_length (sep : Char) (l a b : List Char)
    (h : splitFirst sep l = some (a, b)) : b.length < l.length := by
  have := (splitFirst_some_eq sep l a b h).1
  subst this
  simp
  omega

/-- Any sufficient fuel computes `splitOnChar`. -/
theorem splitOnCharF_eq (sep : Char) :
    ∀ (n : Nat) (l : List Char), l.length ≤ n → splitOnCharF sep n l = splitOnChar sep l := by
  intro n
  induction n using Nat.strong_induction_on with
  | _ n ih =>
    intro l hl
    cases n with
    | zero =>
      have : l = [] := List.eq_nil_of_length_eq_zero (Nat.le_zero.mp hl)
      subst this
      rfl
    | succ m =>
      cases hsp : splitFirst sep l with
      | none =>
        simp only [splitOnCharF, hsp, splitOnChar]
        cases hll : l.length with
        | zero => rfl
        | succ k => simp [splitOnCharF, hsp]
      | some ab =>
        obtain ⟨a, b⟩ := ab
        have hblt := splitFirst_length sep l a b hsp
        have h1 : splitOnCharF sep (m + 1) l = a :: splitOnCharF sep m b := by
          simp [splitOnCharF, hsp]
        have h2 : splitOnCharF sep m b = splitOnChar sep b :=
          ih m (Nat.lt_succ_self m) b (by omega)
        have h3 : splitOnChar sep l = a :: splitOnChar sep b := by
          unfold splitOnChar
          cases hll : l.length with
          | zero =>
            exfalso
            have : l = [] := List.eq_nil_of_length_eq_zero hll
            subst this
            simp [splitFirst] at hsp
          | succ k =>
            simp only [splitOnCharF, hsp]
            congr 1
            exact ih k (by omega) b (by omega)
        rw [h1, h2, h3]

/-- Unfold lemma: no separator present. -/
theorem splitOnChar_none (sep : Char) (l : List Char) (h : splitFirst sep l = none) :
    splitOnChar sep l = [l] := by
  unfold splitOnChar
  cases hll : l.length with
  | zero => rfl
  | succ k => simp [splitOnCharF, h]

/-- Unfold lemma: split off the first field. -/
theorem splitOnChar_some (sep : Char) (l a b : List Char)
    (h : splitFirst sep l = some (a, b)) :
    splitOnChar sep l = a :: splitOnChar sep b := by
  have hblt := splitFirst_length sep l a b h
  unfold splitOnChar
  cases hll : l.length with
  | zero =>
    exfalso
    have : l = [] := List.eq_nil_of_length_eq_zero hll
    subst this
    simp [splitFirst] at h
  | succ k =>
    simp only [splitOnCharF, h]
    congr 1
    exact splitOnCharF_eq sep k b (by omega)

/-- Decoding an ASCII byte peels it off. -/
theorem utf8DecodeF_ascii (fuel : Nat) (b : Nat) (bs : List Nat) (hb : b < 0x80) :
    utf8DecodeF (fuel + 1) (b :: bs) = Char.ofNat b :: utf8DecodeF fuel bs := by
  simp [utf8DecodeF, hb]

/-- `pctRun` leaves a list headed by anything other than `%` unchanged. -/
theorem pctRun_ne (c : Char) (cs : List Char) (hc : ¬ c = '%') :
    pctRun (c :: cs) = ([], c :: cs) := by
  unfold pctRun
  rw [if_neg hc]

/-- `pctRun` on a list not starting with a valid escape returns it unchanged. -/
theorem pctRun_stuck (l : List Char)
    (h : ∀ c1 c2 rest, l = '%' :: c1 :: c2 :: rest →
      (hexVal c1).isNone ∨ (hexVal c2).isNone) :
    pctRun l = ([], l) := by
  cases l with
  | nil => rfl
  | cons c cs =>
    by_cases hc : c = '%'
    · subst hc
      cases cs with
      | nil => rfl
      | cons c1 cs1 =>
        cases cs1 with
        | nil => rfl
        | cons c2 rest =>
          have hcase := h c1 c2 rest rfl
          cases h1 : hexVal c1 with
          | none => unfold pctRun; simp [h1]
          | some v1 =>
            cases h2 : hexVal c2 with
            | none => unfold pctRun; simp [h1, h2]
            | some v2 => simp [h1, h2] at hcase
    · exact pctRun_ne c cs hc

/-- `pctRun` on a valid escape consumes it and recurses. -/
theorem pctRun_step (c1 c2 : Char) (rest : List Char) (h1 : Nat) (h2 : Nat)
    (hv1 : hexVal c1 = some h1) (hv2 : hexVal c2 = some h2) :
    pctRun ('%' :: c1 :: c2 :: rest) =
      ((h1 * 16 + h2) :: (pctRun rest).1, (pctRun rest).2) := by
  simp [pctRun, hv1, hv2]

/-- Bounded-length helper for `pctRun_length`. -/
theorem pctRun_length_aux :
    ∀ (n : Nat) (l : List Char), l.length ≤ n →
      (pctRun l).2.length ≤ l.length ∧
        ((pctRun l).1 ≠ [] → (pctRun l).2.length < l.length) := by
  intro n
  induction n with
  | zero =>
    intro l hl
    have : l = [] := List.eq_nil_of_length_eq_zero (Nat.le_zero.mp hl)
    subst this
    simp [pctRun]
  | succ n ih =>
    intro l hl
    cases l with
    | nil => simp [pctRun]
    | cons c cs =>
      by_cases hc : c = '%'
      · subst hc
        cases cs with
        | nil => simp [pctRun]
        | cons c1 cs1 =>
          cases cs1 with
          | nil => simp [pctRun]
          | cons c2 rest =>
            cases hv1 : hexVal c1 with
            | none => unfold pctRun; simp [hv1]
            | some v1 =>
              cases hv2 : hexVal c2 with
              | none => unfold pctRun; simp [hv1, hv2]
              | some v2 =>
                rw [pctRun_step c1 c2 rest v1 v2 hv1 hv2]
                simp only [List.length_cons] at hl
                have hrec := ih rest (by omega)
                simp only [List.length_cons]
                constructor
                · omega
                · intro _; omega
      · simp [pctRun_ne c cs hc]

/-- The remainder returned by `pctRun` is never longer than the input, and
strictly shorter whenever at least one escape was consumed. -/
theorem pctRun_length (l : List Char) :
    (pctRun l).2.length ≤ l.length ∧
      ((pctRun l).1 ≠ [] → (pctRun l).2.length < l.length) :=
  pctRun_length_aux l.length l (Nat.le_refl _)

/-- Adding one unit of fuel beyond the input length changes nothing. -/
theorem unquoteF_step :
    ∀ (n : Nat) (l : List Char), l.length ≤ n → unquoteF n l = unquoteF (n + 1) l := by
  intro n
  induction n using Nat.strong_induction_on with
  | _ n ih =>
    intro l hl
    match n, l with
    | 0, l =>
      have hnil : l = [] := List.eq_nil_of_length_eq_zero (Nat.le_zero.mp hl)
      subst hnil
      rfl
    | m + 1, [] => rfl
    | m + 1, c :: cs =>
      have hcs : cs.length ≤ m := by simpa using hl
      by_cases hc : c = '%'
      · subst hc
        cases hpr : pctRun ('%' :: cs) with
        | mk bytes rest =>
          cases bytes with
          | nil =>
            have hrw := ih m (Nat.lt_succ_self m) cs hcs
            simp [unquoteF, hpr, hrw]
          | cons b bs =>
            have hlt : rest.length < cs.length + 1 := by
              have hpl := pctRun_length ('%' :: cs)
              rw [hpr] at hpl
              simpa using hpl.2 (by simp)
            have hrw := ih m (Nat.lt_succ_self m) rest (by omega)
            simp [unquoteF, hpr, hrw]
      · have hrw := ih m (Nat.lt_succ_self m) cs hcs
        simp [unquoteF, hc, hrw]

/-- Extra fuel beyond the input length changes nothing. -/
theorem unquoteF_add (k : Nat) :
    ∀ (n : Nat) (l : List Char), l.length ≤ n → unquoteF n l = unquoteF (n + k) l := by
  induction k with
  | zero => intro n l _; rfl
  | succ j ihj =>
    intro n l hl
    rw [ihj n l hl, unquoteF_step (n + j) l (by omega)]
    rfl

/-- Any sufficient fuel computes `unquoteL`. -/
theorem unquoteF_eq (n : Nat) (l : List Char) (hl : l.length ≤ n) :
    unquoteF n l = unquoteL l := by
  unfold unquoteL
  rw [unquoteF_add (n - l.length) l.length l (le_refl _)]
  congr 1
  omega

/-- Unfold: empty input. -/
theorem unquoteL_nil : unquoteL [] = [] := rfl

/-- Unfold: a literal (non-`%`) character passes through. -/
theorem unquoteL_cons_ne (c : Char) (cs : List Char) (hc : ¬ c = '%') :
    unquoteL (c :: cs) = c :: unquoteL cs := by
  show unquoteF (cs.length + 1) (c :: cs) = c :: unquoteL cs
  simp only [unquoteF, if_neg hc]
  rw [unquoteF_eq cs.length cs (le_refl _)]

/-- Unfold: a `%` that does not start a valid escape passes through. -/
theorem unquoteL_pct_stuck (cs : List Char) (h : (pctRun ('%' :: cs)).1 = []) :
    unquoteL ('%' :: cs) = '%' :: unquoteL cs := by
  cases hpr : pctRun ('%' :: cs) with
  | mk bytes rest =>
    rw [hpr] at h
    simp only at h
    subst h
    show unquoteF (cs.length + 1) ('%' :: cs) = '%' :: unquoteL cs
    simp only [unquoteF, hpr]
    rw [unquoteF_eq cs.length cs (le_refl _)]
    simp

/-- Unfold: a maximal escape run decodes as one UTF-8 byte string. -/
theorem unquoteL_pct_run (cs : List Char) (b : Nat) (bs : List Nat) (rest : List Char)
    (h : pctRun ('%' :: cs) = (b :: bs, rest)) :
    unquoteL ('%' :: cs) = utf8DecodeReplace (b :: bs) ++ unquoteL rest := by
  have hlt : rest.length < cs.length + 1 := by
    have hpl := pctRun_length ('%' :: cs)
    rw [h] at hpl
    simpa using hpl.2 (by simp)
  show unquoteF (cs.length + 1) ('%' :: cs) = utf8DecodeReplace (b :: bs) ++ unquoteL rest
  simp only [unquoteF, h]
  rw [unquoteF_eq cs.length rest (by omega)]
  simp

/-!
## Queue order theory

`PriorityQueue.get_nowait` returns the smallest `(priority, url, item)` tuple;
`popMinEntry` extracts that minimum.  The lemmas below give the permutation and
minimality facts needed for the dequeue-order theorems.
-/

/-- `entryLe` is reflexive. -/
theorem entryLe_refl (a : QueueEntry) : entryLe a a = true := by
  simp [entryLe, entryLt, chLt_irrefl]

/-- `chLt` is asymmetric. -/
theorem chLt_asymm (a b : List Char) (h : chLt a b = true) : chLt b a = false := by
  cases hba : chLt b a with
  | false => rfl
  | true =>
    have := chLt_trans a b a h hba
    rw [chLt_irrefl] at this
    exact absurd this (by simp)

/-- `entryLe` is total. -/
theorem entryLe_total (a b : QueueEntry) : entryLe a b = true ∨ entryLe b a = true := by
  simp only [entryLe, entryLt, Bool.not_eq_true', Bool.or_eq_false_iff,
    decide_eq_false_iff_not, Bool.and_eq_false_iff, decide_eq_true_eq]
  by_cases h1 : b.1 < a.1
  · right
    exact ⟨by omega, Or.inl (by omega)⟩
  · by_cases h2 : a.1 < b.1
    · left
      exact ⟨by omega, Or.inl (by omega)⟩
    · cases h3 : chLt b.2.1.data a.2.1.data with
      | true =>
        right
        exact ⟨h2, Or.inr (chLt_asymm _ _ h3)⟩
      | false =>
        left
        exact ⟨h1, Or.inr rfl⟩

/-- `entryLe` is transitive. -/
theorem entryLe_trans (a b c : QueueEntry) (h1 : entryLe a b = true)
    (h2 : entryLe b c = true) : entryLe a c = true := by
  simp only [entryLe, entryLt, Bool.not_eq_true', Bool.or_eq_false_iff,
    decide_eq_false_iff_not, Bool.and_eq_false_iff, decide_eq_true_eq] at h1 h2 ⊢
  obtain ⟨hb1, hb2⟩ := h1
  obtain ⟨hc1, hc2⟩ := h2
  refine ⟨by omega, ?_⟩
  by_cases hca : c.1 = a.1
  · have hba : b.1 = a.1 := by omega
    have hcb : c.1 = b.1 := by omega
    have h4 : chLt b.2.1.data a.2.1.data = false := by
      rcases hb2 with h | h
      · exact absurd hba h
      · exact h
    have h5 : chLt c.2.1.data b.2.1.data = false := by
      rcases hc2 with h | h
      · exact absurd hcb h
      · exact h
    right
    cases hcs : chLt c.2.1.data a.2.1.data with
    | false => rfl
    | true =>
      exfalso
      cases hbc : chLt b.2.1.data c.2.1.data with
      | true =>
        have h6 := chLt_trans _ _ _ hbc hcs
        rw [h4] at h6
        exact absurd h6 (by simp)
      | false =>
        have heq := chLt_conn _ _ h5 hbc
        rw [heq, h4] at hcs
        exact absurd hcs (by simp)
  · exact Or.inl hca

/-- `popMinEntry` returns `none` exactly on the empty list. -/
theorem popMinEntry_eq_none (l : List QueueEntry) :
    popMinEntry l = none ↔ l = [] := by
  cases l with
  | nil => simp [popMinEntry]
  | cons e es =>
    simp only [popMinEntry]
    cases h : popMinEntry es with
    | none => simp
    | some p =>
      obtain ⟨m, rest⟩ := p
      by_cases hle : entryLe e m = true <;> simp [hle]

/-- A successful pop decomposes the list up to permutation. -/
theorem popMinEntry_perm :
    ∀ (l : List QueueEntry) (e : QueueEntry) (rest : List QueueEntry),
      popMinEntry l = some (e, rest) → l.Perm (e :: rest) := by
  intro l
  induction l with
  | nil => intro e rest h; simp [popMinEntry] at h
  | cons a as ih =>
    intro e rest h
    simp only [popMinEntry] at h
    cases hp : popMinEntry as with
    | none =>
      rw [hp] at h
      dsimp only at h
      have : as = [] := (popMinEntry_eq_none as).mp hp
      subst this
      simp at h
      simp [h.1, h.2]
    | some p =>
      obtain ⟨m, r⟩ := p
      rw [hp] at h
      dsimp only at h
      by_cases hle : entryLe a m = true
      · rw [if_pos hle] at h
        simp only [Option.some.injEq, Prod.mk.injEq] at h
        obtain ⟨he, hr⟩ := h
        subst he
        subst hr
        exact List.Perm.refl _
      · rw [if_neg hle] at h
        simp only [Option.some.injEq, Prod.mk.injEq] at h
        obtain ⟨he, hr⟩ := h
        subst he
        subst hr
        exact ((ih m r hp).cons a).trans (List.Perm.swap m a r)

/-- The popped entry is `entryLe`-below every element of the list. -/
theorem popMinEntry_min :
    ∀ (l : List QueueEntry) (e : QueueEntry) (rest : List QueueEntry),
      popMinEntry l = some (e, rest) → ∀ x ∈ l, entryLe e x = true := by
  intro l
  induction l with
  | nil => intro e rest h; simp [popMinEntry] at h
  | cons a as ih =>
    intro e rest h x hx
    simp only [popMinEntry] at h
    cases hp : popMinEntry as with
    | none =>
      rw [hp] at h
      dsimp only at h
      have hnil : as = [] := (popMinEntry_eq_none as).mp hp
      subst hnil
      simp only [Option.some.injEq, Prod.mk.injEq] at h
      obtain ⟨he, -⟩ := h
      subst he
      simp only [List.mem_singleton] at hx
      subst hx
      exact entryLe_refl _
    | some p =>
      obtain ⟨m, r⟩ := p
      rw [hp] at h
      dsimp only at h
      by_cases hle : entryLe a m = true
      · rw [if_pos hle] at h
        simp only [Option.some.injEq, Prod.mk.injEq] at h
        obtain ⟨he, -⟩ := h
        subst he
        rcases List.mem_cons.mp hx with hx | hx
        · subst hx; exact entryLe_refl _
        · exact entryLe_trans _ m x hle (ih m r hp x hx)
      · rw [if_neg hle] at h
        simp only [Option.some.injEq, Prod.mk.injEq] at h
        obtain ⟨he, -⟩ := h
        subst he
        rcases List.mem_cons.mp hx with hx | hx
        · subst hx
          rcases entryLe_total m x with h' | h'
          · exact h'
          · exact absurd h' hle
        · exact ih m r hp x hx

/-- A successful pop removes exactly one element. -/
theorem popMinEntry_length :
    ∀ (l : List QueueEntry) (e : QueueEntry) (rest : List QueueEntry),
      popMinEntry l = some (e, rest) → rest.length + 1 = l.length := by
  intro l e rest h
  exact (List.Perm.length_eq (popMinEntry_perm l e rest h)).symm ▸ rfl

/-- Specification of a successful dequeue: the popped heap entry carries the
returned item and the remaining heap. -/
theorem get_next_url_some_spec (s : QueueState) (it : URLItem) (s' : QueueState)
    (h : get_next_url s = (some it, s')) :
    ∃ p u rest, popMinEntry s.queue = some ((p, u, it), rest) ∧ s'.queue = rest ∧
      s'.completed = s.completed ∧ s'.pending = setDiscard s.pending u := by
  unfold get_next_url at h
  cases hp : popMinEntry s.queue with
  | none => rw [hp] at h; simp at h
  | some pr =>
    obtain ⟨⟨p, u, item⟩, rest⟩ := pr
    rw [hp] at h
    simp only [Prod.mk.injEq, Option.some.injEq] at h
    obtain ⟨hit, hs⟩ := h
    subst hit
    exact ⟨p, u, rest, rfl, by rw [← hs], by rw [← hs], by rw [← hs]⟩

/-- A dequeue fails exactly on the empty heap, leaving the state unchanged. -/
theorem get_next_url_none_spec (s : QueueState) (s' : QueueState)
    (h : get_next_url s = (none, s')) : s.queue = [] ∧ s' = s := by
  unfold get_next_url at h
  cases hp : popMinEntry s.queue with
  | none =>
    rw [hp] at h
    simp only [Prod.mk.injEq] at h
    exact ⟨(popMinEntry_eq_none s.queue).mp hp, h.2.symm⟩
  | some pr =>
    obtain ⟨⟨p, u, item⟩, rest⟩ := pr
    rw [hp] at h
    simp at h

/-- `get_next_url` in terms of the popped entry. -/
theorem get_next_url_pop (s : QueueState) (p : Nat) (u : String) (it : URLItem)
    (rest : List QueueEntry) (h : popMinEntry s.queue = some ((p, u, it), rest)) :
    get_next_url s = (some it, dequeuedState s u it rest) := by
  unfold get_next_url dequeuedState
  rw [h]

/-- Any sufficient fuel computes `drainItems`. -/
theorem drainF_eq :
    ∀ (n : Nat) (s : QueueState), s.queue.length ≤ n → drainF n s = drainItems s := by
  intro n
  induction n using Nat.strong_induction_on with
  | _ n ih =>
    intro s hl
    match n with
    | 0 =>
      have hq : s.queue = [] := List.eq_nil_of_length_eq_zero (Nat.le_zero.mp hl)
      cases hg : get_next_url s with
      | mk o s' =>
        cases o with
        | none => simp [drainF, drainItems, hq]
        | some it =>
          obtain ⟨p, u, rest, hpm, -⟩ := get_next_url_some_spec s it s' hg
          rw [hq] at hpm
          simp [popMinEntry] at hpm
    | m + 1 =>
      cases hg : get_next_url s with
      | mk o s' =>
        cases o with
        | none =>
          have hq := (get_next_url_none_spec s s' hg).1
          simp [drainF, drainItems, hg, hq]
        | some it =>
          obtain ⟨p, u, rest, hpm, hq', -⟩ := get_next_url_some_spec s it s' hg
          have hlen : rest.length + 1 = s.queue.length :=
            popMinEntry_length s.queue _ rest hpm
          have h1 : drainF (m + 1) s = it :: drainF m s' := by
            simp [drainF, hg]
          have h2 : drainItems s = it :: drainF rest.length s' := by
            unfold drainItems
            rw [← hlen]
            simp [drainF, hg]
          have h3 : drainF m s' = drainItems s' :=
            ih m (Nat.lt_succ_self m) s' (by rw [hq']; omega)
          have h4 : drainF rest.length s' = drainItems s' := by
            have hr : s'.queue.length = rest.length := by rw [hq']
            rw [← hr]
            rfl
          rw [h1, h2, h3, h4]

/-- Unfold lemma: draining an empty heap yields nothing. -/
theorem drainItems_nil (s : QueueState) (h : s.queue = []) : drainItems s = [] := by
  simp [drainItems, h, drainF]

/-- Unfold lemma: draining dequeues the minimum first. -/
theorem drainItems_cons (s : QueueState) (it : URLItem) (s' : QueueState)
    (h : get_next_url s = (some it, s')) : drainItems s = it :: drainItems s' := by
  obtain ⟨p, u, rest, hpm, hq', -⟩ := get_next_url_some_spec s it s' h
  have hlen : rest.length + 1 = s.queue.length :=
    popMinEntry_length s.queue _ rest hpm
  have h2 : drainItems s = it :: drainF rest.length s' := by
    unfold drainItems
    rw [← hlen]
    simp [drainF, h]
  have h4 : drainF rest.length s' = drainItems s' := by
    have hr : s'.queue.length = rest.length := by rw [hq']
    rw [← hr]
    rfl
  rw [h2, h4]

/-- `addUrlD` preserves heap well-formedness. -/
theorem addUrlD_WF (s : QueueState) (url : String) (t : URLType) (d : Nat)
    (h : QueueWF s) : QueueWF (addUrlD s url t d).2 := by
  unfold addUrlD add_url
  by_cases hdup : url ∈ s.pending ∨ url ∈ s.completed
  · rw [if_pos hdup]
    exact h
  · rw [if_neg hdup]
    by_cases hval : validWikiUrl url
    · rw [if_neg (fun hc => hc hval)]
      intro e he
      simp only [Except.toOption, Option.getD, List.mem_append, List.mem_singleton] at he
      rcases he with he | he
      · exact h e he
      · subst he
        exact ⟨rfl, rfl, rfl⟩
    · rw [if_pos hval]
      exact h

/-- `runAdds` always yields a well-formed heap. -/
theorem runAdds_WF (reqs : List (String × URLType × Nat)) : QueueWF (runAdds reqs) := by
  unfold runAdds
  have hgen : ∀ (rs : List (String × URLType × Nat)) (s : QueueState), QueueWF s →
      QueueWF (rs.foldl (fun s r => (addUrlD s r.1 r.2.1 r.2.2).2) s) := by
    intro rs
    induction rs with
    | nil => intro s hs; exact hs
    | cons r rest ih =>
      intro s hs
      exact ih _ (addUrlD_WF s r.1 r.2.1 r.2.2 hs)
  exact hgen reqs QueueState.empty (by intro e he; simp [QueueState.empty] at he)

/-- Draining returns exactly the queued items (as a multiset). -/
theorem drainItems_perm_aux :
    ∀ (n : Nat) (s : QueueState), s.queue.length ≤ n →
      (drainItems s).Perm (s.queue.map (fun e => e.2.2)) := by
  intro n
  induction n with
  | zero =>
    intro s hl
    have hq : s.queue = [] := List.eq_nil_of_length_eq_zero (Nat.le_zero.mp hl)
    rw [drainItems_nil s hq, hq]
    simp
  | succ m ih =>
    intro s hl
    cases hpm : popMinEntry s.queue with
    | none =>
      have hq := (popMinEntry_eq_none s.queue).mp hpm
      rw [drainItems_nil s hq, hq]
      simp
    | some pr =>
      obtain ⟨⟨p, u, it⟩, rest⟩ := pr
      have hg := get_next_url_pop s p u it rest hpm
      have hlen : rest.length + 1 = s.queue.length :=
        popMinEntry_length s.queue _ rest hpm
      rw [drainItems_cons s it _ hg]
      have hrec := ih (dequeuedState s u it rest)
        (show (dequeuedState s u it rest).queue.length ≤ m from by
          show rest.length ≤ m
          omega)
      have hperm := popMinEntry_perm s.queue _ rest hpm
      have hmap : (s.queue.map (fun e => e.2.2)).Perm
          (it :: rest.map (fun e => e.2.2)) := by
        have hp2 := hperm.map (fun e : QueueEntry => e.2.2)
        simpa using hp2
      exact (hrec.cons it).trans hmap.symm

/-- Draining returns exactly the queued items (as a multiset). -/
theorem drainItems_perm (s : QueueState) :
    (drainItems s).Perm (s.queue.map (fun e => e.2.2)) :=
  drainItems_perm_aux s.queue.length s (le_refl _)

/-- The drained sequence is sorted by `(priority, url)`. -/
theorem drainItems_sorted_aux :
    ∀ (n : Nat) (s : QueueState), s.queue.length ≤ n → QueueWF s →
      List.Pairwise itemOrder (drainItems s) := by
  intro n
  induction n with
  | zero =>
    intro s hl _
    have hq : s.queue = [] := List.eq_nil_of_length_eq_zero (Nat.le_zero.mp hl)
    rw [drainItems_nil s hq]
    exact List.Pairwise.nil
  | succ m ih =>
    intro s hl hwf
    cases hpm : popMinEntry s.queue with
    | none =>
      have hq := (popMinEntry_eq_none s.queue).mp hpm
      rw [drainItems_nil s hq]
      exact List.Pairwise.nil
    | some pr =>
      obtain ⟨⟨p, u, it⟩, rest⟩ := pr
      have hlen : rest.length + 1 = s.queue.length :=
        popMinEntry_length s.queue _ rest hpm
      have hperm := popMinEntry_perm s.queue _ rest hpm
      have hsub : ∀ e ∈ rest, e ∈ s.queue := fun e he =>
        hperm.mem_iff.mpr (List.mem_cons_of_mem _ he)
      have hg := get_next_url_pop s p u it rest hpm
      have hwf' : QueueWF (dequeuedState s u it rest) := by
        intro e he
        exact hwf e (hsub e he)
      rw [drainItems_cons s it _ hg]
      refine List.Pairwise.cons ?_ ?_
      · intro b hb
        have hperm' := drainItems_perm (dequeuedState s u it rest)
        have hbq := hperm'.mem_iff.mp hb
        simp only [List.mem_map] at hbq
        obtain ⟨eb, hebq, hebb⟩ := hbq
        have hebs : eb ∈ s.queue := hsub eb hebq
        have hmin := popMinEntry_min s.queue _ rest hpm eb hebs
        have hwe := hwf (p, u, it) (hperm.mem_iff.mpr (List.mem_cons_self _ _))
        have hwb := hwf eb hebs
        obtain ⟨hw1, hw2, -⟩ := hwe
        obtain ⟨hb1, hb2, -⟩ := hwb
        simp only [entryLe, entryLt, Bool.not_eq_true', Bool.or_eq_false_iff,
          decide_eq_false_iff_not, Bool.and_eq_false_iff, decide_eq_true_eq] at hmin
        obtain ⟨hm1, hm2⟩ := hmin
        subst hebb
        unfold itemOrder
        simp only at hw1 hw2 hb1 hb2
        rw [hw1] at hm1 hm2
        rw [hb1] at hm1 hm2
        by_cases hpe : it.priority = eb.2.2.priority
        · right
          refine ⟨hpe, ?_⟩
          rcases hm2 with h | h
          · exact absurd hpe.symm h
          · rw [← hb2, ← hw2]
            exact h
        · left
          omega
      · exact ih (dequeuedState s u it rest)
          (show (dequeuedState s u it rest).queue.length ≤ m from by
            show rest.length ≤ m
            omega) hwf'

/-- The drained sequence is sorted by `(priority, url)`. -/
theorem drainItems_sorted (s : QueueState) (hwf : QueueWF s) :
    List.Pairwise itemOrder (drainItems s) :=
  drainItems_sorted_aux s.queue.length s (le_refl _) hwf

/-!
## Claim theorems: frontier behavior (C2, C3, C4)
-/

/-- **C2** (counterexample).  `URLQueueManager.add_url` does not canonicalize its
argument: two distinct raw spellings of the same canonical URL (fragment
variants) are both accepted — the second call returns `True` even though the
canonical form of its URL is already pending — and the stored frontier entry
keeps the raw, non-canonical URL string. -/
theorem add_url_ignores_canonical_form :
    (addUrlD QueueState.empty "https://en.wikipedia.org/wiki/A" .article 0).1 = true ∧
    (addUrlD (addUrlD QueueState.empty "https://en.wikipedia.org/wiki/A" .article 0).2
      "https://en.wikipedia.org/wiki/A#x" .article 0).1 = true ∧
    normalize_url "https://en.wikipedia.org/wiki/A#x" =
      normalize_url "https://en.wikipedia.org/wiki/A" ∧
    ("https://en.wikipedia.org/wiki/A#x" : String) ≠ "https://en.wikipedia.org/wiki/A" ∧
    queueUrls (addUrlD (addUrlD QueueState.empty "https://en.wikipedia.org/wiki/A" .article 0).2
      "https://en.wikipedia.org/wiki/A#x" .article 0).2 =
      ["https://en.wikipedia.org/wiki/A", "https://en.wikipedia.org/wiki/A#x"] ∧
    normalize_url "https://en.wikipedia.org/wiki/A#x" ≠ "https://en.wikipedia.org/wiki/A#x" := by
  decide

/-- **C2** (amended).  `add_url` deduplicates on the raw URL string: it returns
`False` and leaves the state unchanged exactly when that exact string is already
in the pending or completed set; otherwise (for a URL passing the `URLItem`
validation) it returns `True` and appends an entry holding the URL verbatim, and
at insertion time that URL is not in the completed set.  Canonicalization is
performed only by the dedup registry, never by the frontier. -/
theorem add_url_raw_string_dedup (s : QueueState) (url : String) (t : URLType)
    (d : Nat) (b : Bool) (s' : QueueState)
    (h : add_url s url t d = .ok (b, s')) :
    (b = false → s' = s ∧ (url ∈ s.pending ∨ url ∈ s.completed)) ∧
    (b = true → url ∉ s.pending ∧ url ∉ s.completed ∧
      queueUrls s' = queueUrls s ++ [url] ∧
      s'.pending = setAdd s.pending url ∧ s'.completed = s.completed) := by
  unfold add_url at h
  by_cases hdup : url ∈ s.pending ∨ url ∈ s.completed
  · rw [if_pos hdup] at h
    simp only [Except.ok.injEq, Prod.mk.injEq] at h
    obtain ⟨hb, hs⟩ := h
    constructor
    · intro _
      exact ⟨hs.symm, hdup⟩
    · intro hb1
      rw [← hb] at hb1
      exact absurd hb1 (by simp)
  · rw [if_neg hdup] at h
    by_cases hval : validWikiUrl url
    · rw [if_neg (fun hc => hc hval)] at h
      simp only [Except.ok.injEq, Prod.mk.injEq] at h
      obtain ⟨hb, hs⟩ := h
      push_neg at hdup
      constructor
      · intro hb0
        rw [← hb] at hb0
        exact absurd hb0 (by simp)
      · intro _
        subst hs
        refine ⟨hdup.1, hdup.2, ?_, rfl, rfl⟩
        simp [queueUrls]
    · rw [if_pos hval] at h
      exact absurd h (by simp)

/-- Witness for `add_url_raw_string_dedup` at a concrete accepted insertion. -/
theorem add_url_raw_string_dedup_witness :
    "https://en.wikipedia.org/wiki/A" ∉ QueueState.empty.pending ∧
    queueUrls (addUrlD QueueState.empty "https://en.wikipedia.org/wiki/A" .article 0).2 =
      queueUrls QueueState.empty ++ ["https://en.wikipedia.org/wiki/A"] :=
  ⟨by decide,
    ((add_url_raw_string_dedup QueueState.empty "https://en.wikipedia.org/wiki/A"
      .article 0 true
      (addUrlD QueueState.empty "https://en.wikipedia.org/wiki/A" .article 0).2
      (by rfl)).2 rfl).2.2.1⟩

/-- **C3** (counterexample).  Two ARTICLE URLs enqueued in the order `B`, `A`
are dequeued in the order `A`, `B`: within a priority class the heap serves
entries in URL-lexicographic order, not insertion order. -/
theorem dequeue_not_insertion_order :
    (drainItems (runAdds
        [("https://en.wikipedia.org/wiki/B", .article, 0),
         ("https://en.wikipedia.org/wiki/A", .article, 0)])).map (fun it => it.url) =
      ["https://en.wikipedia.org/wiki/A", "https://en.wikipedia.org/wiki/B"] ∧
    ("https://en.wikipedia.org/wiki/A" : String) ≠ "https://en.wikipedia.org/wiki/B" := by
  decide

/-- **C3** (amended).  For any sequence of `add_url` calls, repeated
`get_next_url` calls return the enqueued entries in ascending `(priority, url)`
order — the URL string breaking ties code-point-lexicographically, not by
insertion order — and every enqueued entry is dequeued exactly once. -/
theorem dequeue_sorted_by_priority_then_url (reqs : List (String × URLType × Nat)) :
    List.Pairwise itemOrder (drainItems (runAdds reqs)) ∧
    (drainItems (runAdds reqs)).Perm ((runAdds reqs).queue.map (fun e => e.2.2)) :=
  ⟨drainItems_sorted _ (runAdds_WF reqs), drainItems_perm _⟩

/-- **C4** (confirmed).  However CATEGORY and ARTICLE requests are interleaved
in the `add_url` sequence, the dequeue sequence never shows an ARTICLE before a
CATEGORY — all enqueued CATEGORY entries (priority 1) are served before any
ARTICLE entry (priority 2) — and the dequeue sequence is a permutation of the
enqueued entries. -/
theorem category_before_article_dequeue (reqs : List (String × URLType × Nat)) :
    List.Pairwise (fun a b => ¬(a.url_type = .article ∧ b.url_type = .category))
      (drainItems (runAdds reqs)) ∧
    (drainItems (runAdds reqs)).Perm ((runAdds reqs).queue.map (fun e => e.2.2)) := by
  constructor
  · have hsorted := drainItems_sorted _ (runAdds_WF reqs)
    have hwf := runAdds_WF reqs
    have hpmap : ∀ it ∈ drainItems (runAdds reqs),
        it.priority = priorityMap it.url_type := by
      intro it hit
      have hperm := drainItems_perm (runAdds reqs)
      have hmem := hperm.mem_iff.mp hit
      simp only [List.mem_map] at hmem
      obtain ⟨e, he, heq⟩ := hmem
      have h3 := (hwf e he).2.2
      rw [heq] at h3
      exact h3
    refine List.Pairwise.imp_of_mem ?_ hsorted
    intro a b ha hb hab
    rintro ⟨hart, hcat⟩
    have hpa := hpmap a ha
    have hpb := hpmap b hb
    rw [hart] at hpa
    rw [hcat] at hpb
    simp only [priorityMap] at hpa hpb
    unfold itemOrder at hab
    rcases hab with h | h
    · omega
    · omega
  · exact drainItems_perm _

/-!
## Character facts for URL normalization (C8)

`Char.toLower` in Lean core shifts the ASCII range 65..90 by 32 and leaves
everything else alone — the same as CPython `str.lower` on ASCII input.
-/

/-- `Char.ofNat` below the surrogate range recovers its scalar value. -/
theorem charToNat_ofNat (n : Nat) (h : n < 0xD800) : (Char.ofNat n).toNat = n := by
  simp only [Char.ofNat, Nat.isValidChar]
  rw [dif_pos (Or.inl h)]
  simp [Char.ofNatAux, Char.toNat, UInt32.toNat]

/-- `Char.toNat` is injective. -/
theorem charToNat_inj (a b : Char) (h : a.toNat = b.toNat) : a = b := by
  apply Char.eq_of_val_eq
  apply UInt32.toNat.inj h

/-- `Char.toLower` on scalar values. -/
theorem toLower_toNat (c : Char) :
    (Char.toLower c).toNat =
      if 65 ≤ c.toNat ∧ c.toNat ≤ 90 then c.toNat + 32 else c.toNat := by
  show (if c.toNat ≥ 65 ∧ c.toNat ≤ 90 then Char.ofNat (c.toNat + 32) else c).toNat = _
  by_cases h : 65 ≤ c.toNat ∧ c.toNat ≤ 90
  · rw [if_pos ⟨h.1, h.2⟩, if_pos h]
    exact charToNat_ofNat _ (by omega)
  · rw [if_neg (fun hc => h ⟨hc.1, hc.2⟩), if_neg h]

/-- `Char.toLower` is idempotent. -/
theorem toLower_idem (c : Char) : Char.toLower (Char.toLower c) = Char.toLower c := by
  apply charToNat_inj
  have h1 := toLower_toNat c
  have h2 := toLower_toNat (Char.toLower c)
  split_ifs at h1 h2 <;> omega

/-- `Char.toLower` keeps printable ASCII printable. -/
theorem toLower_bounds (c : Char) (h : 33 ≤ c.toNat ∧ c.toNat ≤ 126) :
    33 ≤ (Char.toLower c).toNat ∧ (Char.toLower c).toNat ≤ 126 := by
  have h1 := toLower_toNat c
  split_ifs at h1 <;> omega

/-- `Char.toLower` cannot produce a character outside the lowercase range from a
different character. -/
theorem toLower_ne (c d : Char) (hd : d.toNat < 97 ∨ 122 < d.toNat) (hne : c ≠ d) :
    Char.toLower c ≠ d := by
  intro he
  have h1 := toLower_toNat c
  rw [he] at h1
  by_cases hu : 65 ≤ c.toNat ∧ c.toNat ≤ 90
  · rw [if_pos hu] at h1
    omega
  · rw [if_neg hu] at h1
    exact hne (charToNat_inj c d h1.symm)

/-- `Char.isUpper` as a scalar-range test. -/
theorem isUpper_iff (c : Char) : c.isUpper = true ↔ 65 ≤ c.toNat ∧ c.toNat ≤ 90 := by
  simp only [Char.isUpper, Bool.and_eq_true, decide_eq_true_eq]
  exact Iff.rfl

/-- `Char.isLower` as a scalar-range test. -/
theorem isLower_iff (c : Char) : c.isLower = true ↔ 97 ≤ c.toNat ∧ c.toNat ≤ 122 := by
  simp only [Char.isLower, Bool.and_eq_true, decide_eq_true_eq]
  exact Iff.rfl

/-- `Char.isDigit` as a scalar-range test. -/
theorem isDigit_iff (c : Char) : c.isDigit = true ↔ 48 ≤ c.toNat ∧ c.toNat ≤ 57 := by
  simp only [Char.isDigit, Bool.and_eq_true, decide_eq_true_eq]
  exact Iff.rfl

/-- Lowercasing preserves letterhood. -/
theorem isAlpha_toLower (c : Char) (h : c.isAlpha = true) :
    (Char.toLower c).isAlpha = true := by
  have h1 := toLower_toNat c
  simp only [Char.isAlpha, Bool.or_eq_true, isUpper_iff, isLower_iff] at h ⊢
  split_ifs at h1 <;> omega

/-- Lowercasing preserves scheme characters. -/
theorem isSchemeChar_toLower (c : Char) (h : isSchemeChar c = true) :
    isSchemeChar (Char.toLower c) = true := by
  simp only [isSchemeChar, Bool.or_eq_true, decide_eq_true_eq] at h ⊢
  rcases h with ((((h | h) | h) | h) | h)
  · exact Or.inl (Or.inl (Or.inl (Or.inl (isAlpha_toLower c h))))
  · refine Or.inl (Or.inl (Or.inl (Or.inr ?_)))
    have h1 := toLower_toNat c
    rw [isDigit_iff] at h ⊢
    split_ifs at h1 <;> omega
  · rw [h]
    left; left; right
    decide
  · rw [h]
    left; right
    decide
  · rw [h]
    right
    decide

/-!
## List helpers for URL normalization (C8)
-/

/-- `takeWhile`/`dropWhile` of a concatenation whose first part satisfies the
predicate everywhere and whose second part fails it at its head. -/
theorem takeDropWhile_append (p : Char → Bool) :
    ∀ (a b : List Char), (∀ c ∈ a, p c = true) →
      (∀ c, b.head? = some c → p c = false) →
      (a ++ b).takeWhile p = a ∧ (a ++ b).dropWhile p = b := by
  intro a
  induction a with
  | nil =>
    intro b _ hb
    cases b with
    | nil => simp
    | cons c cs =>
      have hc := hb c rfl
      simp [List.takeWhile_cons, List.dropWhile_cons, hc]
  | cons x xs ih =>
    intro b ha hb
    have hx : p x = true := ha x (List.mem_cons_self x xs)
    have hxs : ∀ c ∈ xs, p c = true := fun c hc => ha c (List.mem_cons_of_mem x hc)
    obtain ⟨h1, h2⟩ := ih b hxs hb
    simp [List.takeWhile_cons, List.dropWhile_cons, hx, h1, h2]

/-- `dropWhile` is the identity when every element fails the predicate. -/
theorem dropWhile_eq_self_of (p : Char → Bool) (l : List Char)
    (h : ∀ c ∈ l, p c = false) : l.dropWhile p = l := by
  cases l with
  | nil => rfl
  | cons c cs => simp [List.dropWhile_cons, h c (List.mem_cons_self c cs)]

/-- The head of a `dropWhile` fails the predicate. -/
theorem head_dropWhile_false (p : Char → Bool) :
    ∀ (l : List Char) (c : Char), (l.dropWhile p).head? = some c → p c = false := by
  intro l
  induction l with
  | nil => intro c h; simp at h
  | cons x xs ih =>
    intro c h
    rw [List.dropWhile_cons] at h
    by_cases hx : p x = true
    · rw [if_pos hx] at h
      exact ih c h
    · rw [if_neg hx] at h
      simp only [List.head?_cons, Option.some.injEq] at h
      subst h
      cases hpc : p x with
      | false => rfl
      | true => exact absurd hpc hx

/-- Python whitespace is below the printable range. -/
theorem isPySpace_toNat (c : Char) (h : isPySpace c = true) : c.toNat < 33 := by
  simp only [isPySpace, Bool.or_eq_true, decide_eq_true_eq] at h
  rcases h with (((((h | h) | h) | h) | h) | h)
  · rw [h]; decide
  · rw [h]; decide
  · rw [h]; decide
  · rw [h]; decide
  · omega
  · omega

/-- `str.strip()` is the identity on printable-ASCII content. -/
theorem pyStrip_eq_self (l : List Char) (h : ∀ c ∈ l, 33 ≤ c.toNat) :
    pyStrip l = l := by
  have hfail : ∀ c ∈ l, isPySpace c = false := by
    intro c hc
    cases hps : isPySpace c with
    | false => rfl
    | true => exact absurd (isPySpace_toNat c hps) (by have := h c hc; omega)
  unfold pyStrip
  rw [dropWhile_eq_self_of _ l hfail]
  rw [dropWhile_eq_self_of _ l.reverse (fun c hc => hfail c (List.mem_reverse.mp hc))]
  exact List.reverse_reverse l

/-- `urlsplit`'s input sanitization is the identity on printable-ASCII content. -/
theorem urlCleanL_eq_self (l : List Char) (h : ∀ c ∈ l, 33 ≤ c.toNat) :
    urlCleanL l = l := by
  unfold urlCleanL
  rw [dropWhile_eq_self_of _ l (fun c hc => by
    have := h c hc
    simp only [decide_eq_false_iff_not]
    omega)]
  rw [List.filter_eq_self.mpr]
  intro c hc
  have hge := h c hc
  simp only [decide_eq_true_eq, not_or]
  refine ⟨?_, ?_, ?_⟩ <;> (intro he; rw [he] at hge; revert hge; decide)

/-- `unquote` is the identity on `%`-free input. -/
theorem unquoteL_eq_self (l : List Char) (h : ('%' : Char) ∉ l) : unquoteL l = l := by
  induction l with
  | nil => exact unquoteL_nil
  | cons c cs ih =>
    have hc : ¬ c = '%' := fun he => h (he ▸ List.mem_cons_self c cs)
    rw [unquoteL_cons_ne c cs hc, ih (fun hm => h (List.mem_cons_of_mem c hm))]

/-- Every character of a `splitOnChar` field occurs in the input. -/
theorem splitOnChar_chars (sep : Char) :
    ∀ (n : Nat) (l : List Char), l.length ≤ n →
      ∀ x ∈ splitOnChar sep l, ∀ c ∈ x, c ∈ l := by
  intro n
  induction n with
  | zero =>
    intro l hl x hx c hc
    have : l = [] := List.eq_nil_of_length_eq_zero (Nat.le_zero.mp hl)
    subst this
    rw [splitOnChar_none sep [] (by rfl)] at hx
    simp at hx
    subst hx
    simp at hc
  | succ m ih =>
    intro l hl x hx c hc
    cases hsp : splitFirst sep l with
    | none =>
      rw [splitOnChar_none sep l hsp] at hx
      simp at hx
      subst hx
      exact hc
    | some ab =>
      obtain ⟨a, b⟩ := ab
      obtain ⟨heq, -⟩ := splitFirst_some_eq sep l a b hsp
      rw [splitOnChar_some sep l a b hsp] at hx
      have hblen := splitFirst_length sep l a b hsp
      rcases List.mem_cons.mp hx with hxa | hxb
      · subst hxa
        rw [heq]
        exact List.mem_append_left _ hc
      · have := ih b (by omega) x hxb c hc
        rw [heq]
        exact List.mem_append_right _ (List.mem_cons_of_mem _ this)

/-- `rstripSlash` splits the input into the kept prefix and a run of slashes. -/
theorem rstripSlash_split (l : List Char) :
    l = rstripSlash l ++ (l.reverse.takeWhile (fun c => c = '/')).reverse ∧
      (∀ c ∈ (l.reverse.takeWhile (fun c => c = '/')).reverse, c = '/') := by
  constructor
  · have key : rstripSlash l ++ (l.reverse.takeWhile (fun c => c = '/')).reverse = l := by
      unfold rstripSlash
      rw [← List.reverse_append, List.takeWhile_append_dropWhile, List.reverse_reverse]
    exact key.symm
  · intro c hc
    have := List.mem_takeWhile_imp (List.mem_reverse.mp hc)
    simpa using this

/-- The kept prefix of `rstripSlash` never ends in a slash. -/
theorem rstripSlash_getLast (l : List Char) :
    (rstripSlash l).getLast? ≠ some '/' := by
  unfold rstripSlash
  rw [List.getLast?_eq_head?_reverse, List.reverse_reverse]
  intro h
  have := head_dropWhile_false (fun c => decide (c = '/')) l.reverse '/' h
  simp at this

/-- When the kept prefix is nonempty it starts where the input starts. -/
theorem rstripSlash_head (l : List Char) (h : rstripSlash l ≠ []) :
    (rstripSlash l).head? = l.head? := by
  obtain ⟨heq, -⟩ := rstripSlash_split l
  conv_rhs => rw [heq]
  rw [List.head?_append]
  cases hh : (rstripSlash l).head? with
  | none => exact absurd (List.head?_eq_none_iff.mp hh) h
  | some c => rfl

/-- `hexVal` inverts `hexDigitUpper`. -/
theorem hexVal_hexDigitUpper : ∀ n < 16, hexVal (hexDigitUpper n) = some n := by
  decide

/-- `hexDigitUpper` never produces `+`. -/
theorem hexDigitUpper_ne_plus : ∀ n < 16, hexDigitUpper n ≠ '+' := by
  decide

/-- `+` → space desugaring leaves a `%XX` escape alone. -/
theorem plusToSpace_pctByte (b : Nat) (hb : b < 256) :
    plusToSpace (pctByte b) = pctByte b := by
  have h1 := hexDigitUpper_ne_plus (b / 16) (by omega)
  have h2 := hexDigitUpper_ne_plus (b % 16) (by omega)
  simp [plusToSpace, pctByte, h1, h2]

/-- `plusToSpace ∘ quote_plus` distributes over concatenation. -/
theorem pts_quote_append (a b : List Char) :
    plusToSpace (quote_plus (a ++ b)) =
      plusToSpace (quote_plus a) ++ plusToSpace (quote_plus b) := by
  simp [quote_plus, plusToSpace, List.flatMap_append]

/-- `plusToSpace ∘ quote_plus` peels one character. -/
theorem pts_quote_cons (c : Char) (l : List Char) :
    plusToSpace (quote_plus (c :: l)) =
      plusToSpace (quotePlusChar c) ++ plusToSpace (quote_plus l) := by
  simp [quote_plus, plusToSpace]

/-- A non-encoded character survives `quote_plus` then `+`-desugaring as itself. -/
theorem pts_quotePlusChar_lit (c : Char) (h : encCh c = false) :
    plusToSpace (quotePlusChar c) = [c] := by
  have h' : alwaysSafe c = true ∨ c = ' ' := by
    simpa only [encCh, Bool.not_eq_false', Bool.or_eq_true, decide_eq_true_eq] using h
  rcases h' with hsafe | hsp
  · have hplus : ¬ c = '+' := by
      intro he
      rw [he] at hsafe
      exact absurd hsafe (by decide)
    simp [quotePlusChar, hsafe, plusToSpace, hplus]
  · subst hsp
    decide

/-- An encoded ASCII character becomes exactly its `%XX` escape. -/
theorem pts_quotePlusChar_enc (c : Char) (h : encCh c = true) (hc : c.toNat < 0x80) :
    plusToSpace (quotePlusChar c) = pctByte c.toNat := by
  have h' : alwaysSafe c = false ∧ ¬ c = ' ' := by
    have := h
    simp only [encCh, Bool.not_eq_true', Bool.or_eq_false_iff,
      decide_eq_false_iff_not] at this
    exact this
  obtain ⟨hsafe, hsp⟩ := h'
  simp only [quotePlusChar, hsafe, Bool.false_eq_true, if_false, if_neg hsp]
  rw [utf8Bytes, if_pos hc]
  simp only [List.flatMap_cons, List.flatMap_nil, List.append_nil]
  exact plusToSpace_pctByte c.toNat (by omega)

/-- Encoding a block of to-encode ASCII characters yields the escape string. -/
theorem pts_quote_encBlock : ∀ (e : List Char),
    (∀ c ∈ e, encCh c = true ∧ c.toNat < 0x80) →
    plusToSpace (quote_plus e) = e.flatMap (fun c => pctByte c.toNat) := by
  intro e
  induction e with
  | nil => intro _; rfl
  | cons c e' ih =>
    intro h
    have hc := h c (List.mem_cons_self c e')
    rw [pts_quote_cons, pts_quotePlusChar_enc c hc.1 hc.2,
      ih (fun x hx => h x (List.mem_cons_of_mem c hx))]
    rfl

/-- `pctRun` consumes an encoded block wholly and stops at the remainder. -/
theorem pctRun_encBlock : ∀ (e : List Char) (rest : List Char),
    (∀ c ∈ e, c.toNat < 0x80) →
    (∀ c, rest.head? = some c → ¬ c = '%') →
    pctRun (e.flatMap (fun c => pctByte c.toNat) ++ rest) = (e.map Char.toNat, rest) := by
  intro e
  induction e with
  | nil =>
    intro rest _ hrest
    cases rest with
    | nil => rfl
    | cons x xs => simpa using pctRun_ne x xs (hrest x rfl)
  | cons c e' ih =>
    intro rest hlt hrest
    have hc := hlt c (List.mem_cons_self c e')
    have hv1 := hexVal_hexDigitUpper (c.toNat / 16) (by omega)
    have hv2 := hexVal_hexDigitUpper (c.toNat % 16) (by omega)
    have hshape : (c :: e').flatMap (fun c => pctByte c.toNat) ++ rest =
        '%' :: hexDigitUpper (c.toNat / 16) :: hexDigitUpper (c.toNat % 16) ::
          (e'.flatMap (fun c => pctByte c.toNat) ++ rest) := by
      simp [pctByte]
    rw [hshape, pctRun_step _ _ _ _ _ hv1 hv2,
      ih rest (fun x hx => hlt x (List.mem_cons_of_mem c hx)) hrest]
    have harith : c.toNat / 16 * 16 + c.toNat % 16 = c.toNat := by omega
    rw [harith]
    rfl

/-- ASCII byte lists decode to the corresponding characters. -/
theorem utf8DecodeF_ascii_list : ∀ (bs : List Nat), (∀ b ∈ bs, b < 0x80) →
    ∀ (fuel : Nat), bs.length ≤ fuel →
      utf8DecodeF fuel bs = bs.map (fun b => Char.ofNat b) := by
  intro bs
  induction bs with
  | nil =>
    intro _ fuel _
    cases fuel <;> rfl
  | cons b bs' ih =>
    intro h fuel hfuel
    cases fuel with
    | zero => simp at hfuel
    | succ m =>
      rw [utf8DecodeF_ascii m b bs' (h b (List.mem_cons_self b bs'))]
      rw [ih (fun x hx => h x (List.mem_cons_of_mem b hx)) m (by simpa using hfuel)]
      rfl

/-- `unquote` undoes `quote_plus` followed by `+`-desugaring, on ASCII input. -/
theorem unquote_pq_aux : ∀ (n : Nat), ∀ (l : List Char), l.length ≤ n →
    (∀ c ∈ l, c.toNat < 0x80) →
    unquoteL (plusToSpace (quote_plus l)) = l := by
  intro n
  induction n using Nat.strong_induction_on with
  | _ n ih =>
    intro l hl hlt
    cases l with
    | nil => rfl
    | cons c cs =>
      by_cases henc : encCh c = true
      · -- split off the maximal encoded block
        have hl_split : c :: cs =
            (c :: cs).takeWhile encCh ++ (c :: cs).dropWhile encCh :=
          (List.takeWhile_append_dropWhile encCh (c :: cs)).symm
        have he_cons : (c :: cs).takeWhile encCh = c :: cs.takeWhile encCh := by
          rw [List.takeWhile_cons, if_pos henc]
        have he_mem : ∀ x ∈ (c :: cs).takeWhile encCh,
            encCh x = true ∧ x.toNat < 0x80 := by
          intro x hx
          refine ⟨List.mem_takeWhile_imp hx, ?_⟩
          have hmem : x ∈ c :: cs := by
            rw [hl_split]
            exact List.mem_append_left _ hx
          exact hlt x hmem
        have hr_mem : ∀ x ∈ (c :: cs).dropWhile encCh, x.toNat < 0x80 := by
          intro x hx
          have hmem : x ∈ c :: cs := by
            rw [hl_split]
            exact List.mem_append_right _ hx
          exact hlt x hmem
        have hr_head : ∀ x, ((c :: cs).dropWhile encCh).head? = some x →
            encCh x = false :=
          fun x hx => head_dropWhile_false encCh (c :: cs) x hx
        have hqdist : plusToSpace (quote_plus (c :: cs)) =
            plusToSpace (quote_plus ((c :: cs).takeWhile encCh)) ++
              plusToSpace (quote_plus ((c :: cs).dropWhile encCh)) := by
          conv_lhs => rw [hl_split]
          exact pts_quote_append _ _
        have henc_block := pts_quote_encBlock ((c :: cs).takeWhile encCh) he_mem
        have hpq_r_head : ∀ x,
            (plusToSpace (quote_plus ((c :: cs).dropWhile encCh))).head? = some x →
              ¬ x = '%' := by
          intro x hx
          cases hr : (c :: cs).dropWhile encCh with
          | nil =>
            rw [hr] at hx
            simp [quote_plus, plusToSpace] at hx
          | cons y ys =>
            have hy : encCh y = false := hr_head y (by rw [hr]; rfl)
            rw [hr, pts_quote_cons, pts_quotePlusChar_lit y hy] at hx
            simp only [List.cons_append, List.nil_append, List.head?_cons,
              Option.some.injEq] at hx
            subst hx
            intro hy'
            rw [hy'] at hy
            exact absurd hy (by decide)
        have hrun := pctRun_encBlock ((c :: cs).takeWhile encCh)
          (plusToSpace (quote_plus ((c :: cs).dropWhile encCh)))
          (fun x hx => (he_mem x hx).2) hpq_r_head
        have hform : plusToSpace (quote_plus (c :: cs)) =
            '%' :: (hexDigitUpper (c.toNat / 16) :: hexDigitUpper (c.toNat % 16) ::
              ((cs.takeWhile encCh).flatMap (fun x => pctByte x.toNat) ++
                plusToSpace (quote_plus ((c :: cs).dropWhile encCh)))) := by
          rw [hqdist, henc_block, he_cons]
          simp [pctByte]
        have hrun' : pctRun ('%' :: (hexDigitUpper (c.toNat / 16) ::
            hexDigitUpper (c.toNat % 16) ::
              ((cs.takeWhile encCh).flatMap (fun x => pctByte x.toNat) ++
                plusToSpace (quote_plus ((c :: cs).dropWhile encCh))))) =
            (c.toNat :: (cs.takeWhile encCh).map Char.toNat,
              plusToSpace (quote_plus ((c :: cs).dropWhile encCh))) := by
          have h2 := hrun
          rw [he_cons] at h2
          simpa [pctByte] using h2
        have hdec : utf8DecodeReplace (c.toNat ::
            (cs.takeWhile encCh).map Char.toNat) = (c :: cs).takeWhile encCh := by
          unfold utf8DecodeReplace
          rw [show c.toNat :: (cs.takeWhile encCh).map Char.toNat =
              ((c :: cs).takeWhile encCh).map Char.toNat by rw [he_cons]; rfl]
          rw [utf8DecodeF_ascii_list (((c :: cs).takeWhile encCh).map Char.toNat)
            (by
              intro b hb
              obtain ⟨x, hx, hbx⟩ := List.mem_map.mp hb
              rw [← hbx]
              exact (he_mem x hx).2)
            (((c :: cs).takeWhile encCh).map Char.toNat).length (le_refl _)]
          rw [List.map_map]
          have hid : ∀ x ∈ (c :: cs).takeWhile encCh,
              (Char.ofNat ∘ Char.toNat) x = id x := by
            intro x _
            simp [Char.ofNat_toNat]
          rw [List.map_congr_left hid, List.map_id]
        have hr_lt : ((c :: cs).dropWhile encCh).length < n := by
          have hsum : ((c :: cs).takeWhile encCh).length +
              ((c :: cs).dropWhile encCh).length = (c :: cs).length := by
            rw [← List.length_append, ← hl_split]
          have he_pos : 0 < ((c :: cs).takeWhile encCh).length := by
            rw [he_cons]
            simp
          have hlen : (c :: cs).length ≤ n := hl
          simp only [List.length_cons] at hsum hlen
          omega
        have hih := ih ((c :: cs).dropWhile encCh).length hr_lt
          ((c :: cs).dropWhile encCh) (le_refl _) hr_mem
        rw [hform, unquoteL_pct_run _ _ _ _ hrun', hdec, hih, ← hl_split]
      · -- a literal character passes through
        have henc' : encCh c = false := by
          simpa using henc
        have hform : plusToSpace (quote_plus (c :: cs)) =
            c :: plusToSpace (quote_plus cs) := by
          rw [pts_quote_cons, pts_quotePlusChar_lit c henc']
          rfl
        have hc_ne : ¬ c = '%' := by
          intro he
          rw [he] at henc'
          exact absurd henc' (by decide)
        rw [hform, unquoteL_cons_ne c _ hc_ne]
        congr 1
        cases n with
        | zero => simp at hl
        | succ m =>
          exact ih m (Nat.lt_succ_self m) cs (by simpa using hl)
            (fun x hx => hlt x (List.mem_cons_of_mem c hx))

/-- `unquote_plus (quote_plus l) = l` on ASCII input: the query values the
crawler feeds through `urlencode` decode back to themselves. -/
theorem unquote_plus_quote_plus (l : List Char) (h : ∀ c ∈ l, c.toNat < 0x80) :
    unquote_plus (quote_plus l) = l :=
  unquote_pq_aux l.length l (le_refl _) h

/-!
## `parse_qsl` inverts `urlencode` (C8)
-/

/-- Safe characters are printable and are none of the query metacharacters. -/
theorem alwaysSafe_facts (c : Char) (h : alwaysSafe c = true) :
    33 ≤ c.toNat ∧ c ≠ '#' ∧ c ≠ '&' ∧ c ≠ '=' := by
  refine ⟨?_, ?_, ?_, ?_⟩
  · simp only [alwaysSafe, Bool.or_eq_true, decide_eq_true_eq, Char.isAlpha,
      isUpper_iff, isLower_iff, isDigit_iff] at h
    rcases h with (((((h | h) | h) | h) | h) | h) | h
    · omega
    · omega
    · omega
    · rw [h]; decide
    · rw [h]; decide
    · rw [h]; decide
    · rw [h]; decide
  all_goals (intro he; rw [he] at h; exact absurd h (by decide))

/-- `hexDigitUpper` digits are printable non-metacharacters. -/
theorem hexDigitUpper_facts : ∀ n < 16, 33 ≤ (hexDigitUpper n).toNat ∧
    hexDigitUpper n ≠ '#' ∧ hexDigitUpper n ≠ '&' ∧ hexDigitUpper n ≠ '=' := by
  decide

/-- Every character `quote_plus` emits for an ASCII character is printable and
is not `#`, `&` or `=`. -/
theorem quotePlusChar_facts (c : Char) (hc : c.toNat < 0x80) :
    ∀ x ∈ quotePlusChar c, 33 ≤ x.toNat ∧ x ≠ '#' ∧ x ≠ '&' ∧ x ≠ '=' := by
  intro x hx
  unfold quotePlusChar at hx
  by_cases hsafe : alwaysSafe c = true
  · rw [if_pos hsafe] at hx
    simp only [List.mem_singleton] at hx
    subst hx
    exact alwaysSafe_facts x hsafe
  · rw [if_neg hsafe] at hx
    by_cases hsp : c = ' '
    · rw [if_pos hsp] at hx
      simp only [List.mem_singleton] at hx
      subst hx
      decide
    · rw [if_neg hsp] at hx
      rw [utf8Bytes, if_pos hc] at hx
      simp only [List.flatMap_cons, List.flatMap_nil, List.append_nil, pctByte,
        List.mem_cons, List.not_mem_nil, or_false] at hx
      rcases hx with hx | hx | hx
      · subst hx; decide
      · subst hx; exact hexDigitUpper_facts (c.toNat / 16) (by omega)
      · subst hx; exact hexDigitUpper_facts (c.toNat % 16) (by omega)

/-- `&` never occurs in the `quote_plus` encoding of an ASCII string. -/
theorem quote_plus_no_amp (l : List Char) (h : ∀ c ∈ l, c.toNat < 0x80) :
    ('&' : Char) ∉ quote_plus l := by
  intro hm
  obtain ⟨c, hc, hx⟩ := List.mem_flatMap.mp hm
  exact absurd rfl (quotePlusChar_facts c (h c hc) '&' hx).2.2.1

/-- `=` never occurs in the `quote_plus` encoding of an ASCII string. -/
theorem quote_plus_no_eq (l : List Char) (h : ∀ c ∈ l, c.toNat < 0x80) :
    ('=' : Char) ∉ quote_plus l := by
  intro hm
  obtain ⟨c, hc, hx⟩ := List.mem_flatMap.mp hm
  exact absurd rfl (quotePlusChar_facts c (h c hc) '=' hx).2.2.2

/-- A separator-free list does not split. -/
theorem splitFirst_eq_none (sep : Char) (l : List Char) (h : sep ∉ l) :
    splitFirst sep l = none := by
  cases hsp : splitFirst sep l with
  | none => rfl
  | some ab =>
    obtain ⟨a, b⟩ := ab
    obtain ⟨heq, -⟩ := splitFirst_some_eq sep l a b hsp
    exact absurd (heq ▸ List.mem_append_right a (List.mem_cons_self sep b)) h

/-- `splitFirst` finds an explicitly placed separator. -/
theorem splitFirst_append_cons (sep : Char) :
    ∀ (a b : List Char), sep ∉ a → splitFirst sep (a ++ sep :: b) = some (a, b) := by
  intro a
  induction a with
  | nil =>
    intro b _
    simp [splitFirst]
  | cons x xs ih =>
    intro b h
    have hx : ¬ x = sep := fun he => h (he ▸ List.mem_cons_self x xs)
    have hxs : sep ∉ xs := fun hm => h (List.mem_cons_of_mem x hm)
    rw [show splitFirst sep ((x :: xs) ++ sep :: b) =
        (if x = sep then some ([], xs ++ sep :: b)
         else match splitFirst sep (xs ++ sep :: b) with
           | none => none
           | some (a, b) => some (x :: a, b)) from rfl]
    rw [if_neg hx, ih b hxs]

/-- `splitOnChar` inverts `intercalate` on separator-free fields. -/
theorem splitOnChar_intercalate (sep : Char) :
    ∀ (fields : List (List Char)), fields ≠ [] →
      (∀ f ∈ fields, sep ∉ f) →
      splitOnChar sep (List.intercalate [sep] fields) = fields := by
  intro fields
  induction fields with
  | nil => intro h _; exact absurd rfl h
  | cons f rest ih =>
    intro _ hfree
    cases rest with
    | nil =>
      have hstep : List.intercalate [sep] [f] = f := by simp [List.intercalate]
      rw [hstep]
      exact splitOnChar_none sep f
        (splitFirst_eq_none sep f (hfree f (List.mem_cons_self f [])))
    | cons g rest' =>
      have hstep : List.intercalate [sep] (f :: g :: rest') =
          f ++ sep :: List.intercalate [sep] (g :: rest') := by
        have h0 : List.intercalate [sep] (f :: g :: rest') =
            f ++ [sep] ++ List.intercalate [sep] (g :: rest') := by
          simp [List.intercalate, List.intersperse]
        rw [h0]
        simp
      rw [hstep]
      have hsf : splitFirst sep (f ++ sep :: List.intercalate [sep] (g :: rest')) =
          some (f, List.intercalate [sep] (g :: rest')) :=
        splitFirst_append_cons sep f _ (hfree f (List.mem_cons_self f _))
      rw [splitOnChar_some sep _ _ _ hsf]
      congr 1
      exact ih (List.cons_ne_nil g rest')
        (fun x hx => hfree x (List.mem_cons_of_mem f hx))

/-- `parse_qsl` is the `filterMap` of `qslField` over the `&`-fields. -/
theorem parse_qsl_eq (qs : List Char) :
    parse_qsl qs = (splitOnChar '&' qs).filterMap qslField := rfl

/-- `urlencodeGrouped` is the `&`-intercalation of the encoded fields. -/
theorem urlencodeGrouped_eq (G : List (List Char × List (List Char))) :
    urlencodeGrouped G = List.intercalate ['&'] (encFields G) := rfl

/-- Parsing one encoded field recovers its pair. -/
theorem qslField_enc (k v : List Char) (hk : ∀ c ∈ k, c.toNat < 0x80)
    (hv : ∀ c ∈ v, c.toNat < 0x80) :
    qslField (quote_plus k ++ '=' :: quote_plus v) = some (k, v) := by
  unfold qslField
  rw [if_neg (by simp)]
  rw [splitFirst_append_cons '=' (quote_plus k) (quote_plus v) (quote_plus_no_eq k hk)]
  show some (unquote_plus (quote_plus k), unquote_plus (quote_plus v)) = some (k, v)
  rw [unquote_plus_quote_plus k hk, unquote_plus_quote_plus v hv]

/-- Parsing the encoded block of one key recovers its pairs. -/
theorem filterMap_encBlock (k : List Char) (hk : ∀ c ∈ k, c.toNat < 0x80) :
    ∀ (vs : List (List Char)), (∀ v ∈ vs, ∀ c ∈ v, c.toNat < 0x80) →
      (vs.map (fun v => quote_plus k ++ '=' :: quote_plus v)).filterMap qslField =
        vs.map (fun v => (k, v)) := by
  intro vs
  induction vs with
  | nil => intro _; rfl
  | cons v vs' ih =>
    intro hvs
    simp only [List.map_cons, List.filterMap_cons,
      qslField_enc k v hk (hvs v (List.mem_cons_self v vs'))]
    rw [ih (fun w hw => hvs w (List.mem_cons_of_mem v hw))]

/-- Parsing all encoded fields recovers the flattened dictionary. -/
theorem filterMap_encFields : ∀ (G : List (List Char × List (List Char))),
    asciiGrouped G → (encFields G).filterMap qslField = flatPairs G := by
  intro G
  induction G with
  | nil => intro _; rfl
  | cons p G' ih =>
    intro hG
    obtain ⟨hk, hvs⟩ := hG p (List.mem_cons_self p G')
    have hG' : asciiGrouped G' := fun q hq => hG q (List.mem_cons_of_mem p hq)
    simp only [encFields, flatPairs, List.flatMap_cons, List.filterMap_append]
    rw [filterMap_encBlock p.1 hk p.2 hvs]
    rw [show (G'.flatMap fun p => p.2.map
        (fun v => quote_plus p.1 ++ '=' :: quote_plus v)) = encFields G' from rfl]
    rw [show (G'.flatMap fun p => p.2.map (fun v => (p.1, v))) = flatPairs G' from rfl]
    rw [ih hG']

/-- `parse_qsl` recovers the flattened pairs of an encoded grouped dictionary. -/
theorem parse_qsl_urlencode (G : List (List Char × List (List Char)))
    (hG : asciiGrouped G) (hne : encFields G ≠ []) :
    parse_qsl (urlencodeGrouped G) = flatPairs G := by
  have hfree : ∀ f ∈ encFields G, ('&' : Char) ∉ f := by
    intro f hf hmem
    obtain ⟨p, hp, hv⟩ := List.mem_flatMap.mp hf
    obtain ⟨v, hvmem, hveq⟩ := List.mem_map.mp hv
    obtain ⟨hk, hvsa⟩ := hG p hp
    rw [← hveq] at hmem
    rcases List.mem_append.mp hmem with hmm | hmm
    · exact quote_plus_no_amp p.1 hk hmm
    · rcases List.mem_cons.mp hmm with he | hmm'
      · exact absurd he (by decide)
      · exact quote_plus_no_amp v (hvsa v hvmem) hmm'
  rw [parse_qsl_eq, urlencodeGrouped_eq,
    splitOnChar_intercalate '&' (encFields G) hne hfree,
    filterMap_encFields G hG]

/-- Inserting an absent key appends a fresh singleton group. -/
theorem insertGrouped_not_mem : ∀ (acc : List (List Char × List (List Char)))
    (k v : List Char), k ∉ gKeys acc → insertGrouped acc k v = acc ++ [(k, [v])] := by
  intro acc
  induction acc with
  | nil => intro k v _; rfl
  | cons p rest ih =>
    intro k v h
    have hne : ¬ p.1 = k := by
      intro he
      exact h (he ▸ List.mem_cons_self p.1 (gKeys rest))
    obtain ⟨k', vs⟩ := p
    simp only [insertGrouped, if_neg hne]
    rw [ih k v (fun hm => h (List.mem_cons_of_mem _ hm))]
    rfl

/-- Inserting into a concatenation whose first block misses the key recurses
past the first block. -/
theorem insertGrouped_append : ∀ (acc₁ acc₂ : List (List Char × List (List Char)))
    (k v : List Char), k ∉ gKeys acc₁ →
      insertGrouped (acc₁ ++ acc₂) k v = acc₁ ++ insertGrouped acc₂ k v := by
  intro acc₁
  induction acc₁ with
  | nil => intro acc₂ k v _; rfl
  | cons p rest ih =>
    intro acc₂ k v h
    have hne : ¬ p.1 = k := by
      intro he
      exact h (he ▸ List.mem_cons_self p.1 (gKeys rest))
    obtain ⟨k', vs⟩ := p
    simp only [List.cons_append, insertGrouped, if_neg hne]
    exact congrArg (List.cons (k', vs)) (ih acc₂ k v (fun hm => h (List.mem_cons_of_mem _ hm)))

/-- Inserting an existing key at the head appends to its value list. -/
theorem insertGrouped_head (k : List Char) (vs : List (List Char)) (v : List Char)
    (rest : List (List Char × List (List Char))) :
    insertGrouped ((k, vs) :: rest) k v = (k, vs ++ [v]) :: rest := by
  simp [insertGrouped]

/-- Folding a block of same-key pairs onto its singleton group accumulates the
values in order. -/
theorem foldl_insert_block (k : List Char) :
    ∀ (vs vs₀ : List (List Char)) (acc : List (List Char × List (List Char))),
      k ∉ gKeys acc →
      List.foldl (fun acc p => insertGrouped acc p.1 p.2)
        (acc ++ [(k, vs₀)]) (vs.map (fun v => (k, v))) = acc ++ [(k, vs₀ ++ vs)] := by
  intro vs
  induction vs with
  | nil =>
    intro vs₀ acc _
    simp
  | cons v vs' ih =>
    intro vs₀ acc hk
    simp only [List.map_cons, List.foldl_cons]
    rw [insertGrouped_append acc [(k, vs₀)] k v hk, insertGrouped_head]
    have := ih (vs₀ ++ [v]) acc hk
    rw [this]
    simp

/-- Folding a flattened valid dictionary rebuilds it. -/
theorem foldl_flatPairs : ∀ (G : List (List Char × List (List Char)))
    (acc : List (List Char × List (List Char))),
    (∀ p ∈ G, p.1 ∉ gKeys acc) →
    (gKeys G).Nodup →
    (∀ p ∈ G, p.2 ≠ []) →
    List.foldl (fun acc p => insertGrouped acc p.1 p.2) acc (flatPairs G) = acc ++ G := by
  intro G
  induction G with
  | nil =>
    intro acc _ _ _
    simp [flatPairs]
  | cons p G' ih =>
    intro acc hkeys hnodup hvals
    obtain ⟨k, vs⟩ := p
    have hkacc : k ∉ gKeys acc := hkeys (k, vs) (List.mem_cons_self _ _)
    cases vs with
    | nil => exact absurd rfl (hvals (k, []) (List.mem_cons_self _ _))
    | cons v vrest =>
      have hflat : flatPairs ((k, v :: vrest) :: G') =
          ((k, v) :: vrest.map (fun w => (k, w))) ++ flatPairs G' := by
        simp [flatPairs, List.flatMap_cons]
      rw [hflat]
      rw [List.foldl_append]
      have hstep1 : List.foldl (fun acc p => insertGrouped acc p.1 p.2) acc
          ((k, v) :: vrest.map (fun w => (k, w))) = acc ++ [(k, v :: vrest)] := by
        simp only [List.foldl_cons]
        rw [show insertGrouped acc k v = acc ++ [(k, [v])] from
          insertGrouped_not_mem acc k v hkacc]
        rw [foldl_insert_block k vrest [v] acc hkacc]
        rfl
      rw [hstep1]
      have hknotG' : k ∉ gKeys G' := by
        have hn := hnodup
        rw [show gKeys ((k, v :: vrest) :: G') = k :: gKeys G' from rfl] at hn
        exact (List.nodup_cons.mp hn).1
      have hih := ih (acc ++ [(k, v :: vrest)])
        (by
          intro q hq
          rw [show gKeys (acc ++ [(k, v :: vrest)]) = gKeys acc ++ [k] by
            simp [gKeys]]
          intro hm
          rcases List.mem_append.mp hm with hm | hm
          · exact hkeys q (List.mem_cons_of_mem _ hq) hm
          · rw [List.mem_singleton] at hm
            exact hknotG' (hm ▸ List.mem_map_of_mem (fun p => p.1) hq))
        (by
          have hn := hnodup
          rw [show gKeys ((k, v :: vrest) :: G') = k :: gKeys G' from rfl] at hn
          exact (List.nodup_cons.mp hn).2)
        (fun q hq => hvals q (List.mem_cons_of_mem _ hq))
      rw [hih]
      simp

/-- `parse_qs` grouping of a flattened valid dictionary is the identity. -/
theorem groupPairs_flatPairs (G : List (List Char × List (List Char)))
    (hnodup : (gKeys G).Nodup) (hvals : ∀ p ∈ G, p.2 ≠ []) :
    groupPairs (flatPairs G) = G := by
  unfold groupPairs
  rw [foldl_flatPairs G [] (by intro p _; simp [gKeys]) hnodup hvals]
  rfl

/-- The key list after an insertion. -/
theorem insertGrouped_gKeys : ∀ (acc : List (List Char × List (List Char)))
    (k v : List Char), gKeys (insertGrouped acc k v) =
      if k ∈ gKeys acc then gKeys acc else gKeys acc ++ [k] := by
  intro acc
  induction acc with
  | nil =>
    intro k v
    simp [insertGrouped, gKeys]
  | cons p rest ih =>
    intro k v
    obtain ⟨k', vs⟩ := p
    by_cases he : k' = k
    · subst he
      rw [show insertGrouped ((k', vs) :: rest) k' v = (k', vs ++ [v]) :: rest from
        insertGrouped_head k' vs v rest]
      rw [if_pos (by simp [gKeys])]
      rfl
    · simp only [insertGrouped, if_neg he]
      rw [show gKeys ((k', vs) :: insertGrouped rest k v) =
        k' :: gKeys (insertGrouped rest k v) from rfl]
      rw [ih k v]
      by_cases hm : k ∈ gKeys rest
      · rw [if_pos hm, if_pos (by
          rw [show gKeys ((k', vs) :: rest) = k' :: gKeys rest from rfl]
          exact List.mem_cons_of_mem _ hm)]
        rfl
      · rw [if_neg hm, if_neg (by
          rw [show gKeys ((k', vs) :: rest) = k' :: gKeys rest from rfl]
          intro hc
          rcases List.mem_cons.mp hc with hc | hc
          · exact he hc.symm
          · exact hm hc)]
        rfl

/-- Insertion preserves distinctness of keys. -/
theorem insertGrouped_nodup (acc : List (List Char × List (List Char)))
    (k v : List Char) (h : (gKeys acc).Nodup) :
    (gKeys (insertGrouped acc k v)).Nodup := by
  rw [insertGrouped_gKeys]
  by_cases hm : k ∈ gKeys acc
  · rw [if_pos hm]; exact h
  · rw [if_neg hm]
    rw [List.nodup_append]
    exact ⟨h, List.nodup_singleton k, by simpa using hm⟩

/-- Insertion preserves nonemptiness of every value list. -/
theorem insertGrouped_vals (acc : List (List Char × List (List Char)))
    (k v : List Char) (h : ∀ p ∈ acc, p.2 ≠ []) :
    ∀ p ∈ insertGrouped acc k v, p.2 ≠ [] := by
  induction acc with
  | nil =>
    intro p hp
    simp only [insertGrouped, List.mem_singleton] at hp
    subst hp
    simp
  | cons q rest ih =>
    intro p hp
    obtain ⟨k', vs⟩ := q
    by_cases he : k' = k
    · subst he
      rw [insertGrouped_head] at hp
      rcases List.mem_cons.mp hp with hp | hp
      · subst hp; simp
      · exact h p (List.mem_cons_of_mem _ hp)
    · simp only [insertGrouped, if_neg he] at hp
      rcases List.mem_cons.mp hp with hp | hp
      · subst hp
        exact h (k', vs) (List.mem_cons_self _ _)
      · exact ih (fun q hq => h q (List.mem_cons_of_mem _ hq)) p hp

/-- Insertion preserves a character-level bound on keys and values. -/
theorem insertGrouped_chars (P : List Char → Prop)
    (acc : List (List Char × List (List Char))) (k v : List Char)
    (hacc : ∀ p ∈ acc, P p.1 ∧ ∀ w ∈ p.2, P w) (hk : P k) (hv : P v) :
    ∀ p ∈ insertGrouped acc k v, P p.1 ∧ ∀ w ∈ p.2, P w := by
  induction acc with
  | nil =>
    intro p hp
    simp only [insertGrouped, List.mem_singleton] at hp
    subst hp
    refine ⟨hk, ?_⟩
    intro w hw
    simp only [List.mem_singleton] at hw
    subst hw
    exact hv
  | cons q rest ih =>
    intro p hp
    obtain ⟨k', vs⟩ := q
    by_cases he : k' = k
    · subst he
      rw [insertGrouped_head] at hp
      rcases List.mem_cons.mp hp with hp | hp
      · subst hp
        obtain ⟨hq1, hq2⟩ := hacc (k', vs) (List.mem_cons_self _ _)
        refine ⟨hq1, ?_⟩
        intro w hw
        rcases List.mem_append.mp hw with hw | hw
        · exact hq2 w hw
        · rw [List.mem_singleton] at hw
          subst hw
          exact hv
      · exact hacc p (List.mem_cons_of_mem _ hp)
    · simp only [insertGrouped, if_neg he] at hp
      rcases List.mem_cons.mp hp with hp | hp
      · subst hp
        exact hacc (k', vs) (List.mem_cons_self _ _)
      · exact ih (fun q hq => hacc q (List.mem_cons_of_mem _ hq)) p hp

/-- `groupPairs` output invariants: distinct keys, nonempty value lists, and any
character bound carried by the input pairs. -/
theorem groupPairs_invariant (P : List Char → Prop) :
    ∀ (l : List (List Char × List Char)) (acc : List (List Char × List (List Char))),
      (gKeys acc).Nodup → (∀ p ∈ acc, p.2 ≠ []) →
      (∀ p ∈ acc, P p.1 ∧ ∀ w ∈ p.2, P w) →
      (∀ p ∈ l, P p.1 ∧ P p.2) →
      (gKeys (List.foldl (fun acc p => insertGrouped acc p.1 p.2) acc l)).Nodup ∧
        (∀ p ∈ List.foldl (fun acc p => insertGrouped acc p.1 p.2) acc l, p.2 ≠ []) ∧
        (∀ p ∈ List.foldl (fun acc p => insertGrouped acc p.1 p.2) acc l,
          P p.1 ∧ ∀ w ∈ p.2, P w) := by
  intro l
  induction l with
  | nil =>
    intro acc h1 h2 h3 _
    exact ⟨h1, h2, h3⟩
  | cons q l' ih =>
    intro acc h1 h2 h3 h4
    obtain ⟨hq1, hq2⟩ := h4 q (List.mem_cons_self q l')
    simp only [List.foldl_cons]
    exact ih (insertGrouped acc q.1 q.2)
      (insertGrouped_nodup acc q.1 q.2 h1)
      (insertGrouped_vals acc q.1 q.2 h2)
      (insertGrouped_chars P acc q.1 q.2 h3 hq1 hq2)
      (fun p hp => h4 p (List.mem_cons_of_mem q hp))

/-!
## `sorted(items())` (C8)
-/

/-- `insertByKey` permutes the insertion onto the front. -/
theorem insertByKey_perm (x : List Char × List (List Char)) :
    ∀ (l : List (List Char × List (List Char))), (insertByKey x l).Perm (x :: l) := by
  intro l
  induction l with
  | nil => exact List.Perm.refl _
  | cons y ys ih =>
    by_cases h : chLt x.1 y.1 = true
    · simp only [insertByKey, if_pos h]
      exact List.Perm.refl _
    · simp only [insertByKey, if_neg h]
      exact (ih.cons y).trans (List.Perm.swap x y ys)

/-- `sortPairsByKey` is a permutation. -/
theorem sortPairsByKey_perm (l : List (List Char × List (List Char))) :
    (sortPairsByKey l).Perm l := by
  induction l with
  | nil => exact List.Perm.refl _
  | cons x xs ih =>
    unfold sortPairsByKey
    simp only [List.foldr_cons]
    exact (insertByKey_perm x (sortPairsByKey xs)).trans (ih.cons x)

/-- `insertByKey` preserves weak key-sortedness. -/
theorem insertByKey_sorted (x : List Char × List (List Char)) :
    ∀ (l : List (List Char × List (List Char))),
      List.Pairwise (fun p q => chLt q.1 p.1 = false) l →
      List.Pairwise (fun p q => chLt q.1 p.1 = false) (insertByKey x l) := by
  intro l
  induction l with
  | nil =>
    intro _
    simp [insertByKey]
  | cons y ys ih =>
    intro hs
    obtain ⟨hy, hys⟩ := List.pairwise_cons.mp hs
    by_cases h : chLt x.1 y.1 = true
    · simp only [insertByKey, if_pos h]
      refine List.Pairwise.cons ?_ hs
      intro z hz
      rcases List.mem_cons.mp hz with hz | hz
      · subst hz
        exact chLt_asymm _ _ h
      · cases hzx : chLt z.1 x.1 with
        | false => rfl
        | true =>
          have := chLt_trans z.1 x.1 y.1 hzx h
          rw [hy z hz] at this
          exact absurd this (by simp)
    · simp only [insertByKey, if_neg h]
      refine List.Pairwise.cons ?_ (ih hys)
      intro z hz
      have hz' := (insertByKey_perm x ys).mem_iff.mp hz
      rcases List.mem_cons.mp hz' with hz' | hz'
      · subst hz'
        simpa using h
      · exact hy z hz'

/-- `sortPairsByKey` output is weakly key-sorted. -/
theorem sortPairsByKey_sorted (l : List (List Char × List (List Char))) :
    List.Pairwise (fun p q => chLt q.1 p.1 = false) (sortPairsByKey l) := by
  induction l with
  | nil => simp [sortPairsByKey]
  | cons x xs ih =>
    unfold sortPairsByKey
    simp only [List.foldr_cons]
    exact insertByKey_sorted x (sortPairsByKey xs) ih

/-- A strictly key-sorted list is a `sortPairsByKey` fixpoint. -/
theorem sortPairsByKey_fix : ∀ (l : List (List Char × List (List Char))),
    List.Pairwise (fun p q => chLt p.1 q.1 = true) l → sortPairsByKey l = l := by
  intro l
  induction l with
  | nil => intro _; rfl
  | cons x xs ih =>
    intro hs
    obtain ⟨hx, hxs⟩ := List.pairwise_cons.mp hs
    unfold sortPairsByKey
    simp only [List.foldr_cons]
    rw [show List.foldr insertByKey [] xs = sortPairsByKey xs from rfl, ih hxs]
    cases xs with
    | nil => rfl
    | cons y ys =>
      simp only [insertByKey, if_pos (hx y (List.mem_cons_self y ys))]

/-- Weak sortedness plus distinct keys gives strict sortedness. -/
theorem sorted_strict (L : List (List Char × List (List Char)))
    (hs : List.Pairwise (fun p q => chLt q.1 p.1 = false) L)
    (hnd : (gKeys L).Nodup) :
    List.Pairwise (fun p q => chLt p.1 q.1 = true) L := by
  have hnd' : List.Pairwise (fun p q : List Char × List (List Char) => p.1 ≠ q.1) L := by
    have h := hnd
    unfold gKeys List.Nodup at h
    rw [List.pairwise_map] at h
    exact h
  refine (hs.and hnd').imp ?_
  intro p q hpq
  obtain ⟨hle, hne⟩ := hpq
  cases hc : chLt p.1 q.1 with
  | true => rfl
  | false => exact absurd (chLt_conn p.1 q.1 hc hle) hne

/-!
## `sortQueryL` is idempotent on ASCII queries (C8)
-/

/-- `+` → space desugaring keeps characters ASCII. -/
theorem plusToSpace_chars (l : List Char) (h : ∀ c ∈ l, c.toNat < 0x80) :
    ∀ c ∈ plusToSpace l, c.toNat < 0x80 := by
  intro c hc
  obtain ⟨x, hx, hxc⟩ := List.mem_map.mp hc
  by_cases hp : x = '+'
  · simp only [hp, if_pos rfl] at hxc
    rw [← hxc]
    decide
  · simp only [if_neg hp] at hxc
    rw [← hxc]
    exact h x hx

/-- `+` → space desugaring introduces no `%`. -/
theorem plusToSpace_no_pct (l : List Char) (h : ('%' : Char) ∉ l) :
    ('%' : Char) ∉ plusToSpace l := by
  intro hm
  obtain ⟨x, hx, hxc⟩ := List.mem_map.mp hm
  by_cases hp : x = '+'
  · simp only [hp, if_pos rfl] at hxc
    exact absurd hxc (by decide)
  · simp only [if_neg hp] at hxc
    exact h (hxc ▸ hx)

/-- `unquote_plus` on `%`-free input is just the `+` → space map. -/
theorem unquote_plus_no_pct (l : List Char) (h : ('%' : Char) ∉ l) :
    unquote_plus l = plusToSpace l :=
  unquoteL_eq_self (plusToSpace l) (plusToSpace_no_pct l h)

/-- The pairs parsed from a `%`-free ASCII query are ASCII. -/
theorem parse_qsl_ascii (q : List Char) (hq : ∀ c ∈ q, c.toNat < 0x80 ∧ c ≠ '%') :
    ∀ p ∈ parse_qsl q, (∀ c ∈ p.1, c.toNat < 0x80) ∧ (∀ c ∈ p.2, c.toNat < 0x80) := by
  intro p hp
  rw [parse_qsl_eq] at hp
  obtain ⟨field, hfield, hsome⟩ := List.mem_filterMap.mp hp
  have hfchars : ∀ c ∈ field, c.toNat < 0x80 ∧ c ≠ '%' :=
    fun c hc => hq c (splitOnChar_chars '&' q.length q (le_refl _) field hfield c hc)
  unfold qslField at hsome
  by_cases hnil : field = []
  · rw [if_pos hnil] at hsome
    exact absurd hsome (by simp)
  · rw [if_neg hnil] at hsome
    cases hsp : splitFirst '=' field with
    | none =>
      rw [hsp] at hsome
      simp only [Option.some.injEq] at hsome
      subst hsome
      constructor
      · intro c hc
        rw [unquote_plus_no_pct field
          (fun hm => (hfchars '%' hm).2 rfl)] at hc
        exact plusToSpace_chars field (fun c hc => (hfchars c hc).1) c hc
      · intro c hc
        simp at hc
    | some nw =>
      obtain ⟨n, w⟩ := nw
      rw [hsp] at hsome
      simp only [Option.some.injEq] at hsome
      subst hsome
      obtain ⟨hdecomp, -⟩ := splitFirst_some_eq '=' field n w hsp
      have hn : ∀ c ∈ n, c.toNat < 0x80 ∧ c ≠ '%' := by
        intro c hc
        exact hfchars c (hdecomp ▸ List.mem_append_left _ hc)
      have hw : ∀ c ∈ w, c.toNat < 0x80 ∧ c ≠ '%' := by
        intro c hc
        exact hfchars c (hdecomp ▸ List.mem_append_right _ (List.mem_cons_of_mem _ hc))
      constructor
      · intro c hc
        rw [unquote_plus_no_pct n (fun hm => (hn '%' hm).2 rfl)] at hc
        exact plusToSpace_chars n (fun c hc => (hn c hc).1) c hc
      · intro c hc
        rw [unquote_plus_no_pct w (fun hm => (hw '%' hm).2 rfl)] at hc
        exact plusToSpace_chars w (fun c hc => (hw c hc).1) c hc

/-- `sortQueryL` fixes every encoded grouped dictionary that is valid and
strictly key-sorted. -/
theorem sortQueryL_fix (G : List (List Char × List (List Char)))
    (hG : asciiGrouped G) (hnd : (gKeys G).Nodup) (hvals : ∀ p ∈ G, p.2 ≠ [])
    (hsorted : List.Pairwise (fun p q => chLt p.1 q.1 = true) G) :
    sortQueryL (urlencodeGrouped G) = urlencodeGrouped G := by
  by_cases hne : encFields G = []
  · have hzero : urlencodeGrouped G = [] := by
      rw [urlencodeGrouped_eq, hne]
      rfl
    rw [hzero]
    rfl
  · unfold sortQueryL
    rw [parse_qsl_urlencode G hG hne, groupPairs_flatPairs G hnd hvals,
      sortPairsByKey_fix G hsorted]

/-- The grouped dictionary `sortQueryL` builds from a `%`-free ASCII query is
valid, ASCII and strictly sorted; and `sortQueryL` is idempotent there. -/
theorem sortQueryL_idem (q : List Char) (hq : ∀ c ∈ q, c.toNat < 0x80 ∧ c ≠ '%') :
    sortQueryL (sortQueryL q) = sortQueryL q := by
  have hpairs := parse_qsl_ascii q hq
  have hinv := groupPairs_invariant (fun x => ∀ c ∈ x, c.toNat < 0x80)
    (parse_qsl q) [] (by simp [gKeys]) (by simp) (by simp) hpairs
  obtain ⟨hnd0, hvals0, hchars0⟩ := hinv
  have hperm := sortPairsByKey_perm (groupPairs (parse_qsl q))
  have hnd : (gKeys (sortPairsByKey (groupPairs (parse_qsl q)))).Nodup := by
    have hmapperm := hperm.map (fun p => p.1)
    exact (hmapperm.nodup_iff).mpr hnd0
  have hvals : ∀ p ∈ sortPairsByKey (groupPairs (parse_qsl q)), p.2 ≠ [] :=
    fun p hp => hvals0 p (hperm.mem_iff.mp hp)
  have hG : asciiGrouped (sortPairsByKey (groupPairs (parse_qsl q))) :=
    fun p hp => hchars0 p (hperm.mem_iff.mp hp)
  have hsorted := sorted_strict (sortPairsByKey (groupPairs (parse_qsl q)))
    (sortPairsByKey_sorted (groupPairs (parse_qsl q))) hnd
  exact sortQueryL_fix (sortPairsByKey (groupPairs (parse_qsl q))) hG hnd hvals hsorted

/-- Membership in an `&`-intercalation. -/
theorem mem_intercalate_amp : ∀ (fields : List (List Char)) (c : Char),
    c ∈ List.intercalate ['&'] fields → c = '&' ∨ ∃ f ∈ fields, c ∈ f := by
  intro fields
  induction fields with
  | nil =>
    intro c hc
    simp [List.intercalate] at hc
  | cons f rest ih =>
    intro c hc
    cases rest with
    | nil =>
      rw [show List.intercalate ['&'] [f] = f by simp [List.intercalate]] at hc
      exact Or.inr ⟨f, List.mem_cons_self f [], hc⟩
    | cons g rest' =>
      rw [show List.intercalate ['&'] (f :: g :: rest') =
          f ++ '&' :: List.intercalate ['&'] (g :: rest') by
        have h0 : List.intercalate ['&'] (f :: g :: rest') =
            f ++ ['&'] ++ List.intercalate ['&'] (g :: rest') := by
          simp [List.intercalate, List.intersperse]
        rw [h0]
        simp] at hc
      rcases List.mem_append.mp hc with hc | hc
      · exact Or.inr ⟨f, List.mem_cons_self f _, hc⟩
      · rcases List.mem_cons.mp hc with hc | hc
        · exact Or.inl hc
        · rcases ih c hc with hc | ⟨f', hf', hcf⟩
          · exact Or.inl hc
          · exact Or.inr ⟨f', List.mem_cons_of_mem f hf', hcf⟩

/-- Every character of an encoded grouped dictionary is printable and not `#`. -/
theorem urlencodeGrouped_chars (G : List (List Char × List (List Char)))
    (hG : asciiGrouped G) :
    ∀ c ∈ urlencodeGrouped G, 33 ≤ c.toNat ∧ c ≠ '#' := by
  intro c hc
  rw [urlencodeGrouped_eq] at hc
  rcases mem_intercalate_amp (encFields G) c hc with hc | ⟨f, hf, hcf⟩
  · subst hc
    exact ⟨by decide, by decide⟩
  · obtain ⟨p, hp, hv⟩ := List.mem_flatMap.mp hf
    obtain ⟨v, hvmem, hveq⟩ := List.mem_map.mp hv
    obtain ⟨hk, hvsa⟩ := hG p hp
    rw [← hveq] at hcf
    rcases List.mem_append.mp hcf with hm | hm
    · obtain ⟨x, hx, hqc⟩ := List.mem_flatMap.mp hm
      have := quotePlusChar_facts x (hk x hx) c hqc
      exact ⟨this.1, this.2.1⟩
    · rcases List.mem_cons.mp hm with hm | hm
      · subst hm
        exact ⟨by decide, by decide⟩
      · obtain ⟨x, hx, hqc⟩ := List.mem_flatMap.mp hm
        have := quotePlusChar_facts x (hvsa v hvmem x hx) c hqc
        exact ⟨this.1, this.2.1⟩

/-- Character bound for `sortQueryL` of a `%`-free ASCII query. -/
theorem sortQueryL_chars (q : List Char) (hq : ∀ c ∈ q, c.toNat < 0x80 ∧ c ≠ '%') :
    ∀ c ∈ sortQueryL q, 33 ≤ c.toNat ∧ c ≠ '#' := by
  have hpairs := parse_qsl_ascii q hq
  have hinv := groupPairs_invariant (fun x => ∀ c ∈ x, c.toNat < 0x80)
    (parse_qsl q) [] (by simp [gKeys]) (by simp) (by simp) hpairs
  obtain ⟨-, -, hchars0⟩ := hinv
  have hperm := sortPairsByKey_perm (groupPairs (parse_qsl q))
  have hG : asciiGrouped (sortPairsByKey (groupPairs (parse_qsl q))) :=
    fun p hp => hchars0 p (hperm.mem_iff.mp hp)
  exact urlencodeGrouped_chars _ hG

/-!
## Re-parsing a normalized URL (C8)
-/

/-- Lowercasing a list twice equals lowercasing once. -/
theorem map_toLower_idem (x : List Char) :
    (x.map Char.toLower).map Char.toLower = x.map Char.toLower := by
  rw [List.map_map]
  exact List.map_congr_left (fun c _ => by simp [Function.comp, toLower_idem c])

/-- Lowercasing never creates a netloc delimiter. -/
theorem isNetlocEnd_toLower (c : Char) (h : isNetlocEnd c = false) :
    isNetlocEnd (Char.toLower c) = false := by
  simp only [isNetlocEnd, Bool.or_eq_false_iff, decide_eq_false_iff_not] at h ⊢
  obtain ⟨⟨h1, h2⟩, h3⟩ := h
  exact ⟨⟨toLower_ne c '/' (by left; decide) h1, toLower_ne c '?' (by left; decide) h2⟩,
    toLower_ne c '#' (by left; decide) h3⟩

/-- Case analysis of `splitSchemeL`. -/
theorem splitSchemeL_cases (l : List Char) :
    splitSchemeL l = ([], l) ∨
      ∃ before after, l = before ++ ':' :: after ∧ (':' : Char) ∉ before ∧
        before ≠ [] ∧ before.head?.elim false Char.isAlpha = true ∧
        before.all isSchemeChar = true ∧
        splitSchemeL l = (before.map Char.toLower, after) := by
  cases hsp : splitFirst ':' l with
  | none =>
    left
    unfold splitSchemeL
    rw [hsp]
  | some ba =>
    obtain ⟨before, after⟩ := ba
    obtain ⟨hdec, hnot⟩ := splitFirst_some_eq ':' l before after hsp
    by_cases hg : (before.head?.elim false Char.isAlpha) ∧ before.all isSchemeChar
    · right
      refine ⟨before, after, hdec, hnot, ?_, hg.1, hg.2, ?_⟩
      · intro he
        rw [he] at hg
        exact absurd hg.1 (by decide)
      · unfold splitSchemeL
        rw [hsp]
        dsimp only
        rw [if_pos hg]
    · left
      unfold splitSchemeL
      rw [hsp]
      dsimp only
      rw [if_neg hg]

/-- A URL beginning with `/` has no scheme. -/
theorem splitSchemeL_headSlash (l : List Char) (h : l.head? = some '/') :
    splitSchemeL l = ([], l) := by
  rcases splitSchemeL_cases l with hc | ⟨before, after, hdec, -, hne, halpha, -, -⟩
  · exact hc
  · exfalso
    cases before with
    | nil => exact hne rfl
    | cons b bs =>
      rw [hdec] at h
      simp only [List.cons_append, List.head?_cons, Option.some.injEq] at h
      subst h
      simp only [List.head?_cons, Option.elim] at halpha
      exact absurd halpha (by decide)

/-- `splitSchemeL` recognizes a well-formed lowercase scheme prefix. -/
theorem splitSchemeL_prefix (sch rest : List Char) (_hne : sch ≠ [])
    (halpha : sch.head?.elim false Char.isAlpha = true)
    (hall : sch.all isSchemeChar = true)
    (hlow : sch.map Char.toLower = sch) :
    splitSchemeL (sch ++ ':' :: rest) = (sch, rest) := by
  have hnc : (':' : Char) ∉ sch := by
    intro hm
    have := List.all_eq_true.mp hall ':' hm
    exact absurd this (by decide)
  unfold splitSchemeL
  rw [splitFirst_append_cons ':' sch rest hnc]
  dsimp only
  rw [if_pos ⟨halpha, hall⟩, hlow]

/-- Case analysis of `splitNetlocL`. -/
theorem splitNetlocL_cases (x : List Char) :
    splitNetlocL x = ([], x) ∨
      ∃ rest, x = '/' :: '/' :: rest ∧
        splitNetlocL x =
          (rest.takeWhile (fun c => ¬ isNetlocEnd c),
            rest.dropWhile (fun c => ¬ isNetlocEnd c)) := by
  unfold splitNetlocL
  split
  · rename_i rest
    exact Or.inr ⟨rest, rfl, rfl⟩
  · exact Or.inl rfl

/-- `splitNetlocL` recovers a delimiter-free netloc before a delimited rest. -/
theorem splitNetlocL_shape (nl rest : List Char)
    (hnl : ∀ c ∈ nl, isNetlocEnd c = false)
    (hrest : ∀ c, rest.head? = some c → isNetlocEnd c = true) :
    splitNetlocL ('/' :: '/' :: (nl ++ rest)) = (nl, rest) := by
  have hsplit := takeDropWhile_append (fun c => ¬ isNetlocEnd c) nl rest
    (fun c hc => by simp [hnl c hc]) (fun c hc => by simp [hrest c hc])
  rw [show splitNetlocL ('/' :: '/' :: (nl ++ rest)) =
      ((nl ++ rest).takeWhile (fun c => ¬ isNetlocEnd c),
        (nl ++ rest).dropWhile (fun c => ¬ isNetlocEnd c)) from rfl]
  rw [hsplit.1, hsplit.2]

/-- `splitFragmentL` on `#`-free input. -/
theorem splitFragmentL_none (x : List Char) (h : ('#' : Char) ∉ x) :
    splitFragmentL x = (x, []) := by
  unfold splitFragmentL
  rw [splitFirst_eq_none '#' x h]

/-- `splitQueryL` on `?`-free input. -/
theorem splitQueryL_none (x : List Char) (h : ('?' : Char) ∉ x) :
    splitQueryL x = (x, []) := by
  unfold splitQueryL
  rw [splitFirst_eq_none '?' x h]

/-- `splitQueryL` splits at an explicitly placed `?`. -/
theorem splitQueryL_split (a b : List Char) (h : ('?' : Char) ∉ a) :
    splitQueryL (a ++ '?' :: b) = (a, b) := by
  unfold splitQueryL
  rw [splitFirst_append_cons '?' a b h]

/-- Membership in a conditional suffix-extension. -/
theorem mem_ite_append_cons {P : Prop} [Decidable P] (c x : Char) (u v : List Char)
    (h : c ∈ (if P then u ++ x :: v else u)) : c ∈ u ∨ c = x ∨ c ∈ v := by
  by_cases hp : P
  · rw [if_pos hp] at h
    rcases List.mem_append.mp h with h | h
    · exact Or.inl h
    · rcases List.mem_cons.mp h with h | h
      · exact Or.inr (Or.inl h)
      · exact Or.inr (Or.inr h)
  · rw [if_neg hp] at h
    exact Or.inl h

/-- Membership in a conditional prefix-extension. -/
theorem mem_ite_cons_append {P : Prop} [Decidable P] (c x : Char) (sx u : List Char)
    (h : c ∈ (if P then sx ++ x :: u else u)) : c ∈ sx ∨ c = x ∨ c ∈ u := by
  by_cases hp : P
  · rw [if_pos hp] at h
    rcases List.mem_append.mp h with h | h
    · exact Or.inl h
    · rcases List.mem_cons.mp h with h | h
      · exact Or.inr (Or.inl h)
      · exact Or.inr (Or.inr h)
  · rw [if_neg hp] at h
    exact Or.inr (Or.inr h)

/-- Membership in a conditional. -/
theorem mem_ite_list {P : Prop} [Decidable P] (c : Char) (a b : List Char)
    (h : c ∈ (if P then a else b)) : c ∈ a ∨ c ∈ b := by
  by_cases hp : P
  · rw [if_pos hp] at h
    exact Or.inl h
  · rw [if_neg hp] at h
    exact Or.inr h

/-- Every character `urlunsplit` emits comes from a component or is a
delimiter. -/
theorem urlunsplitL_chars_sub (p : UrlParts) :
    ∀ c ∈ urlunsplitL p, c ∈ p.scheme ∨ c ∈ p.netloc ∨ c ∈ p.path ∨ c ∈ p.query ∨
      c ∈ p.fragment ∨ c ∈ [':', '/', '?', '#'] := by
  intro c hc
  simp only [List.mem_cons, List.not_mem_nil, or_false]
  unfold urlunsplitL at hc
  rcases mem_ite_append_cons c '#' _ _ hc with hc | hc | hc
  · rcases mem_ite_append_cons c '?' _ _ hc with hc | hc | hc
    · rcases mem_ite_cons_append c ':' _ _ hc with hc | hc | hc
      · tauto
      · tauto
      · rcases mem_ite_list c _ _ hc with hc | hc
        · rcases List.mem_append.mp hc with hc | hc
          · rcases List.mem_cons.mp hc with hc | hc
            · tauto
            · rcases List.mem_cons.mp hc with hc | hc
              · tauto
              · tauto
          · rcases mem_ite_list c _ _ hc with hc | hc
            · rcases List.mem_cons.mp hc with hc | hc
              · tauto
              · tauto
            · tauto
        · tauto
    · tauto
    · tauto
  · tauto
  · tauto

/-- `urlsplit` as the four successive splits, on pre-sanitized input. -/
theorem urlsplitL_eq (l : List Char) (hc : urlCleanL l = l) :
    urlsplitL l = ⟨(splitSchemeL l).1,
      (splitNetlocL (splitSchemeL l).2).1,
      (splitQueryL (splitFragmentL (splitNetlocL (splitSchemeL l).2).2).1).1,
      (splitQueryL (splitFragmentL (splitNetlocL (splitSchemeL l).2).2).1).2,
      (splitFragmentL (splitNetlocL (splitSchemeL l).2).2).2⟩ := by
  unfold urlsplitL
  rw [hc]

/-- `normPartsL` fixes already-normal components. -/
theorem normPartsL_fix (sch nl path q : List Char)
    (hsch_low : sch.map Char.toLower = sch) (hnl_low : nl.map Char.toLower = nl)
    (hpath_last : ¬(path ≠ ['/'] ∧ path.getLast? = some '/'))
    (hq_fix : q ≠ [] → sortQueryL q = q) :
    normPartsL ⟨sch, nl, path, q, []⟩ = ⟨sch, nl, path, q, []⟩ := by
  unfold normPartsL
  by_cases hq : q = []
  · subst hq
    simp [hsch_low, hnl_low, if_neg hpath_last]
  · simp [hsch_low, hnl_low, if_neg hpath_last, hq, hq_fix hq]

/-- Re-parsing an unparse of normal components recovers them. -/
theorem urlsplitL_recover (sch nl path q : List Char)
    (hsch_ok : sch ≠ [] → sch.head?.elim false Char.isAlpha = true ∧
      sch.all isSchemeChar = true)
    (hsch_low : sch.map Char.toLower = sch)
    (hsch_chars : ∀ c ∈ sch, 33 ≤ c.toNat)
    (hnl_ne : nl ≠ [])
    (hnl_end : ∀ c ∈ nl, isNetlocEnd c = false)
    (hnl_chars : ∀ c ∈ nl, 33 ≤ c.toNat)
    (hpath_head : path = [] ∨ path.head? = some '/')
    (hpath_chars : ∀ c ∈ path, 33 ≤ c.toNat ∧ ¬ c = '#' ∧ ¬ c = '?')
    (hq_chars : ∀ c ∈ q, 33 ≤ c.toNat ∧ c ≠ '#') :
    urlsplitL (urlunsplitL ⟨sch, nl, path, q, []⟩) = ⟨sch, nl, path, q, []⟩ := by
  have hpath_if : (if path ≠ [] ∧ ¬ path.head? = some '/' then '/' :: path else path)
      = path := by
    rcases hpath_head with hp | hp
    · rw [if_neg]
      intro hcc
      exact hcc.1 hp
    · rw [if_neg]
      intro hcc
      exact hcc.2 hp
  have ht_chars : ∀ c ∈ urlunsplitL ⟨sch, nl, path, q, []⟩, 33 ≤ c.toNat := by
    intro c hc
    rcases urlunsplitL_chars_sub _ c hc with h | h | h | h | h | h
    · exact hsch_chars c h
    · exact hnl_chars c h
    · exact (hpath_chars c h).1
    · exact (hq_chars c h).1
    · exact absurd h (List.not_mem_nil c)
    · simp only [List.mem_cons, List.not_mem_nil, or_false] at h
      rcases h with h | h | h | h <;> (subst h; decide)
  rw [urlsplitL_eq _ (urlCleanL_eq_self _ ht_chars)]
  have hfrag_mem : ∀ (Q : List Char), (∀ c ∈ Q, c ≠ '#') →
      ('#' : Char) ∉ path ++ Q := by
    intro Q hQ hm
    rcases List.mem_append.mp hm with hm | hm
    · exact (hpath_chars '#' hm).2.1 rfl
    · exact hQ '#' hm rfl
  have hpq : ('?' : Char) ∉ path := fun hm => (hpath_chars '?' hm).2.2 rfl
  have hh0 : ∀ c, path.head? = some c → isNetlocEnd c = true := by
    intro c hc
    rcases hpath_head with hp | hp
    · rw [hp] at hc
      exact absurd hc (by simp)
    · rw [hp] at hc
      simp only [Option.some.injEq] at hc
      subst hc
      decide
  have hh1 : ∀ c, (path ++ '?' :: q).head? = some c → isNetlocEnd c = true := by
    intro c hc
    rcases hpath_head with hp | hp
    · rw [hp] at hc
      simp only [List.nil_append, List.head?_cons, Option.some.injEq] at hc
      subst hc
      decide
    · have hph : (path ++ '?' :: q).head? = some '/' := by
        rw [List.head?_append, hp]
        rfl
      rw [hph] at hc
      simp only [Option.some.injEq] at hc
      subst hc
      decide
  have hfrag0 : ('#' : Char) ∉ path := fun hm => (hpath_chars '#' hm).2.1 rfl
  have hfrag1 : ('#' : Char) ∉ path ++ '?' :: q := by
    intro hm
    rcases List.mem_append.mp hm with hm | hm
    · exact hfrag0 hm
    · rcases List.mem_cons.mp hm with hm | hm
      · exact absurd hm (by decide)
      · exact (hq_chars '#' hm).2 rfl
  by_cases hss : sch = []
  · subst hss
    by_cases hqq : q = []
    · subst hqq
      have htu : urlunsplitL ⟨[], nl, path, [], []⟩ =
          '/' :: '/' :: (nl ++ path) := by
        simp [urlunsplitL, hnl_ne, hpath_if]
      rw [htu]
      rw [splitSchemeL_headSlash ('/' :: '/' :: (nl ++ path)) rfl]
      dsimp only
      rw [splitNetlocL_shape nl path hnl_end hh0]
      dsimp only
      rw [splitFragmentL_none _ hfrag0]
      dsimp only
      rw [splitQueryL_none _ hpq]
    · have htu : urlunsplitL ⟨[], nl, path, q, []⟩ =
          '/' :: '/' :: (nl ++ (path ++ '?' :: q)) := by
        simp [urlunsplitL, hnl_ne, hpath_if, hqq]
      rw [htu]
      rw [splitSchemeL_headSlash ('/' :: '/' :: (nl ++ (path ++ '?' :: q))) rfl]
      dsimp only
      rw [splitNetlocL_shape nl (path ++ '?' :: q) hnl_end hh1]
      dsimp only
      rw [splitFragmentL_none _ hfrag1]
      dsimp only
      rw [splitQueryL_split path q hpq]
  · obtain ⟨halpha, hall⟩ := hsch_ok hss
    by_cases hqq : q = []
    · subst hqq
      have htu : urlunsplitL ⟨sch, nl, path, [], []⟩ =
          sch ++ ':' :: ('/' :: '/' :: (nl ++ path)) := by
        simp [urlunsplitL, hnl_ne, hpath_if, hss]
      rw [htu]
      rw [ splitSchemeL_prefix sch _ hss halpha hall hsch_low]
      dsimp only
      rw [splitNetlocL_shape nl path hnl_end hh0]
      dsimp only
      rw [splitFragmentL_none _ hfrag0]
      dsimp only
      rw [splitQueryL_none _ hpq]
    · have htu : urlunsplitL ⟨sch, nl, path, q, []⟩ =
          sch ++ ':' :: ('/' :: '/' :: (nl ++ (path ++ '?' :: q))) := by
        simp [urlunsplitL, hnl_ne, hpath_if, hss, hqq]
      rw [htu]
      rw [ splitSchemeL_prefix sch _ hss halpha hall hsch_low]
      dsimp only
      rw [splitNetlocL_shape nl (path ++ '?' :: q) hnl_end hh1]
      dsimp only
      rw [splitFragmentL_none _ hfrag1]
      dsimp only
      rw [splitQueryL_split path q hpq]

/-- Normalizing an unparse of normal components changes nothing: the normalized
form is a fixpoint of `_normalize_url`. -/
theorem urlunsplit_roundtrip (sch nl path q : List Char)
    (hsch_ok : sch ≠ [] → sch.head?.elim false Char.isAlpha = true ∧
      sch.all isSchemeChar = true)
    (hsch_low : sch.map Char.toLower = sch)
    (hsch_chars : ∀ c ∈ sch, 33 ≤ c.toNat)
    (hnl_ne : nl ≠ [])
    (hnl_low : nl.map Char.toLower = nl)
    (hnl_end : ∀ c ∈ nl, isNetlocEnd c = false)
    (hnl_chars : ∀ c ∈ nl, 33 ≤ c.toNat)
    (hpath_head : path = [] ∨ path.head? = some '/')
    (hpath_chars : ∀ c ∈ path, 33 ≤ c.toNat ∧ ¬ c = '#' ∧ ¬ c = '?')
    (hpath_last : ¬(path ≠ ['/'] ∧ path.getLast? = some '/'))
    (hq_chars : ∀ c ∈ q, 33 ≤ c.toNat ∧ c ≠ '#')
    (hq_fix : q ≠ [] → sortQueryL q = q) :
    normalizeUrlL (urlunsplitL ⟨sch, nl, path, q, []⟩) =
      urlunsplitL ⟨sch, nl, path, q, []⟩ := by
  have ht_chars : ∀ c ∈ urlunsplitL ⟨sch, nl, path, q, []⟩, 33 ≤ c.toNat := by
    intro c hc
    rcases urlunsplitL_chars_sub _ c hc with h | h | h | h | h | h
    · exact hsch_chars c h
    · exact hnl_chars c h
    · exact (hpath_chars c h).1
    · exact (hq_chars c h).1
    · exact absurd h (List.not_mem_nil c)
    · simp only [List.mem_cons, List.not_mem_nil, or_false] at h
      rcases h with h | h | h | h <;> (subst h; decide)
  unfold normalizeUrlL
  rw [pyStrip_eq_self _ ht_chars]
  rw [urlsplitL_recover sch nl path q hsch_ok hsch_low hsch_chars hnl_ne hnl_end
    hnl_chars hpath_head hpath_chars hq_chars]
  rw [normPartsL_fix sch nl path q hsch_low hnl_low hpath_last hq_fix]

/-!
## Idempotence of `_normalize_url` (C8)
-/

/-- Unpacking the `urlChar` domain predicate. -/
theorem urlChar_spec (c : Char) (h : urlChar c = true) :
    33 ≤ c.toNat ∧ c.toNat ≤ 126 ∧ c ≠ '%' ∧ c ≠ ';' := by
  simp only [urlChar, Bool.and_eq_true, decide_eq_true_eq] at h
  obtain ⟨⟨⟨⟨⟨h1, h2⟩, h3⟩, h4⟩, -⟩, -⟩ := h
  exact ⟨h1, h2, h3, h4⟩

/-- A netloc delimiter is `/`, `?` or `#`. -/
theorem isNetlocEnd_elim (c : Char) (h : isNetlocEnd c = true) :
    c = '/' ∨ c = '?' ∨ c = '#' := by
  simp only [isNetlocEnd, Bool.or_eq_true, decide_eq_true_eq] at h
  tauto

/-- `splitFragmentL` decomposition: the prefix is `#`-free and extends to the
input. -/
theorem splitFragmentL_parts (x : List Char) :
    (∃ t, x = (splitFragmentL x).1 ++ t) ∧ ('#' : Char) ∉ (splitFragmentL x).1 := by
  cases hsp : splitFirst '#' x with
  | none =>
    have h1 : splitFragmentL x = (x, []) := by
      unfold splitFragmentL
      rw [hsp]
    rw [h1]
    exact ⟨⟨[], by simp⟩, splitFirst_none '#' x hsp⟩
  | some ab =>
    obtain ⟨a, b⟩ := ab
    have h1 : splitFragmentL x = (a, b) := by
      unfold splitFragmentL
      rw [hsp]
    obtain ⟨hdec, hnot⟩ := splitFirst_some_eq '#' x a b hsp
    rw [h1]
    exact ⟨⟨'#' :: b, hdec⟩, hnot⟩

/-- `splitQueryL` decomposition. -/
theorem splitQueryL_parts (x : List Char) :
    (splitQueryL x = (x, []) ∧ ('?' : Char) ∉ x) ∨
      (x = (splitQueryL x).1 ++ '?' :: (splitQueryL x).2 ∧
        ('?' : Char) ∉ (splitQueryL x).1) := by
  cases hsp : splitFirst '?' x with
  | none =>
    have h1 : splitQueryL x = (x, []) := by
      unfold splitQueryL
      rw [hsp]
    exact Or.inl ⟨h1, splitFirst_none '?' x hsp⟩
  | some ab =>
    obtain ⟨a, b⟩ := ab
    have h1 : splitQueryL x = (a, b) := by
      unfold splitQueryL
      rw [hsp]
    obtain ⟨hdec, hnot⟩ := splitFirst_some_eq '?' x a b hsp
    right
    rw [h1]
    exact ⟨hdec, hnot⟩

/-- `_normalize_url` is idempotent on printable-ASCII URLs (no `%`, `;`, `[`,
`]`) whose parsed network location is nonempty. -/
theorem normalizeUrlL_idem (l : List Char)
    (hdom : ∀ c ∈ l, urlChar c = true)
    (hn : (urlsplitL l).netloc ≠ []) :
    normalizeUrlL (normalizeUrlL l) = normalizeUrlL l := by
  have hspec : ∀ c ∈ l, 33 ≤ c.toNat ∧ c.toNat ≤ 126 ∧ c ≠ '%' ∧ c ≠ ';' :=
    fun c hc => urlChar_spec c (hdom c hc)
  have hb : ∀ c ∈ l, 33 ≤ c.toNat := fun c hc => (hspec c hc).1
  have hstrip : pyStrip l = l := pyStrip_eq_self l hb
  have hclean : urlCleanL l = l := urlCleanL_eq_self l hb
  have hA := urlsplitL_eq l hclean
  -- round-1 component names
  have hsub1 : ∀ c ∈ (splitSchemeL l).2, c ∈ l := by
    intro c hc
    rcases splitSchemeL_cases l with hcase | ⟨before, after, hdec, -, -, -, -, hres⟩
    · rw [hcase] at hc
      exact hc
    · rw [hres] at hc
      rw [hdec]
      exact List.mem_append_right _ (List.mem_cons_of_mem _ hc)
  have hsch0 : ∀ c ∈ (splitSchemeL l).1, 33 ≤ c.toNat ∧ c.toNat ≤ 126 := by
    intro c hc
    rcases splitSchemeL_cases l with hcase | ⟨before, after, hdec, -, -, -, -, hres⟩
    · rw [hcase] at hc
      exact absurd hc (List.not_mem_nil c)
    · rw [hres] at hc
      obtain ⟨b, hb0, hbc⟩ := List.mem_map.mp hc
      have hbl : b ∈ l := hdec ▸ List.mem_append_left _ hb0
      subst hbc
      exact toLower_bounds b ⟨(hspec b hbl).1, (hspec b hbl).2.1⟩
  have hsch_ok0 : (splitSchemeL l).1 ≠ [] →
      ((splitSchemeL l).1.map Char.toLower).head?.elim false Char.isAlpha = true ∧
      ((splitSchemeL l).1.map Char.toLower).all isSchemeChar = true := by
    intro hne
    rcases splitSchemeL_cases l with hcase | ⟨before, after, hdec, -, hbne, halpha, hall, hres⟩
    · rw [hcase] at hne
      exact absurd rfl hne
    · rw [hres]
      constructor
      · cases before with
        | nil => exact absurd rfl hbne
        | cons b bs =>
          simp only [List.map_cons, List.head?_cons, Option.elim]
          have hba : b.isAlpha = true := by simpa using halpha
          exact isAlpha_toLower _ (isAlpha_toLower b hba)
      · rw [List.all_eq_true]
        intro c hc
        simp only [List.map_map, List.mem_map] at hc
        obtain ⟨b, hb0, hbc⟩ := hc
        subst hbc
        have hbs : isSchemeChar b = true := List.all_eq_true.mp hall b hb0
        exact isSchemeChar_toLower _ (isSchemeChar_toLower b hbs)
  -- netloc: the // branch is forced
  have hn0 : (splitNetlocL (splitSchemeL l).2).1 ≠ [] := by
    intro he
    apply hn
    rw [hA]
    exact he
  rcases splitNetlocL_cases (splitSchemeL l).2 with hcase | ⟨rest0, hdec0, hres0⟩
  · rw [hcase] at hn0
    exact absurd rfl hn0
  · have hreste : ∀ c ∈ rest0, c ∈ l := by
      intro c hc
      exact hsub1 c (hdec0 ▸ List.mem_cons_of_mem _ (List.mem_cons_of_mem _ hc))
    have hnl0_end : ∀ c ∈ (splitNetlocL (splitSchemeL l).2).1, isNetlocEnd c = false := by
      intro c hc
      rw [hres0] at hc
      have := List.mem_takeWhile_imp hc
      simpa using this
    have hnl0_chars : ∀ c ∈ (splitNetlocL (splitSchemeL l).2).1, c ∈ l := by
      intro c hc
      rw [hres0] at hc
      apply hreste
      rw [← List.takeWhile_append_dropWhile (fun c => ¬ isNetlocEnd c) rest0]
      exact List.mem_append_left _ hc
    have hnp2_sub : ∀ c ∈ (splitNetlocL (splitSchemeL l).2).2, c ∈ l := by
      intro c hc
      rw [hres0] at hc
      apply hreste
      rw [← List.takeWhile_append_dropWhile (fun c => ¬ isNetlocEnd c) rest0]
      exact List.mem_append_right _ hc
    have hnp2_head : ∀ c, ((splitNetlocL (splitSchemeL l).2).2).head? = some c →
        isNetlocEnd c = true := by
      intro c hc
      rw [hres0] at hc
      have := head_dropWhile_false (fun c => ¬ isNetlocEnd c) rest0 c hc
      simpa using this
    -- fragment and query decomposition
    obtain ⟨⟨t1, hfp1dec⟩, hfp1hash⟩ := splitFragmentL_parts (splitNetlocL (splitSchemeL l).2).2
    have hfp1_sub : ∀ c ∈ (splitFragmentL (splitNetlocL (splitSchemeL l).2).2).1, c ∈ l := by
      intro c hc
      exact hnp2_sub c (hfp1dec ▸ List.mem_append_left _ hc)
    have hq := splitQueryL_parts (splitFragmentL (splitNetlocL (splitSchemeL l).2).2).1
    -- path0 facts
    have hpath0_q : ('?' : Char) ∉
        (splitQueryL (splitFragmentL (splitNetlocL (splitSchemeL l).2).2).1).1 := by
      rcases hq with ⟨hres, hnotin⟩ | ⟨hdec, hnotin⟩
      · rw [hres]
        exact hnotin
      · exact hnotin
    have hpath0_sub : ∀ c ∈
        (splitQueryL (splitFragmentL (splitNetlocL (splitSchemeL l).2).2).1).1,
        c ∈ (splitFragmentL (splitNetlocL (splitSchemeL l).2).2).1 := by
      intro c hc
      rcases hq with ⟨hres, -⟩ | ⟨hdec, -⟩
      · rw [hres] at hc
        exact hc
      · rw [hdec]
        exact List.mem_append_left _ hc
    have hpath0_hash : ('#' : Char) ∉
        (splitQueryL (splitFragmentL (splitNetlocL (splitSchemeL l).2).2).1).1 :=
      fun hm => hfp1hash (hpath0_sub '#' hm)
    have hpath0_np2 : ∀ c ∈
        (splitQueryL (splitFragmentL (splitNetlocL (splitSchemeL l).2).2).1).1,
        c ∈ (splitNetlocL (splitSchemeL l).2).2 := by
      intro c hc
      exact hfp1dec ▸ List.mem_append_left _ (hpath0_sub c hc)
    have hpath0_head :
        (splitQueryL (splitFragmentL (splitNetlocL (splitSchemeL l).2).2).1).1 = [] ∨
        ((splitQueryL (splitFragmentL (splitNetlocL (splitSchemeL l).2).2).1).1).head? =
          some '/' := by
      cases hp : (splitQueryL (splitFragmentL (splitNetlocL (splitSchemeL l).2).2).1).1 with
      | nil => exact Or.inl rfl
      | cons c cs =>
        right
        have hmemc : c ∈ (splitQueryL
            (splitFragmentL (splitNetlocL (splitSchemeL l).2).2).1).1 := by
          rw [hp]
          exact List.mem_cons_self c cs
        have hnp2h : ((splitNetlocL (splitSchemeL l).2).2).head? = some c := by
          have hfp1h : ((splitFragmentL (splitNetlocL (splitSchemeL l).2).2).1).head? =
              some c := by
            rcases hq with ⟨hres, -⟩ | ⟨hdec, -⟩
            · have hfp1e : (splitFragmentL (splitNetlocL (splitSchemeL l).2).2).1 =
                  c :: cs := by
                rw [← hp, hres]
              rw [hfp1e]
              rfl
            · rw [hdec, hp, List.head?_append]
              rfl
          rw [hfp1dec, List.head?_append, hfp1h]
          rfl
        have hend := hnp2_head c hnp2h
        rcases isNetlocEnd_elim c hend with he | he | he
        · rw [he]
          rfl
        · exact absurd (he ▸ hmemc) hpath0_q
        · exact absurd (he ▸ hmemc) hpath0_hash
    -- q0 facts
    have hq0_sub : ∀ c ∈
        (splitQueryL (splitFragmentL (splitNetlocL (splitSchemeL l).2).2).1).2, c ∈ l := by
      intro c hc
      rcases hq with ⟨hres, -⟩ | ⟨hdec, -⟩
      · rw [hres] at hc
        exact absurd hc (List.not_mem_nil c)
      · apply hfp1_sub
        rw [hdec]
        exact List.mem_append_right _ (List.mem_cons_of_mem _ hc)
    have hq0_ascii : ∀ c ∈
        (splitQueryL (splitFragmentL (splitNetlocL (splitSchemeL l).2).2).1).2,
        c.toNat < 0x80 ∧ c ≠ '%' := by
      intro c hc
      have := hspec c (hq0_sub c hc)
      exact ⟨by omega, this.2.2.1⟩
    -- assemble the normal form
    have hnorm : normalizeUrlL l =
        urlunsplitL ⟨(splitSchemeL l).1.map Char.toLower,
          (splitNetlocL (splitSchemeL l).2).1.map Char.toLower,
          (if (splitQueryL (splitFragmentL (splitNetlocL (splitSchemeL l).2).2).1).1 ≠ ['/'] ∧
              ((splitQueryL (splitFragmentL
                (splitNetlocL (splitSchemeL l).2).2).1).1).getLast? = some '/'
            then rstripSlash
              (splitQueryL (splitFragmentL (splitNetlocL (splitSchemeL l).2).2).1).1
            else (splitQueryL (splitFragmentL (splitNetlocL (splitSchemeL l).2).2).1).1),
          (if (splitQueryL (splitFragmentL (splitNetlocL (splitSchemeL l).2).2).1).2 ≠ []
            then sortQueryL
              (splitQueryL (splitFragmentL (splitNetlocL (splitSchemeL l).2).2).1).2
            else (splitQueryL (splitFragmentL (splitNetlocL (splitSchemeL l).2).2).1).2),
          []⟩ := by
      unfold normalizeUrlL
      rw [hstrip, hA]
      rfl
    rw [hnorm]
    apply urlunsplit_roundtrip
    · exact fun hne => hsch_ok0 (by
        intro he
        apply hne
        rw [he]
        rfl)
    · exact map_toLower_idem (splitSchemeL l).1
    · intro c hc
      obtain ⟨b, hb0, hbc⟩ := List.mem_map.mp hc
      subst hbc
      exact (toLower_bounds b (hsch0 b hb0)).1
    · intro he
      exact hn0 (List.map_eq_nil_iff.mp he)
    · exact map_toLower_idem (splitNetlocL (splitSchemeL l).2).1
    · intro c hc
      obtain ⟨b, hb0, hbc⟩ := List.mem_map.mp hc
      subst hbc
      exact isNetlocEnd_toLower b (hnl0_end b hb0)
    · intro c hc
      obtain ⟨b, hb0, hbc⟩ := List.mem_map.mp hc
      subst hbc
      have := hspec b (hnl0_chars b hb0)
      exact (toLower_bounds b ⟨this.1, this.2.1⟩).1
    · -- path head
      by_cases hcc : (splitQueryL (splitFragmentL
          (splitNetlocL (splitSchemeL l).2).2).1).1 ≠ ['/'] ∧
          ((splitQueryL (splitFragmentL
            (splitNetlocL (splitSchemeL l).2).2).1).1).getLast? = some '/'
      · rw [if_pos hcc]
        rcases hpath0_head with hp | hp
        · left
          rw [hp]
          rfl
        · cases hre : rstripSlash (splitQueryL (splitFragmentL
              (splitNetlocL (splitSchemeL l).2).2).1).1 with
          | nil => exact Or.inl rfl
          | cons c cs =>
            right
            rw [← hre]
            rw [rstripSlash_head _ (by rw [hre]; exact List.cons_ne_nil c cs)]
            exact hp
      · rw [if_neg hcc]
        exact hpath0_head
    · -- path chars
      intro c hc
      have hcmem : c ∈ (splitQueryL (splitFragmentL
          (splitNetlocL (splitSchemeL l).2).2).1).1 := by
        by_cases hcc : (splitQueryL (splitFragmentL
            (splitNetlocL (splitSchemeL l).2).2).1).1 ≠ ['/'] ∧
            ((splitQueryL (splitFragmentL
              (splitNetlocL (splitSchemeL l).2).2).1).1).getLast? = some '/'
        · rw [if_pos hcc] at hc
          obtain ⟨heq, -⟩ := rstripSlash_split (splitQueryL (splitFragmentL
            (splitNetlocL (splitSchemeL l).2).2).1).1
          rw [heq]
          exact List.mem_append_left _ hc
        · rw [if_neg hcc] at hc
          exact hc
      refine ⟨(hspec c (hfp1_sub c (hpath0_sub c hcmem))).1, ?_, ?_⟩
      · intro he
        exact hpath0_hash (he ▸ hcmem)
      · intro he
        exact hpath0_q (he ▸ hcmem)
    · -- path last
      by_cases hcc : (splitQueryL (splitFragmentL
          (splitNetlocL (splitSchemeL l).2).2).1).1 ≠ ['/'] ∧
          ((splitQueryL (splitFragmentL
            (splitNetlocL (splitSchemeL l).2).2).1).1).getLast? = some '/'
      · rw [if_pos hcc]
        intro hcon
        exact rstripSlash_getLast _ hcon.2
      · rw [if_neg hcc]
        exact hcc
    · -- query chars
      by_cases hqe : (splitQueryL (splitFragmentL
          (splitNetlocL (splitSchemeL l).2).2).1).2 = []
      · rw [if_neg (by simpa using hqe)]
        rw [hqe]
        intro c hc
        exact absurd hc (List.not_mem_nil c)
      · rw [if_pos hqe]
        exact sortQueryL_chars _ hq0_ascii
    · -- query fixpoint
      by_cases hqe : (splitQueryL (splitFragmentL
          (splitNetlocL (splitSchemeL l).2).2).1).2 = []
      · rw [if_neg (by simpa using hqe), hqe]
        intro hcon
        exact absurd rfl hcon
      · rw [if_pos hqe]
        intro _
        exact sortQueryL_idem _ hq0_ascii

/-!
## Claim theorems: canonicalization round-trip (C8)
-/

set_option maxHeartbeats 2000000 in
/-- **C8** (counterexample).  `_normalize_url` is not idempotent — for
`"http:////FOO"` the first pass emits `"http://FOO"`, whose re-parse turns the
former path head into a netloc that the second pass lowercases — and two URLs
differing only in the order of their (repeated-key) query parameters normalize
to different strings, because `parse_qs` keeps the per-key value order. -/
theorem normalize_url_not_roundtrip :
    normalize_url (normalize_url "http:////FOO") ≠ normalize_url "http:////FOO" ∧
    normalize_url "http:////FOO" = "http://FOO" ∧
    normalize_url (normalize_url "http:////FOO") = "http://foo" ∧
    normalize_url "https://en.wikipedia.org/w?a=1&a=2" ≠
      normalize_url "https://en.wikipedia.org/w?a=2&a=1" := by
  refine ⟨?_, by decide, by decide, ?_⟩ <;> decide

set_option maxHeartbeats 2000000 in
/-- **C8** (amended).  On printable-ASCII URLs free of `%`, `;`, `[`, `]` whose
parsed network location is nonempty — every URL the crawler handles — URL
normalization is idempotent: `normalize(normalize(u)) = normalize(u)`. -/
theorem normalize_url_idempotent_on_hosts (s : String)
    (hdom : IsAsciiUrl s = true)
    (hn : (urlsplitL s.data).netloc ≠ []) :
    normalize_url (normalize_url s) = normalize_url s :=
  congrArg String.mk
    (normalizeUrlL_idem s.data (fun c hc => List.all_eq_true.mp hdom c hc) hn)

set_option maxHeartbeats 2000000 in
/-- Witness for `normalize_url_idempotent_on_hosts`: a concrete mixed-case
Wikipedia URL with trailing slash, unsorted query and fragment. -/
theorem normalize_url_idempotent_on_hosts_witness :
    IsAsciiUrl "https://EN.Wikipedia.org/wiki/Some_Article/?b=2&a=1#top" = true ∧
    (urlsplitL "https://EN.Wikipedia.org/wiki/Some_Article/?b=2&a=1#top".data).netloc ≠ [] ∧
    normalize_url (normalize_url "https://EN.Wikipedia.org/wiki/Some_Article/?b=2&a=1#top") =
      normalize_url "https://EN.Wikipedia.org/wiki/Some_Article/?b=2&a=1#top" ∧
    normalize_url "https://EN.Wikipedia.org/wiki/Some_Article/?b=2&a=1#top" =
      "https://en.wikipedia.org/wiki/Some_Article?a=1&b=2" :=
  ⟨by decide, by decide,
    normalize_url_idempotent_on_hosts "https://EN.Wikipedia.org/wiki/Some_Article/?b=2&a=1#top"
      (by decide) (by decide), by decide⟩

/-- Loading a snapshot restores the saved state exactly. -/
theorem load_save (s : CrawlState) : load_state (save_state s) = s := rfl

/-- A handled event reached the fetch. -/
theorem handled_touched (e : CrawlEvent) (u : String) (h : handledUrl? e = some u) :
    touchedUrl? e = some u := by
  cases e <;> simp [handledUrl?, touchedUrl?] at h ⊢ <;> exact h

/-- Membership survives `setAdd`. -/
theorem setAdd_mem (l : List String) (u x : String) (h : x ∈ l) : x ∈ setAdd l u := by
  unfold setAdd
  by_cases hm : u ∈ l
  · rw [if_pos hm]
    exact h
  · rw [if_neg hm]
    exact List.mem_cons_of_mem u h

/-- The added element is in `setAdd`. -/
theorem setAdd_self (l : List String) (u : String) : u ∈ setAdd l u := by
  unfold setAdd
  by_cases hm : u ∈ l
  · rw [if_pos hm]
    exact hm
  · rw [if_neg hm]
    exact List.mem_cons_self u l

/-- One crawl step never removes canonical URLs from the registry. -/
theorem crawlStep_mono (env : String → Nat → FetchResult) (s : CrawlState)
    (x : String) (hx : x ∈ s.processed) : x ∈ (crawlStep env s).2.processed := by
  unfold crawlStep
  dsimp only
  cases (get_next_url s.queue).1 with
  | none => exact hx
  | some it =>
    dsimp only
    by_cases hd : dedup_is_processed s.processed it.url = true
    · rw [if_pos hd]
      exact hx
    · rw [if_neg hd]
      cases env it.url it.depth with
      | failure => exact setAdd_mem _ _ _ hx
      | category discovered => exact setAdd_mem _ _ _ hx
      | article => exact setAdd_mem _ _ _ hx

/-- A crawl run never removes canonical URLs from the registry. -/
theorem crawlRun_mono (env : String → Nat → FetchResult) :
    ∀ (n : Nat) (s : CrawlState) (x : String), x ∈ s.processed →
      x ∈ (crawlRun env n s).2.processed := by
  intro n
  induction n with
  | zero => exact fun s x hx => hx
  | succ m ih =>
    intro s x hx
    exact ih (crawlStep env s).2 x (crawlStep_mono env s x hx)

/-- A step that reaches the fetch does so on a canonically fresh URL and
registers it. -/
theorem crawlStep_touched (env : String → Nat → FetchResult) (s : CrawlState)
    (u : String) (h : touchedUrl? (crawlStep env s).1 = some u) :
    normalize_url u ∉ s.processed ∧ normalize_url u ∈ (crawlStep env s).2.processed := by
  unfold crawlStep at h ⊢
  dsimp only at h ⊢
  cases hg : (get_next_url s.queue).1 with
  | none =>
    rw [hg] at h
    exact absurd h (by simp [touchedUrl?])
  | some it =>
    rw [hg] at h
    dsimp only at h ⊢
    by_cases hd : dedup_is_processed s.processed it.url = true
    · rw [if_pos hd] at h ⊢
      exact absurd h (by simp [touchedUrl?])
    · rw [if_neg hd] at h ⊢
      have hfresh : normalize_url it.url ∉ s.processed := by
        intro hm
        exact hd (by simpa [dedup_is_processed] using hm)
      cases he : env it.url it.depth with
      | failure =>
        rw [he] at h
        simp only [touchedUrl?, Option.some.injEq] at h
        subst h
        exact ⟨hfresh, setAdd_self _ _⟩
      | category discovered =>
        rw [he] at h
        simp only [touchedUrl?, Option.some.injEq] at h
        subst h
        exact ⟨hfresh, setAdd_self _ _⟩
      | article =>
        rw [he] at h
        simp only [touchedUrl?, Option.some.injEq] at h
        subst h
        exact ⟨hfresh, setAdd_self _ _⟩

/-- Every fetch-reaching event of a run is canonically fresh relative to the
run's starting registry. -/
theorem crawlRun_touched_fresh (env : String → Nat → FetchResult) :
    ∀ (n : Nat) (s : CrawlState), ∀ e ∈ (crawlRun env n s).1,
      ∀ u, touchedUrl? e = some u → ∀ x ∈ s.processed, normalize_url u ≠ x := by
  intro n
  induction n with
  | zero =>
    intro s e he
    exact absurd he (List.not_mem_nil e)
  | succ m ih =>
    intro s e he u hu x hx heq
    rcases List.mem_cons.mp he with he | he
    · subst he
      exact (crawlStep_touched env s u hu).1 (heq ▸ hx)
    · exact ih (crawlStep env s).2 e he u hu x (crawlStep_mono env s x hx) heq

/-- No two fetch-reaching events of a run share a canonical URL. -/
theorem crawlRun_touched_pairwise (env : String → Nat → FetchResult) :
    ∀ (n : Nat) (s : CrawlState),
      List.Pairwise (fun e1 e2 => ∀ u1 u2, touchedUrl? e1 = some u1 →
        touchedUrl? e2 = some u2 → normalize_url u1 ≠ normalize_url u2)
        (crawlRun env n s).1 := by
  intro n
  induction n with
  | zero => exact fun s => List.Pairwise.nil
  | succ m ih =>
    intro s
    refine List.Pairwise.cons ?_ (ih (crawlStep env s).2)
    intro e' he' u1 u2 h1 h2
    have hmem := (crawlStep_touched env s u1 h1).2
    exact fun heq =>
      crawlRun_touched_fresh env m (crawlStep env s).2 e' he' u2 h2
        (normalize_url u1) hmem heq.symm

/-- A reloaded run is one long run. -/
theorem runWithReload_eq (env : String → Nat → FetchResult) :
    ∀ (n₁ n₂ : Nat) (s₀ : CrawlState),
      runWithReload env n₁ n₂ s₀ = (crawlRun env (n₁ + n₂) s₀).1 := by
  intro n₁
  induction n₁ with
  | zero =>
    intro n₂ s₀
    simp [runWithReload, crawlRun, load_save]
  | succ m ih =>
    intro n₂ s₀
    have h1 : runWithReload env (m + 1) n₂ s₀ =
        (crawlStep env s₀).1 :: runWithReload env m n₂ (crawlStep env s₀).2 := by
      simp [runWithReload, crawlRun, load_save]
    rw [h1, ih n₂ (crawlStep env s₀).2]
    rw [show m + 1 + n₂ = (m + n₂) + 1 by omega]
    rfl

/-!
## Claim theorems: crawl-loop processing (C1, C5, C10)
-/

set_option maxHeartbeats 2000000 in
/-- **C1** (counterexample).  A subsequent dequeue *can* yield a URL with the
same canonical form as one already passed to `mark_processed`: the frontier
deduplicates on raw strings, so `.../A` and `.../A#x` both enter it; the first
is dequeued and handled, and the second is still dequeued afterwards (the loop
then skips it via the registry re-check instead of handling it). -/
theorem dequeue_same_canonical_again :
    (crawlRun (fun _ _ => FetchResult.article) 2
      ⟨runAdds [("https://en.wikipedia.org/wiki/A", .article, 0),
                ("https://en.wikipedia.org/wiki/A#x", .article, 0)], []⟩).1 =
      [CrawlEvent.handledArticle "https://en.wikipedia.org/wiki/A",
       CrawlEvent.dupSkipped "https://en.wikipedia.org/wiki/A#x"] ∧
    normalize_url "https://en.wikipedia.org/wiki/A#x" =
      normalize_url "https://en.wikipedia.org/wiki/A" := by
  constructor
  · decide
  · decide

/-- **C1** (amended).  Exactly-once processing holds at the handler level:
over a full run including a mid-run save/load cycle, no two loop iterations
that reach a page handler do so for URLs with the same canonical form — the
registry is written before the fetch and re-checked after every dequeue, so a
duplicate dequeue is skipped, not re-handled. -/
theorem handler_at_most_once_per_canonical (env : String → Nat → FetchResult)
    (n₁ n₂ : Nat) (s₀ : CrawlState) :
    List.Pairwise (fun e1 e2 => ∀ u1 u2, handledUrl? e1 = some u1 →
      handledUrl? e2 = some u2 → normalize_url u1 ≠ normalize_url u2)
      (runWithReload env n₁ n₂ s₀) := by
  rw [runWithReload_eq]
  refine (crawlRun_touched_pairwise env (n₁ + n₂) s₀).imp ?_
  intro e1 e2 hr u1 u2 h1 h2
  exact hr u1 u2 (handled_touched e1 u1 h1) (handled_touched e2 u2 h2)

/-- **C5** (confirmed).  The depth gate: a category page processed at depth
`d` emits its subcategory links exactly when `d < max_depth`, always emits its
article links, and the orchestrator enqueues a discovered `/Category:` link as
CATEGORY at depth `d+1` and any other link as ARTICLE at depth `d`. -/
theorem depth_gate (max_depth : Nat) (subcategories articles : List String)
    (d : Nat) :
    (d < max_depth →
      process_category_discovered max_depth subcategories articles d =
        subcategories ++ articles) ∧
    (max_depth ≤ d →
      process_category_discovered max_depth subcategories articles d = articles) ∧
    (∀ u ∈ process_category_discovered max_depth subcategories articles d,
      (containsSub u "/Category:" = true →
        classifyDiscovered d u = (URLType.category, d + 1)) ∧
      (containsSub u "/Category:" = false →
        classifyDiscovered d u = (URLType.article, d))) := by
  refine ⟨?_, ?_, ?_⟩
  · intro hlt
    unfold process_category_discovered
    rw [if_pos hlt]
  · intro hge
    unfold process_category_discovered
    rw [if_neg (by omega)]
    rfl
  · intro u _
    constructor
    · intro hc
      unfold classifyDiscovered
      rw [if_pos hc]
    · intro hc
      unfold classifyDiscovered
      rw [if_neg (by simp [hc])]

/-- Witness for `depth_gate` at concrete depths on both sides of the limit. -/
theorem depth_gate_witness :
    process_category_discovered 3
      ["https://en.wikipedia.org/wiki/Category:S"]
      ["https://en.wikipedia.org/wiki/A"] 2 =
      ["https://en.wikipedia.org/wiki/Category:S"] ++ ["https://en.wikipedia.org/wiki/A"] ∧
    process_category_discovered 3
      ["https://en.wikipedia.org/wiki/Category:S"]
      ["https://en.wikipedia.org/wiki/A"] 3 =
      ["https://en.wikipedia.org/wiki/A"] ∧
    classifyDiscovered 2 "https://en.wikipedia.org/wiki/Category:S" =
      (URLType.category, 3) :=
  ⟨(depth_gate 3 ["https://en.wikipedia.org/wiki/Category:S"]
      ["https://en.wikipedia.org/wiki/A"] 2).1 (by decide),
    (depth_gate 3 ["https://en.wikipedia.org/wiki/Category:S"]
      ["https://en.wikipedia.org/wiki/A"] 3).2.1 (by decide),
    ((depth_gate 3 ["https://en.wikipedia.org/wiki/Category:S"]
      ["https://en.wikipedia.org/wiki/A"] 2).2.2
      "https://en.wikipedia.org/wiki/Category:S"
      (by decide)).1 (by decide)⟩

/-- **C10** (confirmed).  Commit-before-fetch permanence: `_process_url` writes
the dedup registry and the completed set before fetching, so once an iteration
reaches the fetch for a URL (in particular one whose processing ends in ERROR,
i.e. a `fetchFailed` event), no later iteration — in the same session or after
a save/load restart — reaches the fetch or a handler for any URL of the same
canonical form. -/
theorem error_outcome_permanent (env : String → Nat → FetchResult)
    (n₁ n₂ : Nat) (s₀ : CrawlState) :
    List.Pairwise (fun e1 e2 => ∀ u1 u2, e1 = CrawlEvent.fetchFailed u1 →
      touchedUrl? e2 = some u2 → normalize_url u1 ≠ normalize_url u2)
      (runWithReload env n₁ n₂ s₀) := by
  rw [runWithReload_eq]
  refine (crawlRun_touched_pairwise env (n₁ + n₂) s₀).imp ?_
  intro e1 e2 hr u1 u2 h1 h2
  exact hr u1 u2 (by rw [h1]; rfl) h2

/-- C6. Circuit breaker termination: when every HTTP attempt fails with a
transient error, every connectivity probe fails, and the operator always
answers continue, `_fetch_page` (with the default `max_retries = 3`) returns
`None` after exactly 3 operator retry cycles (3 prompts), recording exactly
three `user_retries`, exactly one `circuit_breaker_activations`, and the
outcome is a skip (`skipped_urls` incremented once, `total_failures` once). -/
theorem circuit_breaker_forces_skip (env : NetEnv)
    (hA : ∀ n, env.attemptOk n = false)
    (hC : ∀ n, env.connOk n = false)
    (hU : ∀ n, env.choice n = UserChoice.choiceContinue) :
    (fetch_page env 3 3 NetState.init).1 = some false ∧
    (fetch_page env 3 3 NetState.init).2.prompts = 3 ∧
    (fetch_page env 3 3 NetState.init).2.stats.user_retries = 3 ∧
    (fetch_page env 3 3 NetState.init).2.stats.circuit_breaker_activations = 1 ∧
    (fetch_page env 3 3 NetState.init).2.stats.skipped_urls = 1 ∧
    (fetch_page env 3 3 NetState.init).2.stats.total_failures = 1 := by
  obtain ⟨fA, fC, fU⟩ := env
  have eA : fA = fun _ => false := funext fun n => hA n
  have eC : fC = fun _ => false := funext fun n => hC n
  have eU : fU = fun _ => UserChoice.choiceContinue := funext fun n => hU n
  subst eA eC eU
  decide

/-- C6 witness: the constant all-fail, always-continue environment realizes the
hypotheses. -/
theorem circuit_breaker_forces_skip_witness :
    (fetch_page allFailEnv 3 3 NetState.init).1 = some false ∧
    (fetch_page allFailEnv 3 3 NetState.init).2.prompts = 3 ∧
    (fetch_page allFailEnv 3 3 NetState.init).2.stats.user_retries = 3 ∧
    (fetch_page allFailEnv 3 3 NetState.init).2.stats.circuit_breaker_activations = 1 ∧
    (fetch_page allFailEnv 3 3 NetState.init).2.stats.skipped_urls = 1 ∧
    (fetch_page allFailEnv 3 3 NetState.init).2.stats.total_failures = 1 :=
  circuit_breaker_forces_skip allFailEnv
    (fun _ => rfl) (fun _ => rfl) (fun _ => rfl)

/-! helper lemmas -/

theorem takeWhile_append_eq (p : Char → Bool) (a b : List Char) :
    (a ++ b).takeWhile p = if a.all p then a ++ b.takeWhile p else a.takeWhile p := by
  induction a with
  | nil => simp
  | cons x xs ih =>
    cases hx : p x with
    | true =>
      rw [List.cons_append, List.takeWhile_cons_of_pos (by simp [hx]), ih,
          List.takeWhile_cons_of_pos (by simp [hx])]
      by_cases hall : xs.all p = true
      · have hall2 : ((x :: xs).all p) = true := by simp [List.all_cons, hx, hall]
        rw [if_pos hall, if_pos hall2, List.cons_append]
      · have hall2 : ¬ (((x :: xs).all p) = true) := by simp [List.all_cons, hx, hall]
        rw [if_neg hall, if_neg hall2]
    | false =>
      have hna : ¬ (((x :: xs).all p) = true) := by simp [List.all_cons, hx]
      rw [List.cons_append, List.takeWhile_cons_of_neg (by simp [hx]), if_neg hna,
          List.takeWhile_cons_of_neg (by simp [hx])]

theorem takeWhile_eq_self_of_all (p : Char → Bool) (l : List Char) (h : l.all p = true) :
    l.takeWhile p = l :=
  List.takeWhile_eq_self_iff.mpr (by simpa [List.all_eq_true] using h)

theorem rsplitDot_some (l name ext : List Char)
    (h : rsplitDot l = (name, some ext)) : l = name ++ '.' :: ext ∧ '.' ∉ ext := by
  unfold rsplitDot at h
  cases hsp : splitFirst '.' l.reverse with
  | none => rw [hsp] at h; simp at h
  | some ba =>
    obtain ⟨b, a⟩ := ba
    rw [hsp] at h
    simp only [Prod.mk.injEq, Option.some.injEq] at h
    obtain ⟨hname, hext⟩ := h
    obtain ⟨hdec, hnb⟩ := splitFirst_some_eq '.' l.reverse b a hsp
    subst hname hext
    constructor
    · have hrr : l.reverse.reverse = (b ++ '.' :: a).reverse := by rw [hdec]
      rw [List.reverse_reverse] at hrr
      rw [hrr]
      simp [List.reverse_append]
    · simpa using hnb

theorem truncate_filename_length (l : List Char) :
    (truncate_filename l 200).length ≤ 200 := by
  unfold truncate_filename
  by_cases hl : l.length ≤ 200
  · rw [if_pos hl]; exact hl
  · rw [if_neg hl]
    cases hsp : rsplitDot l with
    | mk name extOpt =>
      cases extOpt with
      | none =>
        dsimp only
        simp [List.length_take]
      | some ext =>
        dsimp only
        by_cases ha : 0 < 200 - (ext.length + 1)
        · rw [if_pos ha]
          simp only [List.length_append, List.length_take, List.length_cons]
          omega
        · rw [if_neg ha]
          simp [List.length_take]

theorem head?_take_pos (l : List Char) (n : Nat) (hn : 0 < n) :
    (l.take n).head? = l.head? := by
  cases l with
  | nil => simp
  | cons c cs =>
    obtain ⟨m, rfl⟩ : ∃ m, n = m + 1 := ⟨n - 1, by omega⟩
    simp [List.take_succ_cons]

theorem truncate_filename_head (l : List Char) :
    (truncate_filename l 200).head? = l.head? := by
  unfold truncate_filename
  by_cases hl : l.length ≤ 200
  · rw [if_pos hl]
  · rw [if_neg hl]
    cases hsp : rsplitDot l with
    | mk name extOpt =>
      cases extOpt with
      | none =>
        dsimp only
        exact head?_take_pos l 200 (by omega)
      | some ext =>
        dsimp only
        by_cases ha : 0 < 200 - (ext.length + 1)
        · rw [if_pos ha]
          obtain ⟨hdec, -⟩ := rsplitDot_some l name ext hsp
          cases hname : name with
          | nil =>
            exfalso
            rw [hname] at hdec
            have hlen2 : l.length = ext.length + 1 := by rw [hdec]; simp
            omega
          | cons c cs =>
            subst hname
            rw [hdec]
            obtain ⟨m, hm⟩ : ∃ m, 200 - (ext.length + 1) = m + 1 :=
              ⟨200 - (ext.length + 1) - 1, by omega⟩
            rw [hm]
            simp [List.take_succ_cons]
        · rw [if_neg ha]
          exact head?_take_pos l 200 (by omega)

theorem stripDotSpace_head_not (l : List Char) (c : Char)
    (h : (stripDotSpace l).head? = some c) : isDotSpace c = false := by
  have hpre : stripDotSpace l <+: l.dropWhile isDotSpace :=
    List.rdropWhile_prefix isDotSpace (l.dropWhile isDotSpace)
  obtain ⟨t, ht⟩ := hpre
  have hne : stripDotSpace l ≠ [] := by
    intro hz; rw [hz] at h; simp at h
  have hh : (l.dropWhile isDotSpace).head? = some c := by
    rw [← ht, List.head?_append_of_ne_nil _ hne, h]
  exact head_dropWhile_false isDotSpace l c hh

theorem is_valid_filename_spec (l : List Char) (h : is_valid_filename l = true) :
    l ≠ [] ∧ (∀ c ∈ l, badChar c = false) ∧
    toUpperL (l.takeWhile fun c => ! decide (c = '.')) ∉ RESERVED_NAMES ∧
    l.head? ≠ some '.' ∧ l.getLast? ≠ some '.' ∧ l.getLast? ≠ some ' ' := by
  unfold is_valid_filename at h
  split_ifs at h with h1 h2 h3 h4
  push_neg at h1 h4
  refine ⟨h1.1, ?_, h3, h4.1, h4.2.1, h4.2.2⟩
  intro c hc
  cases hbc : badChar c with
  | false => rfl
  | true => exact absurd (List.any_eq_true.mpr ⟨c, hc, hbc⟩) h2

theorem sanitize_filename_spec (nfkc : List Char → List Char) (fn st : List Char)
    (h : sanitize_filename nfkc fn = some st) :
    is_valid_filename st = true ∧ st.length ≤ 200 ∧ st.head? ≠ some ' ' := by
  unfold sanitize_filename at h
  split_ifs at h with h1 h2 h3
  simp only [Option.some.injEq] at h
  subst h
  refine ⟨h3, truncate_filename_length _, ?_⟩
  intro hsp
  rw [truncate_filename_head] at hsp
  unfold sanitizeCore at hsp
  have hds := stripDotSpace_head_not _ _ hsp
  simp [isDotSpace] at hds

theorem reserved_short : ∀ r ∈ RESERVED_NAMES, r.length ≤ 4 := by decide

theorem listStartsWith_append_self :
    ∀ (p x : List Char), listStartsWith (p ++ x) p = true := by
  intro p
  induction p with
  | nil => intro x; cases x <;> rfl
  | cons c cs ih => intro x; simp [listStartsWith, ih]

/-- C7 (amended). Filename safety, as guaranteed by the final
`_is_valid_filename` gate: whenever `sanitize_wikipedia_title` succeeds, the
result contains none of the invalid characters and no control characters, is
at most 214 code points long (9 for an optional `category_` prefix + 200 for
the capped sanitized title + 5 for `.json`; the 200-point cap holds for the
sanitized stem, not the final name), ends with `.json`, starts with
`category_` for category pages, has a first dot-segment that is not a Windows
reserved name, and neither starts with a dot or space nor ends with one (the
last character is the `n` of `.json`). -/
theorem sanitize_wikipedia_title_safe (nfkc : List Char → List Char)
    (title out : List Char) (pcat : Bool)
    (h : sanitize_wikipedia_title nfkc title pcat = some out) :
    (∀ c ∈ out, badChar c = false) ∧
    out.length ≤ 214 ∧
    (∃ stem, out = stem ++ ".json".data) ∧
    (wikiIsCategory title pcat = true → listStartsWith out "category_".data = true) ∧
    toUpperL (out.takeWhile fun c => ! decide (c = '.')) ∉ RESERVED_NAMES ∧
    out.head? ≠ some '.' ∧ out.head? ≠ some ' ' ∧
    out.getLast? = some 'n' := by
  unfold sanitize_wikipedia_title at h
  by_cases h0 : title = []
  · rw [if_pos h0] at h; simp at h
  · rw [if_neg h0] at h
    cases hsf : sanitize_filename nfkc (wikiCleanTitle title) with
    | none => rw [hsf] at h; simp at h
    | some st =>
      rw [hsf] at h
      dsimp only at h
      obtain ⟨hgate, hlen, hnosp⟩ := sanitize_filename_spec nfkc _ st hsf
      obtain ⟨hne, hchars, hres, hhd, -, -⟩ := is_valid_filename_spec st hgate
      have hjson : ∀ c ∈ (".json".data : List Char), badChar c = false := by decide
      have hcatc : ∀ c ∈ ("category_".data : List Char), badChar c = false := by decide
      have hjtw : ((".json".data : List Char)).takeWhile (fun c => ! decide (c = '.')) = [] := by
        decide
      have h5 : ((".json".data : List Char)).length = 5 := by decide
      have h9 : ("category_".data : List Char).length = 9 := by decide
      have hjn : ((".json".data : List Char)).getLast? = some 'n' := by decide
      have hjne : ((".json".data : List Char)) ≠ [] := by decide
      split_ifs at h with hcat
      all_goals simp only [Option.some.injEq] at h
      · subst h
        refine ⟨?_, ?_, ?_, ?_, ?_, ?_, ?_, ?_⟩
        · intro c hc
          simp only [List.mem_append] at hc
          rcases hc with hc | (hc | hc)
          · exact hcatc c hc
          · exact hchars c hc
          · exact hjson c hc
        · simp only [List.length_append, List.length_cons, List.length_nil]
          omega
        · exact ⟨"category_".data ++ st, by simp⟩
        · intro _
          exact listStartsWith_append_self _ _
        · intro hmem
          rw [takeWhile_append_eq] at hmem
          have hcall : ("category_".data : List Char).all (fun c => ! decide (c = '.')) = true := by
            decide
          rw [if_pos hcall] at hmem
          have hlen4 := reserved_short _ hmem
          simp only [toUpperL, List.length_map, List.length_append, List.length_cons,
            List.length_nil] at hlen4
          omega
        · intro hx
          rw [List.head?_append_of_ne_nil _ (by decide : ("category_".data : List Char) ≠ [])] at hx
          exact absurd hx (by decide)
        · intro hx
          rw [List.head?_append_of_ne_nil _ (by decide : ("category_".data : List Char) ≠ [])] at hx
          exact absurd hx (by decide)
        · rw [List.getLast?_append_of_ne_nil _ (by simp [hne] : st ++ ".json".data ≠ [])]
          rw [List.getLast?_append_of_ne_nil _ hjne]
          exact hjn
      · subst h
        refine ⟨?_, ?_, ⟨st, rfl⟩, ?_, ?_, ?_, ?_, ?_⟩
        · intro c hc
          rcases List.mem_append.mp hc with hc | hc
          · exact hchars c hc
          · exact hjson c hc
        · simp only [List.length_append, List.length_cons, List.length_nil]
          omega
        · intro hcat2
          exact absurd hcat2 hcat
        · rw [takeWhile_append_eq]
          by_cases hall : st.all (fun c => ! decide (c = '.')) = true
          · rw [if_pos hall, hjtw, List.append_nil]
            have hts := takeWhile_eq_self_of_all _ st hall
            rw [← hts]
            exact hres
          · rw [if_neg hall]
            exact hres
        · intro hx
          rw [List.head?_append_of_ne_nil _ hne] at hx
          exact hhd hx
        · intro hx
          rw [List.head?_append_of_ne_nil _ hne] at hx
          exact hnosp hx
        · rw [List.getLast?_append_of_ne_nil _ hjne]
          exact hjn

set_option maxRecDepth 100000 in
/-- C7 counterexample. The claimed 200-code-point cap is violated: for a
title of 201 letters (NFKC acts as the identity on ASCII), the sanitizer caps
the stem at 200 characters and then appends `.json`, producing a 205-code-point
filename. (A `Category:` title of the same length yields 214.) -/
theorem sanitize_title_exceeds_length_cap :
    sanitize_wikipedia_title (fun l => l) (List.replicate 201 'a') false =
      some (List.replicate 200 'a' ++ ".json".data) ∧
    200 < (List.replicate 200 'a' ++ ".json".data).length := by
  constructor
  · rfl
  · decide

/-- C7 witness: `Category:Foo_Bar` sanitizes to `category_Foo Bar.json`,
which satisfies every property of the safety theorem. -/
theorem sanitize_wikipedia_title_safe_witness :
    (∀ c ∈ ("category_Foo Bar.json".data : List Char), badChar c = false) ∧
    ("category_Foo Bar.json".data : List Char).length ≤ 214 ∧
    (∃ stem, ("category_Foo Bar.json".data : List Char) = stem ++ ".json".data) ∧
    (wikiIsCategory "Category:Foo_Bar".data false = true →
      listStartsWith "category_Foo Bar.json".data "category_".data = true) ∧
    toUpperL (("category_Foo Bar.json".data : List Char).takeWhile fun c => ! decide (c = '.')) ∉
      RESERVED_NAMES ∧
    ("category_Foo Bar.json".data : List Char).head? ≠ some '.' ∧
    ("category_Foo Bar.json".data : List Char).head? ≠ some ' ' ∧
    ("category_Foo Bar.json".data : List Char).getLast? = some 'n' :=
  sanitize_wikipedia_title_safe (fun l => l) "Category:Foo_Bar".data
    "category_Foo Bar.json".data false (by rfl)

/-! ### C9 lemmas -/

theorem splitOnCharF_no_sep (sep : Char) (fuel : Nat) (l : List Char) (h : sep ∉ l) :
    splitOnCharF sep fuel l = [l] := by
  cases fuel with
  | zero => rfl
  | succ n =>
    unfold splitOnCharF
    rw [splitFirst_eq_none sep l h]

theorem splitOnChar_no_sep (sep : Char) (l : List Char) (h : sep ∉ l) :
    splitOnChar sep l = [l] :=
  splitOnCharF_no_sep sep l.length l h

theorem subSpacesGo_cons_space_t (c : Char) (rest : List Char) (hc : isPySpace c = true) :
    subSpacesGo true (c :: rest) = subSpacesGo true rest := by
  simp [subSpacesGo, hc]

theorem subSpacesGo_cons_space_f (c : Char) (rest : List Char) (hc : isPySpace c = true) :
    subSpacesGo false (c :: rest) = ' ' :: subSpacesGo true rest := by
  simp [subSpacesGo, hc]

theorem subSpacesGo_cons_nonspace (b : Bool) (c : Char) (rest : List Char)
    (hc : isPySpace c = false) : subSpacesGo b (c :: rest) = c :: subSpacesGo false rest := by
  cases b <;> simp [subSpacesGo, hc]

theorem collapsedL_cons_space (c : Char) (rest : List Char) (hc : isPySpace c = true) :
    collapsedL (c :: rest) =
      (decide (c = ' ') &&
        (match rest with | [] => true | d :: _ => !isPySpace d) && collapsedL rest) := by
  simp [collapsedL, hc]

theorem collapsedL_cons_nonspace (c : Char) (rest : List Char) (hc : isPySpace c = false) :
    collapsedL (c :: rest) = collapsedL rest := by
  simp [collapsedL, hc]

theorem newline_not_mem_subSpacesGo (l : List Char) :
    ∀ (b : Bool), '\n' ∉ subSpacesGo b l := by
  induction l with
  | nil => intro b; simp [subSpacesGo]
  | cons c rest ih =>
    intro b
    by_cases hc : isPySpace c = true
    · cases b with
      | true => rw [subSpacesGo_cons_space_t c rest hc]; exact ih true
      | false =>
        rw [subSpacesGo_cons_space_f c rest hc]
        simp only [List.mem_cons, not_or]
        exact ⟨by decide, ih true⟩
    · rw [subSpacesGo_cons_nonspace b c rest (by simpa using hc)]
      simp only [List.mem_cons, not_or]
      refine ⟨?_, ih false⟩
      intro hx
      subst hx
      exact hc (by decide)

theorem subSpacesGo_true_eq (l : List Char) :
    subSpacesGo true l = subSpacesGo false (l.dropWhile isPySpace) := by
  induction l with
  | nil => rfl
  | cons c rest ih =>
    by_cases hc : isPySpace c = true
    · rw [List.dropWhile_cons, if_pos hc, subSpacesGo_cons_space_t c rest hc]
      exact ih
    · rw [List.dropWhile_cons, if_neg hc,
        subSpacesGo_cons_nonspace true c rest (by simpa using hc),
        subSpacesGo_cons_nonspace false c rest (by simpa using hc)]

theorem head_subSpacesGo_true_not_space (l : List Char) (c : Char)
    (h : (subSpacesGo true l).head? = some c) : isPySpace c = false := by
  induction l with
  | nil => simp [subSpacesGo] at h
  | cons x rest ih =>
    by_cases hx : isPySpace x = true
    · rw [subSpacesGo_cons_space_t x rest hx] at h
      exact ih h
    · rw [subSpacesGo_cons_nonspace true x rest (by simpa using hx)] at h
      simp only [List.head?_cons, Option.some.injEq] at h
      subst h
      simpa using hx

theorem collapsedL_subSpacesGo (l : List Char) :
    collapsedL (subSpacesGo false l) = true ∧ collapsedL (subSpacesGo true l) = true := by
  induction l with
  | nil => exact ⟨rfl, rfl⟩
  | cons c rest ih =>
    by_cases hc : isPySpace c = true
    · constructor
      · rw [subSpacesGo_cons_space_f c rest hc]
        rw [collapsedL_cons_space ' ' _ (by decide)]
        cases hz : subSpacesGo true rest with
        | nil => rfl
        | cons d zs =>
          have hd : isPySpace d = false :=
            head_subSpacesGo_true_not_space rest d (by rw [hz]; rfl)
          have h2 := ih.2
          rw [hz] at h2
          simp [hd, h2]
      · rw [subSpacesGo_cons_space_t c rest hc]
        exact ih.2
    · have hc' : isPySpace c = false := by simpa using hc
      constructor
      · rw [subSpacesGo_cons_nonspace false c rest hc',
          collapsedL_cons_nonspace c _ hc']
        exact ih.1
      · rw [subSpacesGo_cons_nonspace true c rest hc',
          collapsedL_cons_nonspace c _ hc']
        exact ih.1

theorem subSpacesGo_of_collapsed (l : List Char) :
    (collapsedL l = true → subSpacesGo false l = l) ∧
    (collapsedL l = true → (∀ c, l.head? = some c → isPySpace c = false) →
      subSpacesGo true l = l) := by
  induction l with
  | nil => exact ⟨fun _ => rfl, fun _ _ => rfl⟩
  | cons c rest ih =>
    by_cases hc : isPySpace c = true
    · constructor
      · intro hcol
        cases rest with
        | nil =>
          rw [collapsedL_cons_space c [] hc] at hcol
          simp only [Bool.and_eq_true, decide_eq_true_eq, and_true] at hcol
          obtain ⟨hsp, -⟩ := hcol
          subst hsp
          rfl
        | cons d rs =>
          rw [collapsedL_cons_space c (d :: rs) hc] at hcol
          simp only [Bool.and_eq_true, decide_eq_true_eq, Bool.not_eq_true'] at hcol
          obtain ⟨⟨hsp, hd⟩, hrest⟩ := hcol
          subst hsp
          rw [subSpacesGo_cons_space_f _ _ hc]
          rw [ih.2 hrest ?hh]
          case hh =>
            intro e he
            simp only [List.head?_cons, Option.some.injEq] at he
            subst he
            exact hd
      · intro hcol hhead
        exact absurd (hhead c rfl) (by simp [hc])
    · have hc' : isPySpace c = false := by simpa using hc
      have hrest : collapsedL (c :: rest) = true → collapsedL rest = true := by
        intro hcol
        rwa [collapsedL_cons_nonspace c rest hc'] at hcol
      constructor
      · intro hcol
        rw [subSpacesGo_cons_nonspace false c rest hc', ih.1 (hrest hcol)]
      · intro hcol _
        rw [subSpacesGo_cons_nonspace true c rest hc', ih.1 (hrest hcol)]

theorem subSpacesGo_append_space (c0 : Char) (hc0 : isPySpace c0 = true) :
    ∀ (l : List Char), collapsedL l = true →
      (∀ c, l.getLast? = some c → isPySpace c = false) →
      subSpacesGo false (l ++ [c0]) = l ++ [' '] ∧
      (l ≠ [] → (∀ c, l.head? = some c → isPySpace c = false) →
        subSpacesGo true (l ++ [c0]) = l ++ [' ']) := by
  intro l
  induction l with
  | nil =>
    intro _ _
    constructor
    · show subSpacesGo false [c0] = [' ']
      rw [subSpacesGo_cons_space_f _ _ hc0]
      rfl
    · intro h
      exact absurd rfl h
  | cons c rest ih =>
    intro hcol hlast
    by_cases hc : isPySpace c = true
    · cases rest with
      | nil =>
        exact absurd (hlast c rfl) (by simp [hc])
      | cons d rs =>
        rw [collapsedL_cons_space c (d :: rs) hc] at hcol
        simp only [Bool.and_eq_true, decide_eq_true_eq, Bool.not_eq_true'] at hcol
        obtain ⟨⟨hsp, hd⟩, hrest⟩ := hcol
        subst hsp
        have hlast2 : ∀ e, (d :: rs).getLast? = some e → isPySpace e = false := by
          intro e he
          exact hlast e (by rw [List.getLast?_cons_cons]; exact he)
        have hih := (ih hrest hlast2).2 (by simp) ?hh
        case hh =>
          intro e he
          simp only [List.head?_cons, Option.some.injEq] at he
          subst he
          exact hd
        constructor
        · show subSpacesGo false (' ' :: ((d :: rs) ++ [c0])) = ' ' :: ((d :: rs) ++ [' '])
          rw [subSpacesGo_cons_space_f _ _ hc, hih]
        · intro _ hhead
          exact absurd (hhead ' ' rfl) (by simp [hc])
    · have hc' : isPySpace c = false := by simpa using hc
      have hrest : collapsedL rest = true := by
        rwa [collapsedL_cons_nonspace c rest hc'] at hcol
      have hlast2 : ∀ e, rest.getLast? = some e → isPySpace e = false := by
        intro e he
        cases rest with
        | nil => simp at he
        | cons d rs => exact hlast e (by rw [List.getLast?_cons_cons]; exact he)
      have hih := (ih hrest hlast2).1
      constructor
      · show subSpacesGo false (c :: (rest ++ [c0])) = c :: (rest ++ [' '])
        rw [subSpacesGo_cons_nonspace false _ _ hc', hih]
      · intro _ _
        show subSpacesGo true (c :: (rest ++ [c0])) = c :: (rest ++ [' '])
        rw [subSpacesGo_cons_nonspace true _ _ hc', hih]

theorem collapsedL_append_left (a : List Char) :
    ∀ (b : List Char), collapsedL (a ++ b) = true → collapsedL a = true := by
  induction a with
  | nil => intro b _; rfl
  | cons c rest ih =>
    intro b h
    simp only [List.cons_append] at h
    by_cases hc : isPySpace c = true
    · cases rest with
      | nil =>
        simp only [List.nil_append] at h
        rw [collapsedL_cons_space c b hc] at h
        rw [collapsedL_cons_space c [] hc]
        simp only [Bool.and_eq_true, decide_eq_true_eq] at h
        simp [h.1.1, collapsedL]
      | cons d rs =>
        rw [collapsedL_cons_space c ((d :: rs) ++ b) hc] at h
        rw [collapsedL_cons_space c (d :: rs) hc]
        simp only [List.cons_append, Bool.and_eq_true, decide_eq_true_eq] at h
        obtain ⟨⟨hsp, hd⟩, hrest⟩ := h
        have hres : collapsedL (d :: rs) = true :=
          ih b (by simpa [List.cons_append] using hrest)
        simp only [Bool.and_eq_true, decide_eq_true_eq]
        exact ⟨⟨hsp, hd⟩, hres⟩
    · have hc' : isPySpace c = false := by simpa using hc
      rw [collapsedL_cons_nonspace c (rest ++ b) hc'] at h
      rw [collapsedL_cons_nonspace c rest hc']
      exact ih b h

theorem dropWhile_append_eq (p : Char → Bool) (x y : List Char) :
    (x ++ y).dropWhile p =
      if (x.dropWhile p).isEmpty then y.dropWhile p else x.dropWhile p ++ y := by
  induction x with
  | nil => simp
  | cons c cs ih =>
    by_cases hc : p c = true
    · simp only [List.cons_append, List.dropWhile_cons, hc, if_true, ih]
    · simp [List.cons_append, List.dropWhile_cons, hc]

theorem pyRstrip_append (a b : List Char) :
    pyRstrip (a ++ b) = if (pyRstrip b).isEmpty then pyRstrip a else a ++ pyRstrip b := by
  unfold pyRstrip
  rw [List.reverse_append, dropWhile_append_eq]
  by_cases hb : (b.reverse.dropWhile isPySpace).isEmpty = true
  · rw [if_pos hb, if_pos (by simpa using hb)]
  · rw [if_neg hb, if_neg (by simpa using hb), List.reverse_append, List.reverse_reverse]

theorem pyRstrip_eq_nil_iff (l : List Char) :
    pyRstrip l = [] ↔ ∀ c ∈ l, isPySpace c = true := by
  unfold pyRstrip
  rw [List.reverse_eq_nil_iff, List.dropWhile_eq_nil_iff]
  constructor
  · intro h c hc
    exact h c (List.mem_reverse.mpr hc)
  · intro h c hc
    exact h c (List.mem_reverse.mp hc)

theorem pyRstrip_getLast_not_space (l : List Char) (c : Char)
    (h : (pyRstrip l).getLast? = some c) : isPySpace c = false := by
  unfold pyRstrip at h
  rw [List.getLast?_reverse] at h
  exact head_dropWhile_false isPySpace l.reverse c h

theorem pyRstrip_eq_self (l : List Char)
    (h : ∀ c, l.getLast? = some c → isPySpace c = false) : pyRstrip l = l := by
  unfold pyRstrip
  cases hl : l.reverse with
  | nil =>
    rw [List.reverse_eq_nil_iff] at hl
    simp [hl]
  | cons c cs =>
    have hc : l.getLast? = some c := by
      rw [← List.head?_reverse, hl]
      rfl
    rw [List.dropWhile_cons, if_neg (by simp [h c hc])]
    rw [← hl, List.reverse_reverse]

theorem pyRstrip_prefix (l : List Char) : pyRstrip l <+: l :=
  List.rdropWhile_prefix isPySpace l

theorem pyRstrip_ne_nil (l : List Char) (c : Char) (hc : l.head? = some c)
    (hns : isPySpace c = false) : pyRstrip l ≠ [] := by
  intro h
  rw [pyRstrip_eq_nil_iff] at h
  have hmem : c ∈ l := by
    cases l with
    | nil => simp at hc
    | cons d ds =>
      simp only [List.head?_cons, Option.some.injEq] at hc
      subst hc
      exact List.mem_cons_self _ _
  rw [h c hmem] at hns
  cases hns

theorem pyRstrip_head (l : List Char) (hne : pyRstrip l ≠ []) :
    l.head? = (pyRstrip l).head? := by
  obtain ⟨t, ht⟩ := pyRstrip_prefix l
  conv_lhs => rw [← ht]
  rw [List.head?_append_of_ne_nil _ hne]

theorem pyStrip_as_rstrip (l : List Char) :
    pyStrip l = pyRstrip (l.dropWhile isPySpace) := rfl

theorem dropWhile_of_head_false (p : Char → Bool) (l : List Char)
    (h : ∀ c, l.head? = some c → p c = false) : l.dropWhile p = l := by
  cases l with
  | nil => rfl
  | cons c cs =>
    rw [List.dropWhile_cons, if_neg (by simp [h c rfl])]

theorem pyStrip_trailing_space (line : List Char)
    (hh : ∀ c, line.head? = some c → isPySpace c = false)
    (hl : ∀ c, line.getLast? = some c → isPySpace c = false) :
    pyStrip (line ++ [' ']) = line := by
  cases line with
  | nil => decide
  | cons d ds =>
    have hh2 : ∀ c, ((d :: ds) ++ [' ']).head? = some c → isPySpace c = false := by
      intro c hc
      rw [List.cons_append, List.head?_cons] at hc
      exact hh c hc
    rw [pyStrip_as_rstrip, dropWhile_of_head_false isPySpace _ hh2]
    rw [pyRstrip_append, if_pos (by decide)]
    exact pyRstrip_eq_self _ hl

theorem pyStrip_ends_eq_self (line : List Char)
    (hh : ∀ c, line.head? = some c → isPySpace c = false)
    (hl : ∀ c, line.getLast? = some c → isPySpace c = false) :
    pyStrip line = line := by
  rw [pyStrip_as_rstrip, dropWhile_of_head_false isPySpace line hh]
  exact pyRstrip_eq_self line hl

theorem pyStrip_ne_nil (l : List Char) (c : Char) (hc : l.head? = some c)
    (hns : isPySpace c = false) : pyStrip l ≠ [] := by
  rw [pyStrip_as_rstrip, dropWhile_of_head_false isPySpace l ?hd]
  case hd =>
    intro e he
    rw [hc] at he
    cases he
    exact hns
  exact pyRstrip_ne_nil l c hc hns

theorem pyStrip_head_not_space (l : List Char) (c : Char)
    (h : (pyStrip l).head? = some c) : isPySpace c = false := by
  rw [pyStrip_as_rstrip] at h
  by_cases hne : pyRstrip (l.dropWhile isPySpace) = []
  · rw [hne] at h
    simp at h
  · rw [← pyRstrip_head _ hne] at h
    exact head_dropWhile_false isPySpace l c h

theorem subTripleNlF_no_nl (fuel : Nat) :
    ∀ (l : List Char), '\n' ∉ l → subTripleNlF fuel l = l := by
  induction fuel with
  | zero => intro l _; rfl
  | succ n ih =>
    intro l h
    cases l with
    | nil => rfl
    | cons c rest =>
      have hc : ¬(c = '\n') := fun hx => h (hx ▸ List.mem_cons_self c rest)
      unfold subTripleNlF
      rw [if_neg hc, ih rest (fun hm => h (List.mem_cons_of_mem c hm))]

theorem subTripleNl_no_nl (l : List Char) (h : '\n' ∉ l) : subTripleNl l = l :=
  subTripleNlF_no_nl l.length l h

theorem collapseNlRunsF_no_nl (fuel : Nat) :
    ∀ (l : List Char), '\n' ∉ l → collapseNlRunsF fuel l = l := by
  induction fuel with
  | zero => intro l _; rfl
  | succ n ih =>
    intro l h
    cases l with
    | nil => rfl
    | cons c rest =>
      have hc : ¬(c = '\n') := fun hx => h (hx ▸ List.mem_cons_self c rest)
      unfold collapseNlRunsF
      rw [if_neg hc, ih rest (fun hm => h (List.mem_cons_of_mem c hm))]

theorem collapseNlRuns_no_nl (l : List Char) (h : '\n' ∉ l) : collapseNlRuns l = l :=
  collapseNlRunsF_no_nl l.length l h

theorem subLiteralCIF_not_contains (pat : List Char) (fuel : Nat) :
    ∀ (l : List Char), containsSubL (toLowerL l) pat = false →
      subLiteralCIF pat fuel l = l := by
  induction fuel with
  | zero => intro l _; rfl
  | succ n ih =>
    intro l h
    cases l with
    | nil => rfl
    | cons c rest =>
      have hcl : toLowerL (c :: rest) = Char.toLower c :: toLowerL rest := rfl
      unfold containsSubL at h
      rw [hcl] at h
      simp only [Bool.or_eq_false_iff] at h
      obtain ⟨hsw, hrest⟩ := h
      unfold subLiteralCIF
      rw [hcl, if_neg (by simp [hsw])]
      rw [ih rest hrest]

theorem subLiteralCI_not_contains (pat l : List Char)
    (h : containsSubL (toLowerL l) pat = false) : subLiteralCI pat l = l :=
  subLiteralCIF_not_contains pat l.length l h

theorem subCiteNumF_not_has (fuel : Nat) :
    ∀ (l : List Char), hasCiteNum l = false → subCiteNumF fuel l = l := by
  induction fuel with
  | zero => intro l _; rfl
  | succ n ih =>
    intro l h
    cases l with
    | nil => rfl
    | cons c rest =>
      unfold hasCiteNum at h
      simp only [Bool.or_eq_false_iff] at h
      obtain ⟨hiso, hrest⟩ := h
      have hnone : citeAt (c :: rest) = none := by
        cases hca : citeAt (c :: rest) with
        | none => rfl
        | some a => rw [hca] at hiso; simp at hiso
      unfold subCiteNumF
      rw [hnone, ih rest hrest]

theorem subCiteNum_not_has (l : List Char) (h : hasCiteNum l = false) :
    subCiteNum l = l :=
  subCiteNumF_not_has l.length l h

theorem literal_fold_id (l : List Char)
    (h : ∀ p ∈ CITATION_LITERAL_PATTERNS, containsSubL (toLowerL l) p = false) :
    CITATION_LITERAL_PATTERNS.foldl (fun acc p => subLiteralCI p acc) l = l := by
  have e : CITATION_LITERAL_PATTERNS =
      ["[citation needed]".data, "[clarification needed]".data, "[when?]".data,
       "[who?]".data, "[where?]".data, "[edit]".data] := rfl
  rw [e]
  simp only [List.foldl_cons, List.foldl_nil]
  rw [subLiteralCI_not_contains "[citation needed]".data l
    (h "[citation needed]".data (by rw [e]; exact List.mem_cons_self _ _))]
  rw [subLiteralCI_not_contains "[clarification needed]".data l
    (h "[clarification needed]".data (by rw [e]; simp))]
  rw [subLiteralCI_not_contains "[when?]".data l
    (h "[when?]".data (by rw [e]; simp))]
  rw [subLiteralCI_not_contains "[who?]".data l
    (h "[who?]".data (by rw [e]; simp))]
  rw [subLiteralCI_not_contains "[where?]".data l
    (h "[where?]".data (by rw [e]; simp))]
  rw [subLiteralCI_not_contains "[edit]".data l
    (h "[edit]".data (by rw [e]; simp))]

theorem intercalate_single (x : List Char) : List.intercalate ['\n'] [x] = x := by
  simp [List.intercalate]

theorem head?_eq_of_prefix (a l : List Char) (h : a <+: l) (hne : a ≠ []) :
    l.head? = a.head? := by
  obtain ⟨t, rfl⟩ := h
  rw [List.head?_append_of_ne_nil _ hne]

theorem head?_dropLast (l : List Char) (h : 2 ≤ l.length) :
    l.dropLast.head? = l.head? := by
  cases l with
  | nil => simp at h
  | cons c cs =>
    cases cs with
    | nil => simp at h
    | cons d ds =>
      show (c :: (d :: ds).dropLast).head? = _
      simp

theorem headerFix_head (line : List Char) : (headerFix line).head? = line.head? := by
  unfold headerFix
  split
  · rfl
  next h0 =>
    have hne : line.takeWhile (fun c => decide (c = '#')) ≠ [] := by
      simpa [List.isEmpty_iff] using h0
    have htw : line.head? = (line.takeWhile fun c => decide (c = '#')).head? :=
      head?_eq_of_prefix _ _ ( List.takeWhile_prefix _) hne
    have hdl : ∀ (h2 : 2 ≤ (line.takeWhile fun c => decide (c = '#')).length),
        (line.takeWhile fun c => decide (c = '#')).dropLast ≠ [] := by
      intro h2 hz
      have := congrArg List.length hz
      rw [List.length_dropLast] at this
      simp only [List.length_nil] at this
      omega
    split
    next c r2 heq =>
      split
      · rw [List.head?_append_of_ne_nil _ hne]
        exact htw.symm
      · split
        next h2 =>
          rw [List.head?_append_of_ne_nil _ (hdl h2), head?_dropLast _ h2]
          exact htw.symm
        next h2 => rfl
    next heq =>
      split
      next h2 =>
        rw [List.head?_append_of_ne_nil _ (hdl h2), head?_dropLast _ h2]
        exact htw.symm
      next h2 => rfl

theorem listFix_head (line : List Char) : (listFix line).head? = line.head? := by
  unfold listFix
  split
  next m c rest =>
    split
    · rfl
    · rfl
  next => rfl

theorem numFix_head (line : List Char) : (numFix line).head? = line.head? := by
  unfold numFix
  split
  · rfl
  next h0 =>
    have hne : line.takeWhile Char.isDigit ≠ [] := by
      simpa [List.isEmpty_iff] using h0
    have htw : line.head? = (line.takeWhile Char.isDigit).head? :=
      head?_eq_of_prefix _ _ ( List.takeWhile_prefix _) hne
    split
    next c rest2 heq =>
      split
      · rfl
      · rw [List.head?_append_of_ne_nil _ hne]
        exact htw.symm
    next heq => rfl

theorem fixPhases_head (line : List Char) : (fixPhases line).head? = line.head? := by
  unfold fixPhases
  have h1 : (if line.head? = some '#' then headerFix line else line).head? = line.head? := by
    split
    · exact headerFix_head line
    · rfl
  have h2 : ∀ (z : List Char), (if listGuard z then listFix z else z).head? = z.head? := by
    intro z
    split
    · exact listFix_head z
    · rfl
  have h3 : ∀ (z : List Char), (if numGuard z then numFix z else z).head? = z.head? := by
    intro z
    split
    · exact numFix_head z
    · rfl
  rw [h3, h2, h1]

theorem fix_markdown_head (line : List Char) (c : Char) (hc : line.head? = some c)
    (hns : isPySpace c = false) :
    (fix_markdown_formatting line).head? = some c := by
  have hl3 : (fixPhases line).head? = some c := by rw [fixPhases_head, hc]
  obtain ⟨t, ht⟩ : ∃ t, fixPhases line = c :: t := by
    cases hf : fixPhases line with
    | nil => rw [hf] at hl3; simp at hl3
    | cons a as =>
      rw [hf] at hl3
      simp only [List.head?_cons, Option.some.injEq] at hl3
      subst hl3
      exact ⟨as, rfl⟩
  unfold fix_markdown_formatting subSpaces
  rw [ht, subSpacesGo_cons_nonspace false c t hns]
  rfl

theorem fix_nonl (line : List Char) : '\n' ∉ fix_markdown_formatting line :=
  newline_not_mem_subSpacesGo (fixPhases line) false

theorem fix_collapsed (line : List Char) : collapsedL (fix_markdown_formatting line) = true :=
  (collapsedL_subSpacesGo (fixPhases line)).1

theorem formatLines_single (c1 : List Char) :
    formatLines [] [c1] =
      if (pyStrip c1).isEmpty then [] else [fix_markdown_formatting (pyStrip c1)] := by
  unfold formatLines
  split
  · rfl
  · rfl

theorem process_text_shape (x : List Char) :
    process_content_text x = [] ∨
    ∃ line, process_content_text x = line ++ ['\n'] ∧
      line ≠ [] ∧ '\n' ∉ line ∧ collapsedL line = true ∧
      (∀ c, line.head? = some c → isPySpace c = false) ∧
      (∀ c, line.getLast? = some c → isPySpace c = false) := by
  have hz : apply_cleanup_patterns x =
      subSpaces (CITATION_LITERAL_PATTERNS.foldl (fun acc p => subLiteralCI p acc)
        (subCiteNum x)) := by
    unfold apply_cleanup_patterns
    exact subTripleNl_no_nl _ (newline_not_mem_subSpacesGo _ false)
  have hnl : '\n' ∉ apply_cleanup_patterns x := by
    rw [hz]
    exact newline_not_mem_subSpacesGo _ false
  unfold process_content_text final_formatting
  dsimp only
  rw [splitOnChar_no_sep '\n' _ hnl, formatLines_single]
  by_cases hse : (pyStrip (apply_cleanup_patterns x)).isEmpty = true
  · rw [if_pos hse]
    left
    rfl
  · rw [if_neg hse]
    right
    obtain ⟨d, hd⟩ : ∃ d, (pyStrip (apply_cleanup_patterns x)).head? = some d := by
      cases hps : pyStrip (apply_cleanup_patterns x) with
      | nil => rw [hps] at hse; simp at hse
      | cons a as => exact ⟨a, rfl⟩
    have hdns : isPySpace d = false := pyStrip_head_not_space _ d hd
    have hwhead : (fix_markdown_formatting (pyStrip (apply_cleanup_patterns x))).head? =
        some d := fix_markdown_head _ d hd hdns
    have hwnl : '\n' ∉ fix_markdown_formatting (pyStrip (apply_cleanup_patterns x)) :=
      fix_nonl _
    have hwcol : collapsedL (fix_markdown_formatting (pyStrip (apply_cleanup_patterns x))) =
        true := fix_collapsed _
    rw [intercalate_single, collapseNlRuns_no_nl _ hwnl]
    have hpsne : pyStrip (fix_markdown_formatting (pyStrip (apply_cleanup_patterns x))) ≠ [] :=
      pyStrip_ne_nil _ d hwhead hdns
    rw [if_neg (by simpa [List.isEmpty_iff] using hpsne)]
    refine ⟨pyRstrip (fix_markdown_formatting (pyStrip (apply_cleanup_patterns x))),
      rfl, ?_, ?_, ?_, ?_, ?_⟩
    · exact pyRstrip_ne_nil _ d hwhead hdns
    · intro hm
      obtain ⟨t, ht⟩ := pyRstrip_prefix
        (fix_markdown_formatting (pyStrip (apply_cleanup_patterns x)))
      exact hwnl (ht ▸ List.mem_append_left t hm)
    · obtain ⟨t, ht⟩ := pyRstrip_prefix
        (fix_markdown_formatting (pyStrip (apply_cleanup_patterns x)))
      exact collapsedL_append_left _ t (by rw [ht]; exact hwcol)
    · intro c hc
      have hne2 := pyRstrip_ne_nil
        (fix_markdown_formatting (pyStrip (apply_cleanup_patterns x))) d hwhead hdns
      rw [← pyRstrip_head _ hne2, hwhead] at hc
      cases hc
      exact hdns
    · exact fun c hc => pyRstrip_getLast_not_space _ c hc

theorem process_text_fixpoint (line : List Char)
    (hne : line ≠ []) (hnl : '\n' ∉ line) (hcol : collapsedL line = true)
    (hh : ∀ c, line.head? = some c → isPySpace c = false)
    (hl : ∀ c, line.getLast? = some c → isPySpace c = false)
    (hfix : fix_markdown_formatting line = line)
    (hmf : markerFree (line ++ ['\n']) = true) :
    process_content_text (line ++ ['\n']) = line ++ ['\n'] := by
  have hmf2 : hasCiteNum (line ++ ['\n']) = false ∧
      ∀ p ∈ CITATION_LITERAL_PATTERNS,
        containsSubL (toLowerL (line ++ ['\n'])) p = false := by
    unfold markerFree at hmf
    simp only [Bool.and_eq_true, Bool.not_eq_true', List.all_eq_true] at hmf
    exact ⟨hmf.1, fun p hp => by simpa using hmf.2 p hp⟩
  have hnl2 : '\n' ∉ line ++ [' '] := by
    intro hm
    rcases List.mem_append.mp hm with hm | hm
    · exact hnl hm
    · simp at hm
  have hcl : apply_cleanup_patterns (line ++ ['\n']) = line ++ [' '] := by
    unfold apply_cleanup_patterns
    rw [subCiteNum_not_has _ hmf2.1, literal_fold_id _ hmf2.2]
    rw [show subSpaces (line ++ ['\n']) = line ++ [' '] from
      (subSpacesGo_append_space '\n' (by decide) line hcol hl).1]
    exact subTripleNl_no_nl _ hnl2
  unfold process_content_text
  rw [hcl]
  unfold final_formatting
  dsimp only
  rw [splitOnChar_no_sep '\n' _ hnl2, formatLines_single, pyStrip_trailing_space line hh hl]
  rw [if_neg (show ¬(line.isEmpty = true) from by simpa [List.isEmpty_iff] using hne)]
  rw [hfix, intercalate_single, collapseNlRuns_no_nl _ hnl]
  have hpsne : pyStrip line ≠ [] := by
    obtain ⟨d, ds, hds⟩ : ∃ d ds, line = d :: ds := by
      cases line with
      | nil => exact absurd rfl hne
      | cons d ds => exact ⟨d, ds, rfl⟩
    exact pyStrip_ne_nil line d (by rw [hds]; rfl) (hh d (by rw [hds]; rfl))
  rw [if_neg (show ¬((pyStrip line).isEmpty = true) from by
    simpa [List.isEmpty_iff] using hpsne)]
  rw [pyRstrip_eq_self line hl]

/-- C9 (amended). One pass of the text pipeline produces either the empty string
or a single newline-free line terminated by exactly one newline (the cleanup
rule replacing every whitespace run by one space removes all interior
newlines). A second pass returns this output unchanged provided the line is
free of citation/edit markers and is a fixed point of the per-line markdown
spacing fixer. Without those provisos idempotence FAILS (see the
counterexample): nested citation markers leave a residue that a second pass
removes, and the header regex `^(#+)([^\s])` re-splits multi-`#` headers on
every pass. -/
theorem process_content_text_second_pass (x : List Char) :
    (process_content_text x = [] ∨
      ∃ line, process_content_text x = line ++ ['\n'] ∧ '\n' ∉ line) ∧
    (∀ line, process_content_text x = line ++ ['\n'] →
      fix_markdown_formatting line = line →
      markerFree (line ++ ['\n']) = true →
      process_content_text (process_content_text x) = process_content_text x) := by
  rcases process_text_shape x with hsh | ⟨line0, heq, hne, hnl, hcol, hh, hl⟩
  · constructor
    · exact Or.inl hsh
    · intro line heq _ _
      rw [hsh] at heq
      exact absurd heq.symm (by simp)
  · constructor
    · exact Or.inr ⟨line0, heq, hnl⟩
    · intro line heq2 hfix hmf
      have hline : line0 = line := by
        have := heq.symm.trans heq2
        simpa using this
      subst hline
      rw [heq]
      exact process_text_fixpoint line0 hne hnl hcol hh hl hfix hmf

/-- C9 counterexample. The pipeline is not idempotent: `[1[2]3]` maps to
`[13]\n`, which a second pass maps to the empty string (the residual `[13]`
now matches the citation pattern); and `##Intro` maps to `## Intro\n`, which a
second pass maps to `# # Intro\n` (the header regex backtracks: `(#+)` gives up
one `#` so that `([^\s])` can match, inserting a space inside the run). -/
theorem process_content_text_not_idempotent :
    (process_content_text (process_content_text "[1[2]3]".data) ≠
        process_content_text "[1[2]3]".data ∧
      process_content_text "[1[2]3]".data = "[13]\n".data ∧
      process_content_text "[13]\n".data = []) ∧
    (process_content_text (process_content_text "##Intro".data) ≠
        process_content_text "##Intro".data ∧
      process_content_text "##Intro".data = "## Intro\n".data ∧
      process_content_text "## Intro\n".data = "# # Intro\n".data) := by
  refine ⟨⟨?_, rfl, rfl⟩, ⟨?_, rfl, rfl⟩⟩
  · decide
  · decide

/-- C9 witness: `Hello   world[1]` maps to `Hello world\n`, whose line is
marker-free and markdown-fixed, so the second pass is the identity on it. -/
theorem process_content_text_second_pass_witness :
    process_content_text (process_content_text "Hello   world[1]".data) =
      process_content_text "Hello   world[1]".data :=
  (process_content_text_second_pass "Hello   world[1]".data).2 "Hello world".data
    (by rfl) (by rfl) (by rfl)

end WikiCrawler








